import Mathlib

/-!
Verification development for the cherrymusic media-path indexing core.

The Python sources are shallowly embedded:
* strings are lists of code points (`Str`), byte sequences lists of naturals
  below 256 (`Bytes`);
* `posixpath.normpath`, `posixpath.split`, `posixpath.join` and
  `os.path.normcase` (identity on POSIX) are translated from CPython;
* `os.fsdecode`/`os.fsencode` are UTF-8 with the `surrogateescape` error
  handler;
* the `Path` value type (`cherrymusic/files.py`) becomes `PathV` with its
  constructor `mkPath`, cached/derived attributes and Python `==` semantics;
* the directory walker, the circular-symlink filter, the sqlite session and
  migration runner, and the media store (`paths`/`ancestors` tables, the
  AFTER INSERT closure trigger and the two read views) are modelled as pure
  state-passing functions over explicit table states.
-/

namespace Cherry

/-- Code points; a Python `str` is a list of them. -/
abbrev Str := List Nat

/-- Raw bytes; a Python `bytes` is a list of naturals below 256. -/
abbrev Bytes := List Nat

/-- POSIX path separator `'/'` (`os.path.sep`; `os.path.altsep` is `None`). -/
def sep : Nat := 47

/-- `os.path.normcase` is the identity on POSIX. -/
def normcase (s : Str) : Str := s

/-! ## UTF-8 with surrogateescape (`os.fsdecode` / `os.fsencode`) -/

/-- a UTF-8 continuation byte, `0x80..0xBF` -/
def contB (b : Nat) : Bool := 128 ≤ b ∧ b ≤ 191

/-- valid 2-byte UTF-8 sequence head+continuation (excludes overlong `C0`/`C1`) -/
def isV2 (b c1 : Nat) : Bool := 194 ≤ b ∧ b ≤ 223 ∧ contB c1

/-- valid 3-byte UTF-8 sequence (excludes overlongs and the surrogate range) -/
def isV3 (b c1 c2 : Nat) : Bool :=
  224 ≤ b ∧ b ≤ 239 ∧ contB c1 ∧ contB c2 ∧
  (b = 224 → 160 ≤ c1) ∧ (b = 237 → c1 ≤ 159)

/-- valid 4-byte UTF-8 sequence (excludes overlongs and values above U+10FFFF) -/
def isV4 (b c1 c2 c3 : Nat) : Bool :=
  240 ≤ b ∧ b ≤ 244 ∧ contB c1 ∧ contB c2 ∧ contB c3 ∧
  (b = 240 → 144 ≤ c1) ∧ (b = 244 → c1 ≤ 143)

/-- code point of a 2-byte sequence -/
def cp2 (b c1 : Nat) : Nat := (b - 192) * 64 + (c1 - 128)

/-- code point of a 3-byte sequence -/
def cp3 (b c1 c2 : Nat) : Nat := (b - 224) * 4096 + (c1 - 128) * 64 + (c2 - 128)

/-- code point of a 4-byte sequence -/
def cp4 (b c1 c2 c3 : Nat) : Nat :=
  (b - 240) * 262144 + (c1 - 128) * 4096 + (c2 - 128) * 64 + (c3 - 128)

/-- fuel-indexed UTF-8 decoding loop; the fuel only serves structural
termination and one unit is spent per decoded character, so any fuel of at
least the input length yields the decoding -/
def fsdecodeF : Nat → List Nat → List Nat
  | _, [] => []
  | 0, _ :: _ => []
  | f + 1, b :: rest =>
    if b < 128 then b :: fsdecodeF f rest
    else
      match rest with
      | [] => [56320 + b]
      | c1 :: r2 =>
        if isV2 b c1 then cp2 b c1 :: fsdecodeF f r2
        else
          match r2 with
          | [] => (56320 + b) :: fsdecodeF f rest
          | c2 :: r3 =>
            if isV3 b c1 c2 then cp3 b c1 c2 :: fsdecodeF f r3
            else
              match r3 with
              | [] => (56320 + b) :: fsdecodeF f rest
              | c3 :: r4 =>
                if isV4 b c1 c2 c3 then cp4 b c1 c2 c3 :: fsdecodeF f r4
                else (56320 + b) :: fsdecodeF f rest

/-- `os.fsdecode`: strict UTF-8 decoding where every undecodable byte is
tunneled as the lone low surrogate `0xDC00 + byte` (PEP 383 surrogateescape,
one surrogate per byte). -/
def fsdecode (l : List Nat) : List Nat := fsdecodeF l.length l

/-- UTF-8 encoding of a single code point with surrogateescape: low surrogates
`0xDC80..0xDCFF` re-emit the tunneled byte, other surrogates (and values past
U+10FFFF) fail as CPython's encoder does. -/
def encodeChar (c : Nat) : Option (List Nat) :=
  if c < 128 then some [c]
  else if c < 2048 then some [192 + c / 64, 128 + c % 64]
  else if 55296 ≤ c ∧ c ≤ 57343 then
    if 56448 ≤ c ∧ c ≤ 56575 then some [c - 56320] else none
  else if c < 65536 then some [224 + c / 4096, 128 + c / 64 % 64, 128 + c % 64]
  else if c ≤ 1114111 then
    some [240 + c / 262144, 128 + c / 4096 % 64, 128 + c / 64 % 64, 128 + c % 64]
  else none

/-- `os.fsencode`: encode each code point, failing if any is unencodable. -/
def fsencode : List Nat → Option (List Nat)
  | [] => some []
  | c :: cs => do
    let b ← encodeChar c
    let bs ← fsencode cs
    pure (b ++ bs)

/-! ## posixpath primitives -/

/-- one iteration of the component loop in `posixpath.normpath` -/
def normStep (initialSlashes : Nat) (acc : List Str) (comp : Str) : List Str :=
  if comp = [] ∨ comp = [46] then acc
  else if comp ≠ [46, 46] ∨ (initialSlashes = 0 ∧ acc = []) ∨
          (acc ≠ [] ∧ acc.getLast? = some [46, 46]) then
    acc ++ [comp]
  else if acc ≠ [] then acc.dropLast
  else acc

/-- number of leading separators `posixpath.normpath` preserves (POSIX keeps
exactly two leading slashes special) -/
def initSlashes (p : Str) : Nat :=
  if [47, 47].isPrefixOf p ∧ ¬ [47, 47, 47].isPrefixOf p then 2
  else if [47].isPrefixOf p then 1 else 0

/-- `posixpath.normpath` -/
def normpath (p : Str) : Str :=
  if p = [] then [46]
  else
    let ns := initSlashes p
    let comps := (p.splitOn 47).foldl (normStep ns) []
    let joined := List.replicate ns 47 ++ List.intercalate [47] comps
    if joined = [] then [46] else joined

/-- Python `str.rstrip('/')` -/
def rstripSep (s : Str) : Str := (s.reverse.dropWhile (· = 47)).reverse

/-- `posixpath.split`: break off the component after the last separator; strip
trailing separators from the head unless it consists only of separators. -/
def osSplit (p : Str) : Str × Str :=
  let tail := (p.reverse.takeWhile (· ≠ 47)).reverse
  let head := p.take (p.length - tail.length)
  if head ≠ [] ∧ head.any (· ≠ 47) then (rstripSep head, tail) else (head, tail)

/-- `posixpath.join` with two arguments -/
def join2 (a b : Str) : Str :=
  if [47].isPrefixOf b then b
  else if a = [] ∨ a.getLast? = some 47 then a ++ b
  else a ++ 47 :: b

/-! ## the Path value type (`cherrymusic/files.py`) -/

/-- a value that is either a Python `str` or `bytes` -/
inductive PyStr where
  | str (s : Str)
  | bytes (b : Bytes)
deriving DecidableEq

/-- `os.fsdecode` applied to a str-or-bytes value -/
def fsdecodeArg : PyStr → Str
  | .str s => s
  | .bytes b => fsdecode b

/-- the keyword arguments `Path.__init__` inspects -/
structure Kw where
  depth : Option Int := none
  is_dir : Option Bool := none
  is_symlink : Option Bool := none
deriving DecidableEq

/-- the state of a constructed `Path`: interned `name`/`parent` strings plus
whichever cached attributes were supplied at construction -/
structure PathV where
  name : Str
  parent : Str
  depthK : Option Int := none
  isDirK : Option Bool := none
  isLinkK : Option Bool := none
deriving DecidableEq

/-- `Path.path`: `(parent and parent + os.path.sep) + name` -/
def PathV.path (P : PathV) : Str :=
  (if P.parent ≠ [] then P.parent ++ [47] else []) ++ P.name

/-- depth as computed by the `depth` cached property: the signed number of
non-`..` components of `pathlib.PurePath(self).parts`, the root part dropped -/
def depthOfStr (s : Str) : Int :=
  ((s.splitOn 47).filter (fun c => c ≠ [] ∧ c ≠ [46])).foldl
    (fun d c => if c = [46, 46] then d - 1 else d + 1) 0

/-- `Path.depth`: the cached value if one was supplied, else computed -/
def PathV.depth (P : PathV) : Int := P.depthK.getD (depthOfStr P.path)

/-- `is_simple_name` in `Path.__init__`: a `str` that is none of `''`, `'.'`,
`'..'` and contains no separator -/
def isSimpleName : PyStr → Bool
  | .str s => s ≠ [] ∧ s ≠ [46] ∧ s ≠ [46, 46] ∧ ¬ 47 ∈ s
  | .bytes _ => false

/-- `Path.__init__` translated branch for branch: the happy path increments the
parent's depth and skips normalization, the general path joins, normalizes and
re-splits. -/
def mkPath (nameA : PyStr) (parentO : Option PathV) (kw : Kw) : PathV :=
  match parentO with
  | some par =>
    if isSimpleName nameA then
      { name := normcase (fsdecodeArg nameA)
        parent := if par.name = [46] then par.parent else par.path
        depthK := some (kw.depth.getD (par.depth + 1))
        isDirK := kw.is_dir
        isLinkK := kw.is_symlink }
    else
      let p := join2 par.path (fsdecodeArg nameA)
      let np := normcase (normpath p)
      { name := (osSplit np).2, parent := (osSplit np).1
        depthK := kw.depth, isDirK := kw.is_dir, isLinkK := kw.is_symlink }
  | none =>
    let p := join2 [] (fsdecodeArg nameA)
    let np := normcase (normpath p)
    { name := (osSplit np).2, parent := (osSplit np).1
      depthK := kw.depth, isDirK := kw.is_dir, isLinkK := kw.is_symlink }

/-- `Path(s)` for a `str` argument and no keywords -/
def pathOfStr (s : Str) : PathV := mkPath (.str s) none {}

/-- `Path(b)` for a `bytes` argument and no keywords -/
def pathOfBytes (b : Bytes) : PathV := mkPath (.bytes b) none {}

/-- `Path.make_child` -/
def PathV.make_child (P : PathV) (nameA : PyStr) (kw : Kw) : PathV :=
  mkPath nameA (some P) kw

/-- a value a `Path` may be compared against -/
inductive PyVal where
  | path (p : PathV)
  | str (s : Str)
  | bytes (b : Bytes)
  | other
deriving DecidableEq

/-- the outcome of Python `P == v`: `Path.__eq__` plus Python's fallback that
turns `NotImplemented` on both sides into not-equal (no exception is raised).
`os.fspath(self)` is a `str`, so comparison against `bytes` is always unequal. -/
def pyEq (P : PathV) (v : PyVal) : Bool :=
  match v with
  | .path q => P.name = q.name ∧ P.parent = q.parent
  | .str s => P.path = s
  | .bytes _ => false
  | .other => false

/-- the outcome of Python `P != v`: `Path.__ne__` negates `__eq__`, and the
`NotImplemented` fallback makes unrelated values compare not-equal -/
def pyNe (P : PathV) (v : PyVal) : Bool :=
  match v with
  | .other => true
  | _ => ! pyEq P v

/-- the value whose Python hash `Path.__hash__` returns: `hash(os.fspath(self))` -/
def hashKey (P : PathV) : Str := P.path

/-- Modelled from the claim's words, for comparison with the source semantics:
the joined normalized form of a path-like value (what normalizing it as the
Path type does would yield). -/
def specNormalizedJoined : PyVal → Option Str
  | .path p => some p.path
  | .str s => some (pathOfStr s).path
  | .bytes b => some (pathOfBytes b).path
  | .other => none

/-- `os.fsencode(os.fspath(P))`: the byte form of a Path -/
def bytesOfPath (P : PathV) : Option Bytes := fsencode P.path

/-- Modelled from the spec's words: normalization of a byte sequence is
decoding, `normpath` plus case folding, and re-encoding. -/
def normalizeBytes (B : Bytes) : Option Bytes := fsencode (normcase (normpath (fsdecode B)))

/-- a string denoting an absolute path -/
def isAbs (s : Str) : Bool := [47].isPrefixOf s

/-- `Path.is_dir` when the walker already supplied the flag (it always does for
the paths reaching the store; the lazy `os.path.isdir` fallback is a
filesystem read not taken on those paths) -/
def PathV.isDirV (P : PathV) : Bool := P.isDirK.getD false

/-- `Path.is_symlink` when the walker already supplied the flag -/
def PathV.isLinkV (P : PathV) : Bool := P.isLinkK.getD false

/-! ## the circular-symlink filter (`circular_symlink_filter`) -/

/-- a candidate path as the filter sees it: the `is_symlink`/`is_dir` flags the
walker attached, and the candidate's canonical target
`canonical_path(path, root=root)` (the filesystem oracle resolving symlinks) -/
structure Candidate where
  isLink : Bool
  isDir : Bool
  canon : Str
deriving DecidableEq

/-- `os.path.join(x, '')`: appends a trailing separator unless one is already
present or `x` is empty -/
def joinTrailingSep (x : Str) : Str :=
  if x = [] ∨ x.getLast? = some 47 then x else x ++ [47]

/-- the rejection test: some known root starts with the target, or the target
starts with some known root -/
def circMatches (known : List Str) (t : Str) : Bool :=
  known.any (fun r => t.isPrefixOf r || r.isPrefixOf t)

/-- one call of the closure `is_noncircular_symlink`: the decision and the
updated `known_roots` state -/
def circStep (known : List Str) (c : Candidate) : Bool × List Str :=
  if c.isLink ∧ c.isDir then
    let t := joinTrailingSep c.canon
    if circMatches known t then (false, known)
    else (true, known ++ [t])
  else (true, known)

/-- the initial `known_roots`: the canonical root with a trailing separator -/
def circInit (canonRoot : Str) : List Str := [joinTrailingSep canonRoot]

/-- run the filter over a list of candidates, returning all decisions and the
final state -/
def circRun (known : List Str) : List Candidate → List Bool × List Str
  | [] => ([], known)
  | c :: cs =>
    let d := circStep known c
    let r := circRun d.2 cs
    (d.1 :: r.1, r.2)

/-- the `known_roots` state after a list of candidates -/
def circState (known : List Str) (cs : List Candidate) : List Str :=
  (circRun known cs).2

/-! ## sqlite sessions (`cherrymusic/database.py`) -/

/-- the five isolation modes -/
inductive Isolation where
  | DEFAULT
  | AUTOCOMMIT
  | DEFERRED
  | IMMEDIATE
  | EXCLUSIVE
deriving DecidableEq

/-- an abstract SQL statement: whether it is data-modifying (sqlite3 opens an
implicit transaction before DML in non-autocommit modes) and its effect on the
store -/
structure Stmt (σ : Type) where
  isDml : Bool
  eff : σ → σ

/-- a live connection: the durable store, the uncommitted working state, and
whether a transaction is open -/
structure Conn (σ : Type) where
  committed : σ
  working : σ
  inTxn : Bool

/-- the `BEGIN` statements `SqliteSession.__enter__` issues: exactly one for
the eager modes, none for `DEFAULT`/`AUTOCOMMIT` -/
def beginLog (iso : Isolation) : List Isolation :=
  if iso = .DEFAULT ∨ iso = .AUTOCOMMIT then [] else [iso]

/-- `SqliteSession.__enter__`: open a connection; eagerly `BEGIN` unless the
mode is `DEFAULT` or `AUTOCOMMIT` -/
def sessionEnter (iso : Isolation) (db : σ) : Conn σ :=
  if iso = .DEFAULT ∨ iso = .AUTOCOMMIT then ⟨db, db, false⟩ else ⟨db, db, true⟩

/-- `SqliteSession.execute`: in autocommit every statement commits as it
executes; otherwise statements apply to the open transaction, a DML statement
opening one implicitly first -/
def connExec (iso : Isolation) (c : Conn σ) (st : Stmt σ) : Conn σ :=
  if iso = .AUTOCOMMIT then ⟨st.eff c.committed, st.eff c.committed, false⟩
  else if c.inTxn then { c with working := st.eff c.working }
  else if st.isDml then ⟨c.committed, st.eff c.committed, true⟩
  else c

/-- `SqliteSession.commit` -/
def connCommit (c : Conn σ) : Conn σ := ⟨c.working, c.working, false⟩

/-- `SqliteSession.__exit__`: commit if a transaction is open and no exception
is propagating, roll back if one is; the durable state that remains -/
def sessionExit (c : Conn σ) (exc : Bool) : σ :=
  if c.inTxn then (if exc then c.committed else c.working) else c.committed

/-! ## the migration runner (`apply_migration_to_db`) -/

/-- migration direction, recorded in the ledger as `'FORWARD'`/`'BACKWARD'` -/
inductive Direction where
  | FORWARD
  | BACKWARD
deriving DecidableEq

/-- one `_versions` ledger row -/
structure VersionRow where
  name : Str
  comment : Str
  direction : Direction
  applied_at_utc : Str
deriving DecidableEq

/-- a store as the migration runner sees it: the user tables plus the
`_versions` ledger (absent until created) -/
structure Store (σ : Type) where
  user : σ
  versions : Option (List VersionRow)

/-- a migration: its parsed name and comment, and per direction the lazy list
of steps, each a callable that may raise (`none`) -/
structure MigrationM (σ : Type) where
  name : Str
  comment : Str
  steps : Bool → List (σ → Option σ)

/-- run migration steps in order, stopping at the first raised error -/
def runSteps (steps : List (σ → Option σ)) (s : σ) : Option σ :=
  steps.foldlM (fun st f => f st) s

/-- the parameters `apply_migration_to_db` opens its session with -/
structure SessionParams where
  isolation : Isolation
  timeout_secs : Nat
deriving DecidableEq

/-- `apply_migration_to_db`: one `EXCLUSIVE` session with timeout 0; ensure the
`_versions` ledger, run the chosen direction's steps, append one ledger row,
then commit on scope exit — or roll the whole transaction back if a step
raised.  Returns the session parameters used and the resulting durable store;
`now` stands for `datetime.utcnow().isoformat()`. -/
def apply_migration_to_db (mig : MigrationM σ) (db : Store σ) (backward : Bool)
    (now : Str) : SessionParams × Store σ :=
  let params : SessionParams := ⟨.EXCLUSIVE, 0⟩
  let ledger := db.versions.getD []
  match runSteps (mig.steps backward) db.user with
  | some u =>
    let row : VersionRow :=
      ⟨mig.name, mig.comment, if backward then .BACKWARD else .FORWARD, now⟩
    (params, ⟨u, some (ledger ++ [row])⟩)
  | none => (params, db)

/-! ## a symlink-free filesystem tree and the recursive walker
(`cherrymusic/files.py` and `cherrymusic/media/files.py`) -/

mutual
/-- a filesystem node as one `os.scandir` entry exposes it: its name, the
`is_dir()`/`is_symlink()` answers, and (for directories) the children in
enumeration order -/
inductive FsNode where
  | node (name : Str) (isDir : Bool) (isLink : Bool) (children : FsForest)
/-- a list of filesystem nodes in enumeration order -/
inductive FsForest where
  | nil
  | cons (e : FsNode) (es : FsForest)
end

def FsNode.name : FsNode → Str
  | .node n _ _ _ => n

def FsNode.isDir : FsNode → Bool
  | .node _ d _ _ => d

def FsNode.isLink : FsNode → Bool
  | .node _ _ l _ => l

def FsNode.children : FsNode → FsForest
  | .node _ _ _ ch => ch

mutual
/-- number of nodes of one tree -/
def nodeCount : FsNode → Nat
  | .node _ _ _ ch => 1 + forestCount ch

/-- number of nodes in a forest -/
def forestCount : FsForest → Nat
  | .nil => 0
  | .cons e es => nodeCount e + forestCount es
end

/-- the first entry of a forest with the given name (`os.scandir` resolution
picks the unique one on a real filesystem) -/
def fsFind : FsForest → Str → Option FsNode
  | .nil, _ => none
  | .cons e es, nm => if e.name = nm then some e else fsFind es nm

/-- the components of a normalized relative path as the OS resolves them
(`'.'` and empty components denote no descent) -/
def pathComps (p : Str) : List Str :=
  (p.splitOn 47).filter (fun c => c ≠ [] ∧ c ≠ [46])

/-- the node a relative path denotes in the tree rooted at `roots` -/
def fsNodeAt (roots : FsForest) : List Str → Option FsNode
  | [] => none
  | [c] => fsFind roots c
  | c :: cs =>
    match fsFind roots c with
    | some n => fsNodeAt n.children cs
    | none => none

/-- the entry list `os.scandir` yields for a relative path (`[]` of components
denotes the scan root itself); `none` models the `OSError` of an unresolvable
path -/
def fsChildrenAt (roots : FsForest) (cs : List Str) : Option FsForest :=
  match cs with
  | [] => some roots
  | _ =>
    match fsNodeAt roots cs with
    | some n => some n.children
    | none => none

/-- `os.path.isdir(join(root, p))` on a symlink-free tree -/
def fsIsDirAt (roots : FsForest) (p : Str) : Bool :=
  match pathComps p with
  | [] => true
  | cs => ((fsNodeAt roots cs).map FsNode.isDir).getD false

/-- `os.path.exists(join(root, p))` on a symlink-free tree -/
def fsExistsAt (roots : FsForest) (p : Str) : Bool :=
  match pathComps p with
  | [] => true
  | cs => (fsNodeAt roots cs).isSome

/-- one pass over a directory's entries: construct each child with the flags
from the entry, run it through the (stateful, short-circuiting) filter
pipeline, collect the survivors in order together with the surviving
directories (push candidates) and the final filter state -/
def procEnts (step : φ → PathV → Bool × φ) (cur : PathV) :
    FsForest → φ → List PathV × List PathV × φ
  | .nil, st => ([], [], st)
  | .cons (.node nm d lk _) es, st =>
    let child := cur.make_child (.str nm) { is_dir := some d, is_symlink := some lk }
    let r := step st child
    let rest := procEnts step cur es r.2
    if r.1 then
      (child :: rest.1, (if child.isDirV then child :: rest.2.1 else rest.2.1), rest.2.2)
    else rest

/-- the walker's `max_depth` guard: Python's `if max_depth and
current.depth - start.depth > max_depth` (both `None` and `0` are falsy) -/
def depthCut (maxDepth : Option Int) (startDepth curDepth : Int) : Bool :=
  match maxDepth with
  | none => false
  | some m => m ≠ 0 ∧ curDepth - startDepth > m

/-- the `while dirstack` loop of `recursive_scandir`, fuel-indexed for
structural termination (the stack top is the list head, matching
`list.pop()`); a directory that fails to resolve models the logged-and-skipped
`OSError` -/
def scanLoopF (roots : FsForest) (step : φ → PathV → Bool × φ)
    (maxDepth : Option Int) (startDepth : Int) :
    Nat → List PathV → φ → List PathV
  | 0, _, _ => []
  | _ + 1, [], _ => []
  | fuel + 1, cur :: stack, st =>
    if depthCut maxDepth startDepth cur.depth then
      scanLoopF roots step maxDepth startDepth fuel stack st
    else
      match fsChildrenAt roots (pathComps cur.path) with
      | none => scanLoopF roots step maxDepth startDepth fuel stack st
      | some ents =>
        let pr := procEnts step cur ents st
        pr.1 ++ scanLoopF roots step maxDepth startDepth fuel
          (pr.2.1.reverse ++ stack) pr.2.2

/-- fuel that bounds the number of loop iterations of any run: one pop for the
start plus at most one pop per node of the tree per stack occurrence -/
def scanFuel (roots : FsForest) : Nat := forestCount roots + 1

/-- `recursive_scandir(path, root=root, filters=..., max_depth=...)` over a
symlink-free tree: `cherrymusic/media/files.py`.  For a relative `path` under
an absolute `root`, `os.path.relpath(os.path.join(root, path), root)` is
`posixpath.normpath(path)`.  Returns `none` for the `FileNotFoundError` of a
missing start path. -/
def recursive_scandir_media (roots : FsForest) (p : Str)
    (step : φ → PathV → Bool × φ) (st : φ) (maxDepth : Option Int) :
    Option (List PathV) :=
  let startRel := normpath p
  let start := mkPath (.str startRel) none { is_dir := some (fsIsDirAt roots startRel) }
  if ¬ start.isDirV then
    if ¬ fsExistsAt roots startRel then none
    else some [start]
  else
    some ((if pyNe start (.str [46]) then [start] else []) ++
      scanLoopF roots step maxDepth start.depth (scanFuel roots) [start] st)

/-- `recursive_scandir(path, root=root, filters=...)` of
`cherrymusic/files.py`: the same walk without a `max_depth` parameter -/
def recursive_scandir_files (roots : FsForest) (p : Str)
    (step : φ → PathV → Bool × φ) (st : φ) : Option (List PathV) :=
  recursive_scandir_media roots p step st none

/-- the starting depth `recursive_scandir` measures the cut from -/
def scanStartDepth (roots : FsForest) (p : Str) : Int :=
  (mkPath (.str (normpath p)) none { is_dir := some (fsIsDirAt roots (normpath p)) }).depth

/-! ## the media store: `paths`, `ancestors`, the closure trigger and `update`
(`cherrymusic/media/data.py`, `cherrymusic/media/migrations/0001_initial.py`) -/

/-- one row of the `paths` table -/
structure PathsRow where
  id : Nat
  name : Bytes
  is_dir : Bool
  depth : Int
  parent_id : Option Nat
deriving DecidableEq

/-- one row of the `ancestors` table -/
structure AncRow where
  child_id : Nat
  ancestor_id : Nat
  reldepth : Int
deriving DecidableEq

/-- the media store state; `nextId` is the sqlite autoincrement counter
(`lastrowid` of the next insert), starting at 1 on an empty table -/
structure MediaDb where
  paths : List PathsRow
  ancestors : List AncRow
  nextId : Nat
deriving DecidableEq

def emptyMediaDb : MediaDb := ⟨[], [], 1⟩

/-- the recursive part of the trigger's CTE: from the current ancestor id walk
`parent_id` upward while it is non-NULL, decrementing `reldepth`; fuel-indexed,
one unit per step (the table length bounds any acyclic chain) -/
def ancWalkF (tbl : List PathsRow) (newId : Nat) : Nat → Nat → Int → List AncRow
  | 0, _, _ => []
  | f + 1, cur, rd =>
    match tbl.find? (fun r => r.id = cur) with
    | some row =>
      match row.parent_id with
      | some p => ⟨newId, p, rd - 1⟩ :: ancWalkF tbl newId f p (rd - 1)
      | none => []
    | none => []

/-- the rows the `paths_after_insert_create_ancestors` trigger produces for a
newly inserted row: the seed `(NEW.id, NEW.id, 0)` followed by the walk up the
parent chain -/
def triggerRows (tbl : List PathsRow) (newId : Nat) : List AncRow :=
  ⟨newId, newId, 0⟩ :: ancWalkF tbl newId tbl.length newId 0

/-- insert one `ancestors` row under the table's
`UNIQUE (child_id, ancestor_id) ON CONFLICT IGNORE` constraint -/
def ancInsert1 (anc : List AncRow) (r : AncRow) : List AncRow :=
  if anc.any (fun a => a.child_id = r.child_id ∧ a.ancestor_id = r.ancestor_id)
  then anc else anc ++ [r]

/-- `INSERT INTO paths(name, is_dir, parent_id, depth) VALUES (...)` followed
by the AFTER INSERT trigger; returns the new state and `cursor.lastrowid` -/
def insertPathRow (db : MediaDb) (name : Bytes) (isDir : Bool) (depth : Int)
    (pid : Option Nat) : MediaDb × Nat :=
  let row : PathsRow := ⟨db.nextId, name, isDir, depth, pid⟩
  let tbl := db.paths ++ [row]
  (⟨tbl, (triggerRows tbl db.nextId).foldl ancInsert1 db.ancestors, db.nextId + 1⟩,
   db.nextId)

/-- the `update` insert loop over the walker's yields: look the parent id up in
the `path_ids` dict (keyed by the Path's joined form, which is what both the
`Path` keys and the `path.parent` string hash and compare by), insert the row
with the raw `os.fsencode(path.name)` bytes, and record the new id.  The
per-batch commits do not change the final committed state, which this
function returns. -/
def updateGo : List PathV → MediaDb → List (Str × Nat) → MediaDb
  | [], db, _ => db
  | P :: ps, db, ids =>
    let pid := (ids.find? (fun e => e.1 = P.parent)).map (fun e => e.2)
    let r := insertPathRow db ((fsencode P.name).getD []) P.isDirV P.depth pid
    updateGo ps r.1 ((P.path, r.2) :: ids)

/-- `update(db, start_path, root=root)` applied to the path sequence the walker
yields, starting from the freshly migrated (empty) store -/
def update (l : List PathV) : MediaDb := updateGo l emptyMediaDb []

/-- the number of `ancestors` rows with a given `child_id`
(`SELECT count(*) FROM ancestors WHERE child_id = ?`) -/
def ancCount (db : MediaDb) (rid : Nat) : Nat :=
  (db.ancestors.filter (fun a => a.child_id = rid)).length

/-- the filter pipeline `update` installs: `circular_symlink_filter(root)`
followed (short-circuit) by the hidden-name lambda
`lambda p: not p.name.startswith('.')`.  `canonR` is the canonical root and
`canon` the `canonical_path(path, root=root)` oracle (on a symlink-free tree
never consulted, since the circular filter only canonicalizes directory
symlinks). -/
def updateFilterStep (canon : PathV → Str) (known : List Str) (P : PathV) :
    Bool × List Str :=
  let r := circStep known ⟨P.isLinkV, P.isDirV, canon P⟩
  if r.1 then ((P.name.head? ≠ some 46 : Bool), r.2) else (false, r.2)

/-- `update(db, start_path, root=root)` composed with the walker over a
symlink-free tree; a raised `FileNotFoundError` leaves the store empty (the
session never commits anything) -/
def update_fs (roots : FsForest) (p : Str) (canonRoot : Str)
    (canon : PathV → Str) : MediaDb :=
  match recursive_scandir_files roots p (updateFilterStep canon)
      (circInit canonRoot) with
  | some l => update l
  | none => emptyMediaDb

/-! ## the two read views -/

/-- `BYTE_PATH`: `os.path.join(b'', name, ...)` — concatenate the component
byte strings with the separator byte in visit order -/
def bytePath (names : List Bytes) : Bytes := names.foldl join2 []

/-- a record `IdentifyPathView` returns; sqlite's bare columns in an aggregate
query without `GROUP BY` carry the values of the last visited row, and are
NULL when no row matched -/
structure IdRec where
  id : Option Nat
  name : Option Bytes
  path : Bytes
  is_dir : Option Bool
  depth : Option Int
deriving DecidableEq

/-- the recursive-CTE join step: all table rows whose `parent_id` is the
previous row's id and whose `(name, depth)` is one of the query's pairs -/
def cteStep (tbl : List PathsRow) (pairs : List (Bytes × Int)) (r : PathsRow) :
    List PathsRow :=
  tbl.filter (fun p => p.parent_id = some r.id ∧
    pairs.any (fun nd => p.name = nd.1 ∧ p.depth = nd.2))

/-- the `WITH RECURSIVE` evaluation: a FIFO queue seeded with the base rows;
each dequeued row is emitted and its joined successors appended (`UNION ALL`
keeps duplicates); fuel-indexed -/
def cteRun (tbl : List PathsRow) (pairs : List (Bytes × Int)) :
    Nat → List PathsRow → List PathsRow
  | 0, _ => []
  | _ + 1, [] => []
  | f + 1, r :: queue => r :: cteRun tbl pairs f (queue ++ cteStep tbl pairs r)

/-- `IdentifyPathView(pathstr)`: split on the separator, encode each component
with surrogateescape, and match either the single `(name, depth=1)` row or the
recursive chain; the final `WHERE depth = N` keeps the aggregate row only when
every component matched.  An aggregate query without `GROUP BY` always
produces one row; its bare columns come from the last visited row and are NULL
(dropping the N>1 row at the depth filter) when nothing matched. -/
def IdentifyPathView (db : MediaDb) (pathstr : Str) : List IdRec :=
  let names := (pathstr.splitOn 47).map (fun c => (fsencode c).getD [])
  let pairs := names.enum.map (fun ci => (ci.2, (ci.1 : Int) + 1))
  if names.length = 1 then
    let rows := db.paths.filter
      (fun r => some r.name = names.head? ∧ r.depth = 1)
    [⟨(rows.getLast?).map PathsRow.id, (rows.getLast?).map PathsRow.name,
      bytePath (rows.map PathsRow.name), (rows.getLast?).map PathsRow.is_dir,
      (rows.getLast?).map PathsRow.depth⟩]
  else
    let seed := db.paths.filter
      (fun r => pairs.head?.any (fun nd => r.name = nd.1 ∧ r.depth = nd.2))
    let rows := cteRun db.paths pairs
      ((db.paths.length + 1) * (pairs.length + 1)) seed
    match rows.getLast? with
    | none => []
    | some last =>
      if last.depth = (names.length : Int) then
        [⟨some last.id, some last.name, bytePath (rows.map PathsRow.name),
          some last.is_dir, some last.depth⟩]
      else []

/-- a record `PathByIdView` returns -/
structure PbRec where
  id : Option Nat
  name : Option Bytes
  is_dir : Option Bool
  path : Bytes
deriving DecidableEq

/-- insert into a `child_id`-sorted deduplicated list -/
def insSortedNat (x : Nat) : List Nat → List Nat
  | [] => [x]
  | y :: ys =>
    if x < y then x :: y :: ys
    else if x = y then y :: ys
    else y :: insSortedNat x ys

/-- the distinct child ids in ascending order (the grouping the covering index
scan produces) -/
def sortDedup (l : List Nat) : List Nat :=
  l.foldl (fun acc x => insSortedNat x acc) []

/-- stable insertion by ascending `reldepth` (the covering index orders each
child's rows by `reldepth`, most negative — the root — first) -/
def insByRd (a : AncRow) : List AncRow → List AncRow
  | [] => [a]
  | b :: bs => if a.reldepth < b.reldepth then a :: b :: bs else b :: insByRd a bs

def sortByRd (l : List AncRow) : List AncRow := l.foldr insByRd []

/-- `PathByIdView(id, *ids)`: join `paths` to `ancestors` on
`paths.id = ancestors.ancestor_id` for the requested children, group by
`child_id` (ascending, rows within a group by ascending `reldepth`), and
aggregate each group's names with `BYTE_PATH`; bare columns carry the group's
last visited row — the `reldepth = 0` row, the child itself -/
def PathByIdView (db : MediaDb) (ids : List Nat) : List PbRec :=
  let joined := (db.ancestors.filter (fun a => ids.contains a.child_id)).filterMap
    (fun a => (db.paths.find? (fun r => r.id = a.ancestor_id)).map
      (fun r => (a, r)))
  let cids := sortDedup (joined.map (fun ar => ar.1.child_id))
  cids.map (fun cid =>
    let grp := sortByRd ((joined.map (fun ar => ar.1)).filter
      (fun a => a.child_id = cid))
    let rows := grp.filterMap
      (fun a => db.paths.find? (fun r => r.id = a.ancestor_id))
    ⟨(rows.getLast?).map PathsRow.id, (rows.getLast?).map PathsRow.name,
     (rows.getLast?).map PathsRow.is_dir, bytePath (rows.map PathsRow.name)⟩)

/-! ## well-formedness of the walker's yield sequence

When `update(db, start_path, root)` starts at the root itself, the walk yields
parents before children: every yield either sits at depth 1 with parent `''`
(a direct child of the root, whose id lookup finds nothing and stores NULL) or
has its parent yielded earlier with depth one less.  Names come from
`os.scandir`: nonempty, never `'.'`/`'..'`, separator-free, encodable back to
their unique on-disk bytes, and distinct within one directory.  Joined forms
of distinct yields are distinct. -/

def wfNameB (n : Str) : Bool :=
  n ≠ [] ∧ n ≠ [46] ∧ n ≠ [46, 46] ∧ ¬ 47 ∈ n ∧ (fsencode n).isSome

/-- conditions on the next yield `P` given the already-processed prefix
`seen` (most recent first) -/
def wfStepB (seen : List PathV) (P : PathV) : Bool :=
  wfNameB P.name &&
  ((P.parent = [] ∧ P.depth = 1 : Bool) ||
    seen.any (fun Q => Q.path = P.parent ∧ P.depth = Q.depth + 1)) &&
  seen.all (fun Q => Q.path ≠ P.path) &&
  seen.all (fun Q => ¬ (Q.parent = P.parent ∧ fsencode Q.name = fsencode P.name))

def wfScanAuxB : List PathV → List PathV → Bool
  | _, [] => true
  | seen, P :: ps => wfStepB seen P && wfScanAuxB (P :: seen) ps

/-- the walker-guaranteed shape of `update`'s input when the scan starts at
the root -/
abbrev WfScan (l : List PathV) : Prop := wfScanAuxB [] l = true

/-- well-formed filesystem tree: every entry name is a plain component and
sibling names are distinct -/
def forestAllB (p : FsNode → Bool) : FsForest → Bool
  | .nil => true
  | .cons e es => p e && forestAllB p es

mutual
def wfNodeB : FsNode → Bool
  | .node nm _ _ ch => wfNameB nm && wfForestB ch

def wfForestB : FsForest → Bool
  | .nil => true
  | .cons e es =>
    wfNodeB e && forestAllB (fun x => FsNode.name x ≠ FsNode.name e) es &&
      wfForestB es
end

abbrev WfForest (roots : FsForest) : Prop := wfForestB roots = true

/-! ## invariants of the updated store

These predicates describe the store state `update` reaches; the theorems below
establish them by induction over the insert loop. -/

/-- the `path_ids` dictionary lookup (Python `dict.get`: the most recent entry
for an equal key) -/
def idOf (ids : List (Str × Nat)) (s : Str) : Option Nat :=
  (ids.find? (fun e => e.1 = s)).map (fun e => e.2)

/-- parent linkage of one row: a NULL parent carries depth 1, a non-NULL
parent references an earlier row one level up -/
def RowParentOk (tbl : List PathsRow) (row : PathsRow) : Prop :=
  (row.parent_id = none → row.depth = 1) ∧
  (∀ p, row.parent_id = some p →
    p < row.id ∧ ∃ prow ∈ tbl, prow.id = p ∧ row.depth = prow.depth + 1)

/-- shape of the `paths` table after the insert loop: autoincrement ids
`1..n` in insertion order, positive depths, sound parent links -/
def TblInv (tbl : List PathsRow) : Prop :=
  tbl.map PathsRow.id = List.range' 1 tbl.length ∧
  (∀ row ∈ tbl, 1 ≤ row.depth) ∧
  (∀ row ∈ tbl, RowParentOk tbl row)

/-- the ancestor closure of one row: its `ancestors` rows carry the reldepths
`0, -1, …, -(depth-1)` (so their count is the row's depth) and the reflexive
row appears exactly once -/
def RowAncOk (db : MediaDb) (row : PathsRow) : Prop :=
  (db.ancestors.filter (fun a => a.child_id = row.id)).map (fun a => a.reldepth)
    = (List.range row.depth.toNat).map (fun k : Nat => -(k : Int)) ∧
  db.ancestors.filter (fun a => a.child_id = row.id ∧ a.reldepth = 0)
    = [⟨row.id, row.id, 0⟩]

/-- the correspondence between one yielded Path and its stored row -/
def QRowOk (ids : List (Str × Nat)) (Q : PathV) (row : PathsRow) : Prop :=
  idOf ids Q.path = some row.id ∧
  row.name = (fsencode Q.name).getD [] ∧
  row.is_dir = Q.isDirV ∧
  row.depth = Q.depth ∧
  row.parent_id = idOf ids Q.parent

/-- the full loop invariant of `updateGo`: table shape, per-row closure,
dictionary contents, and the two-way correspondence between the processed
yields (`seen`, most recent first) and the table -/
def UpdInv (seen : List PathV) (db : MediaDb) (ids : List (Str × Nat)) : Prop :=
  TblInv db.paths ∧
  db.nextId = db.paths.length + 1 ∧
  db.paths.length = seen.length ∧
  (∀ row ∈ db.paths, RowAncOk db row) ∧
  (∀ a ∈ db.ancestors, 1 ≤ a.child_id ∧ a.child_id < db.nextId) ∧
  ids.map Prod.fst = seen.map PathV.path ∧
  ids.map Prod.snd = (List.range' 1 seen.length).reverse ∧
  (seen.map PathV.path).Nodup ∧
  (∀ Q ∈ seen, wfNameB Q.name = true ∧ 1 ≤ Q.depth ∧
    ((Q.parent = [] ∧ Q.depth = 1) ∨
      (∃ R ∈ seen, R.path = Q.parent ∧ Q.depth = R.depth + 1))) ∧
  List.Pairwise
    (fun Q R => ¬(Q.parent = R.parent ∧ fsencode Q.name = fsencode R.name)) seen ∧
  (∀ Q ∈ seen, ∃ row ∈ db.paths, QRowOk ids Q row) ∧
  (∀ row ∈ db.paths, ∃ Q ∈ seen, QRowOk ids Q row)

/-! ## concrete instances

A two-level tree `a/b` (directory `a` holding file `b`), the walker's yield
sequence for a scan of that tree started at the root, and the two rows the
update pass stores for it.  `canonId` is a canonicalization oracle for
link-free trees (where it is never consulted). -/

def fsAB : FsForest :=
  .cons (.node [97] true false (.cons (.node [98] false false .nil) .nil)) .nil

def canonId (P : PathV) : Str := P.path

def lC1ex : List PathV :=
  [⟨[97], [], some 1, some true, some false⟩,
   ⟨[98], [97], some 2, some false, some false⟩]

def rowC1ex : PathsRow := ⟨2, [98], false, 2, some 1⟩

def rowC3ex : PathsRow := ⟨1, [97], true, 1, none⟩

/-! ## walker-loop measure

The loop of `recursive_scandir` is fuel-indexed; these definitions give the
measure that bounds its iteration count, used to show the chosen fuel is
adequate. -/

/-- spine induction for forests (recursion along the sibling list only) -/
def FsForest.spineInd {motive : FsForest → Prop} (h0 : motive .nil)
    (h1 : ∀ e es, motive es → motive (.cons e es)) : ∀ f, motive f
  | .nil => h0
  | .cons e es => h1 e es (spineInd h0 h1 es)

/-- membership of a node in a forest's sibling list -/
def fsMem (e : FsNode) : FsForest → Prop
  | .nil => False
  | .cons x xs => e = x ∨ fsMem e xs

/-- the child `Path` the walker constructs for one `os.scandir` entry -/
def mkChild (cur : PathV) (e : FsNode) : PathV :=
  cur.make_child (.str e.name) { is_dir := some e.isDir, is_symlink := some e.isLink }

/-- the number of tree nodes strictly below a stack entry: the size of the
forest its path resolves to (0 when the path does not resolve) -/
def subSize (roots : FsForest) (P : PathV) : Nat :=
  match fsChildrenAt roots (pathComps P.path) with
  | some f => forestCount f
  | none => 0

/-- the loop measure: one pop per stack entry plus at most one pop per node
below it -/
def stackMeasure (roots : FsForest) : List PathV → Nat
  | [] => 0
  | P :: ps => 1 + subSize roots P + stackMeasure roots ps

/-- a three-level chain `a/b/c` (`a`, `b` directories, `c` a file) and the
always-accepting stateless filter pipeline -/
def fsChain : FsForest :=
  .cons (.node [97] true false
    (.cons (.node [98] true false
      (.cons (.node [99] false false .nil) .nil)) .nil)) .nil

def pureStepU : Unit → PathV → Bool × Unit := fun u _ => (true, u)

/-- the start `Path` the walker constructs before entering its loop -/
def scanStart (roots : FsForest) (p : Str) : PathV :=
  mkPath (.str (normpath p)) none { is_dir := some (fsIsDirAt roots (normpath p)) }

/-! ## the ancestor chain of a yield and full ancestor-row accounting

To evaluate the two read views against the updated store, each yield's
root-to-leaf ancestor chain among the processed yields is made explicit, and
the `ancestors` table is characterized row-for-row (not only by counts as in
`RowAncOk`). -/

/-- the root-to-leaf chain of yields above (and including) one yield: each
element was yielded, the first is a direct child of the scan root, and each
later element's `parent` is the previous element's joined form, one level
deeper -/
inductive SeenChain (seen : List PathV) : List PathV → PathV → Prop
  | root (Q : PathV) : Q ∈ seen → Q.parent = [] → Q.depth = 1 →
      SeenChain seen [Q] Q
  | step (C : List PathV) (R Q : PathV) : SeenChain seen C R → Q ∈ seen →
      Q.parent = R.path → Q.depth = R.depth + 1 → SeenChain seen (C ++ [Q]) Q

/-- full accounting of the `ancestors` table: the rows carrying one `paths`
row's `child_id` are exactly the rows its insert-time trigger produced, which
equal the trigger walk re-run on the final table (parent links are never
updated, so the walk is stable under later inserts) -/
def AncFull (db : MediaDb) : Prop :=
  ∀ row ∈ db.paths, db.ancestors.filter (fun a => a.child_id = row.id)
    = triggerRows db.paths row.id

/-- the `ancestors` rows the trigger walk emits along an explicit parent
chain, listed leaf to root -/
def walkRows (newId : Nat) : Int → List PathsRow → List AncRow
  | _, [] => []
  | rd, y :: S => ⟨newId, y.id, rd - 1⟩ :: walkRows newId (rd - 1) S

/-- the second yield of the `a/b` example scan (the file `a/b`), used as the
concrete instance for the view round-trip -/
def pC2ex : PathV := ⟨[98], [97], some 2, some false, some false⟩

/-! # Theorems -/

/-! ## list and posixpath lemmas -/

theorem join2_nil_left (s : Str) : join2 [] s = s := by
  simp [join2]

theorem normpath_ne_nil (p : Str) : normpath p ≠ [] := by
  by_cases h1 : p = []
  · simp [normpath, h1]
  · simp only [normpath, if_neg h1]
    split
    · simp
    · next h2 => exact h2

theorem takeWhile_all {α} (q : α → Bool) (l : List α) (h : ∀ x ∈ l, q x = true) :
    l.takeWhile q = l := by
  induction l with
  | nil => simp
  | cons a t ih =>
    rw [List.takeWhile_cons, if_pos (h a (by simp)), ih fun x hx => h x (by simp [hx])]

theorem takeWhile_append_all {α} (q : α → Bool) (l1 l2 : List α)
    (h : ∀ x ∈ l1, q x = true) :
    (l1 ++ l2).takeWhile q = l1 ++ l2.takeWhile q := by
  induction l1 with
  | nil => simp
  | cons a t ih =>
    rw [List.cons_append, List.takeWhile_cons, if_pos (h a (by simp)),
      ih fun x hx => h x (by simp [hx]), List.cons_append]

/-- for a separator-free name, the name is recoverable from the joined form -/
theorem path_rev_takeWhile (P : PathV) (h : ¬ 47 ∈ P.name) :
    P.path.reverse.takeWhile (fun x => x ≠ 47) = P.name.reverse := by
  have hall : ∀ x ∈ P.name.reverse, decide (x ≠ 47) = true := by
    intro x hx
    simp only [decide_eq_true_eq]
    rintro rfl
    exact h (List.mem_reverse.mp hx)
  by_cases hp : P.parent = []
  · have hpath : P.path = P.name := by simp [PathV.path, hp]
    rw [hpath]
    exact takeWhile_all _ _ hall
  · have hpath : P.path = P.parent ++ 47 :: P.name := by simp [PathV.path, hp]
    rw [hpath, List.reverse_append, List.reverse_cons, List.append_assoc,
      List.singleton_append, takeWhile_append_all _ _ _ hall,
      List.takeWhile_cons]
    simp

/-- the joined form determines name and parent when names are separator-free -/
theorem path_injective (P Q : PathV) (hP : ¬ 47 ∈ P.name) (hQ : ¬ 47 ∈ Q.name)
    (h : P.path = Q.path) : P.name = Q.name ∧ P.parent = Q.parent := by
  have hn : P.name = Q.name := by
    have h2 := congrArg (fun l => (List.reverse l).takeWhile (fun x => decide (x ≠ 47))) h
    simp only [path_rev_takeWhile P hP, path_rev_takeWhile Q hQ] at h2
    exact List.reverse_injective h2
  refine ⟨hn, ?_⟩
  unfold PathV.path at h
  rw [hn] at h
  have hpre := List.append_cancel_right h
  by_cases h1 : P.parent = [] <;> by_cases h2 : Q.parent = [] <;>
    simp only [h1, h2, ne_eq, not_true_eq_false, not_false_eq_true,
      if_pos, if_neg, ite_true, ite_false] at hpre
  · rw [h1, h2]
  · exact absurd hpre (by simp)
  · exact absurd hpre (by simp)
  · exact List.append_cancel_right hpre

/-- `posixpath.split` never returns a separator inside the tail -/
theorem osSplit_tail_no_sep (p : Str) : ¬ 47 ∈ (osSplit p).2 := by
  intro hmem
  have h2 : (osSplit p).2 = ((p.reverse.takeWhile (fun x => x ≠ 47)).reverse : Str) := by
    simp only [osSplit]
    split_ifs <;> rfl
  rw [h2] at hmem
  have := List.mem_takeWhile_imp (List.mem_reverse.mp hmem)
  simp at this

/-- every constructed Path has a separator-free name -/
theorem mkPath_name_no_sep (a : PyStr) (po : Option PathV) (kw : Kw) :
    ¬ 47 ∈ (mkPath a po kw).name := by
  unfold mkPath
  match po with
  | some par =>
    by_cases hs : isSimpleName a = true
    · cases a with
      | str s =>
        simp only [hs, if_pos]
        have : ¬ 47 ∈ s := by
          have := of_decide_eq_true hs
          exact this.2.2.2
        simpa [normcase, fsdecodeArg] using this
      | bytes b => simp [isSimpleName] at hs
    · simp only [Bool.not_eq_true] at hs
      simp only [hs, Bool.false_eq_true, if_neg, not_false_eq_true]
      exact osSplit_tail_no_sep _
  | none => exact osSplit_tail_no_sep _

/-- if stripping trailing separators empties a list, it held no other values -/
theorem rstripSep_ne_nil (l : Str) (h : l.any (fun x => x ≠ 47) = true) :
    rstripSep l ≠ [] := by
  intro he
  unfold rstripSep at he
  have hd : l.reverse.dropWhile (fun x => x = 47) = [] := by
    have := congrArg List.reverse he
    simpa using this
  rcases List.any_eq_true.mp h with ⟨x, hx, hq⟩
  have hx47 := List.dropWhile_eq_nil_iff.mp hd x (List.mem_reverse.mpr hx)
  simp_all

/-- when `posixpath.split` returns an empty head, the tail is the whole input -/
theorem osSplit_nil_head (p : Str) (hh : (osSplit p).1 = []) : (osSplit p).2 = p := by
  simp only [osSplit] at hh ⊢
  split_ifs at hh ⊢ with hc
  · exact absurd hh (rstripSep_ne_nil _ hc.2)
  · simp only at hh ⊢
    rcases List.take_eq_nil_iff.mp hh with h0 | h0
    · have hle1 : (p.reverse.takeWhile (fun x => decide (x ≠ 47))).length ≤ p.length := by
        simpa using (List.takeWhile_prefix (l := p.reverse)
          (p := fun x => decide (x ≠ 47))).length_le
      have h2 : ((p.reverse.takeWhile (fun x => decide (x ≠ 47))).reverse).length =
          (p.reverse.takeWhile (fun x => decide (x ≠ 47))).length := by simp
      have hlen : (p.reverse.takeWhile (fun x => decide (x ≠ 47))).length =
          p.reverse.length := by
        simp only [List.length_reverse]
        omega
      have hpre : (p.reverse.takeWhile (fun x => decide (x ≠ 47))) <+: p.reverse :=
        List.takeWhile_prefix _
      have hfull := hpre.eq_of_length hlen
      rw [hfull]
      simp
    · simp [h0]

/-- a nonempty path recombines to a nonempty joined form -/
theorem recombine_ne_nil (p : Str) (hp : p ≠ []) :
    (if (osSplit p).1 ≠ [] then (osSplit p).1 ++ [47] else []) ++ (osSplit p).2 ≠ [] := by
  by_cases hh : (osSplit p).1 = []
  · simp [hh, osSplit_nil_head p hh, hp]
  · simp [hh]

theorem mkPath_path_ne_nil (a : PyStr) (po : Option PathV) (kw : Kw) :
    (mkPath a po kw).path ≠ [] := by
  unfold mkPath
  match po with
  | some par =>
    by_cases hs : isSimpleName a = true
    · cases a with
      | str s =>
        have h1 := (of_decide_eq_true hs).1
        simp only [hs, if_pos, PathV.path]
        split_ifs <;> simp_all [normcase, fsdecodeArg]
      | bytes b => simp [isSimpleName] at hs
    · simp only [Bool.not_eq_true] at hs
      simp only [hs, Bool.false_eq_true, if_neg, not_false_eq_true]
      exact recombine_ne_nil _ (by simp [normcase, normpath_ne_nil])
  | none =>
    exact recombine_ne_nil _ (by simp [normcase, normpath_ne_nil])

/-! ## C8: Path construction on empty input -/

/-- C8, counterexample: Path construction with all inputs empty and no parent
does not fail — the constructor of `cherrymusic/files.py` has no failure
branch at all — it returns the current-directory path, `Path('') == Path('.')`
(as the repository's own tests assert). -/
theorem c8_counterexample :
    pathOfStr [] = { name := [46], parent := [] } ∧
    pyEq (pathOfStr []) (.path (pathOfStr [46])) = true := by decide

/-- C8, amended: Path construction never fails with InvalidPath (the code has
no such failure mode); when all inputs are empty after normalization and no
parent is given the result is the `'.'` path, equal to `Path('.')`, and every
construction yields a usable nonempty joined form. -/
theorem c8_construction_total :
    pyEq (pathOfStr []) (.path (pathOfStr [46])) = true ∧
    (∀ a : PyStr, ∀ po : Option PathV, ∀ kw : Kw, (mkPath a po kw).path ≠ []) := by
  refine ⟨by decide, fun a po kw => mkPath_path_ne_nil a po kw⟩

/-! ## C5: Path equality semantics -/

/-- C5, counterexample: `Path('') == ''` is False in the code (the repository's
own test asserts it), although the joined normalized forms of both sides are
`'.'` — the string side of `==` is compared raw, so equality is not structural
equality of normalized joined forms. -/
theorem c5_counterexample :
    ¬ (pyEq (pathOfStr []) (.str []) = true ↔
        specNormalizedJoined (.str []) = some (pathOfStr []).path) := by decide

/-- C5 (amended): equality with another Path is structural on `(name, parent)`
and, names being separator-free, equivalent to equality of joined forms;
equality with a `str` compares the Path's joined normalized form against the
raw, un-normalized string; comparison with `bytes` is always not-equal
(`os.fspath` of a Path is `str`); a non-path-like value compares not-equal via
`NotImplemented` without raising; and the hash key (the joined form Python
hashes) agrees with Path equality. -/
theorem c5_equality_semantics :
    (∀ P Q : PathV, ¬ 47 ∈ P.name → ¬ 47 ∈ Q.name →
      (pyEq P (.path Q) = true ↔ P.path = Q.path)) ∧
    (∀ (P : PathV) (s : Str), pyEq P (.str s) = true ↔ P.path = s) ∧
    (∀ (P : PathV) (b : Bytes), pyEq P (.bytes b) = false) ∧
    (∀ P : PathV, pyEq P .other = false ∧ pyNe P .other = true) ∧
    (∀ P Q : PathV, pyEq P (.path Q) = true → hashKey P = hashKey Q) := by
  refine ⟨?_, ?_, ?_, ?_, ?_⟩
  · intro P Q hP hQ
    constructor
    · intro h
      have h2 := of_decide_eq_true h
      unfold PathV.path
      rw [h2.1, h2.2]
    · intro h
      have h2 := path_injective P Q hP hQ h
      exact decide_eq_true ⟨h2.1, h2.2⟩
  · intro P s
    simp [pyEq]
  · intro P b
    rfl
  · intro P
    exact ⟨rfl, rfl⟩
  · intro P Q h
    have h2 := of_decide_eq_true h
    unfold hashKey PathV.path
    rw [h2.1, h2.2]

/-- witness for the amended C5 at concrete inputs -/
theorem c5_witness :
    (pyEq (pathOfStr [97, 47, 46]) (.path (pathOfStr [97])) = true ↔
      (pathOfStr [97, 47, 46]).path = (pathOfStr [97]).path) ∧
    pyEq (pathOfStr [97]) (.bytes [97]) = false := by
  exact ⟨c5_equality_semantics.1 _ _ (by decide) (by decide),
    c5_equality_semantics.2.2.1 _ _⟩

/-! ## C6: the circular-symlink filter -/

theorem circStep_subset (known : List Str) (c : Candidate) :
    ∀ x ∈ known, x ∈ (circStep known c).2 := by
  intro x hx
  simp only [circStep]
  split_ifs <;> simp [hx]

theorem circState_cons (known : List Str) (c : Candidate) (cs : List Candidate) :
    circState known (c :: cs) = circState (circStep known c).2 cs := by
  simp [circState, circRun]

theorem circState_subset (cs : List Candidate) (known : List Str) :
    ∀ x ∈ known, x ∈ circState known cs := by
  induction cs generalizing known with
  | nil => intro x hx; simpa [circState, circRun] using hx
  | cons c cs ih =>
    intro x hx
    rw [circState_cons]
    exact ih _ x (circStep_subset known c x hx)

theorem circState_append (known : List Str) (xs ys : List Candidate) :
    circState known (xs ++ ys) = circState (circState known xs) ys := by
  induction xs generalizing known with
  | nil => simp [circState, circRun]
  | cons c cs ih =>
    rw [List.cons_append, circState_cons, circState_cons, ih]

/-- a directory symlink is rejected exactly when its sep-terminated canonical
target matches (as prefix, either way) some known root -/
theorem circStep_decision (known : List Str) (c : Candidate)
    (hl : c.isLink = true) (hd : c.isDir = true) :
    ((circStep known c).1 = false ↔
      circMatches known (joinTrailingSep c.canon) = true) := by
  simp only [circStep, hl, hd]
  split_ifs with hm <;> simp_all

/-- after a directory symlink is processed (accepted or rejected), a matching
root for its target is in the state -/
theorem circStep_after_match (known : List Str) (c : Candidate)
    (hl : c.isLink = true) (hd : c.isDir = true) :
    ∃ r ∈ (circStep known c).2,
      ((joinTrailingSep c.canon).isPrefixOf r ||
        r.isPrefixOf (joinTrailingSep c.canon)) = true := by
  simp only [circStep, hl, hd]
  simp only [and_self, true_and, if_pos]
  split_ifs with hm
  · rcases List.any_eq_true.mp hm with ⟨r, hr, hc⟩
    exact ⟨r, hr, hc⟩
  · refine ⟨joinTrailingSep c.canon, by simp, ?_⟩
    have : (joinTrailingSep c.canon).isPrefixOf (joinTrailingSep c.canon) = true :=
      List.isPrefixOf_iff_prefix.mpr (List.prefix_refl _)
    simp [this]

/-- C6: the symlink-cycle filter accepts everything that is not a directory
symlink; it rejects a directory symlink iff its sep-terminated canonical
target is a prefix of, or has as a prefix, a known root; once a directory
symlink has been handed in, any later candidate with the same canonical
target is rejected (so a given link is accepted at most once); and a symlink
whose target is an ancestor of the root is never accepted, in any reachable
state. -/
theorem c6_symlink_filter :
    (∀ (known : List Str) (c : Candidate), ¬ (c.isLink = true ∧ c.isDir = true) →
      (circStep known c).1 = true) ∧
    (∀ (known : List Str) (c : Candidate), c.isLink = true → c.isDir = true →
      ((circStep known c).1 = false ↔
        circMatches known (joinTrailingSep c.canon) = true)) ∧
    (∀ (canonRoot : Str) (cs1 : List Candidate) (c : Candidate)
        (cs2 : List Candidate) (c2 : Candidate),
      c.isLink = true → c.isDir = true → c2.isLink = true → c2.isDir = true →
      c2.canon = c.canon →
      (circStep (circState (circInit canonRoot) (cs1 ++ c :: cs2)) c2).1 = false) ∧
    (∀ (canonRoot : Str) (cs : List Candidate) (c : Candidate),
      c.isLink = true → c.isDir = true →
      (joinTrailingSep c.canon).isPrefixOf (joinTrailingSep canonRoot) = true →
      (circStep (circState (circInit canonRoot) cs) c).1 = false) := by
  refine ⟨?_, ?_, ?_, ?_⟩
  · intro known c h
    simp only [circStep]
    rw [if_neg]
    intro hc
    exact h ⟨hc.1, hc.2⟩
  · intro known c hl hd
    exact circStep_decision known c hl hd
  · intro canonRoot cs1 c cs2 c2 hl hd hl2 hd2 hcanon
    rw [circState_append, circState_cons]
    obtain ⟨r, hr, hc⟩ :=
      circStep_after_match (circState (circInit canonRoot) cs1) c hl hd
    have hr2 := circState_subset cs2 _ r hr
    refine (circStep_decision _ c2 hl2 hd2).mpr ?_
    refine List.any_eq_true.mpr ⟨r, hr2, ?_⟩
    rw [hcanon]
    exact hc
  · intro canonRoot cs c hl hd hanc
    have hr : joinTrailingSep canonRoot ∈ circState (circInit canonRoot) cs :=
      circState_subset cs _ _ (by simp [circInit])
    refine (circStep_decision _ c hl hd).mpr ?_
    refine List.any_eq_true.mpr ⟨joinTrailingSep canonRoot, hr, ?_⟩
    simp [hanc]

/-- witness for C6 at concrete inputs -/
theorem c6_witness :
    (circStep [[47]] ⟨false, true, [47, 97]⟩).1 = true ∧
    (circStep (circState (circInit [47, 114])
        ([⟨false, false, [47]⟩] ++ ⟨true, true, [47, 116]⟩ ::
          [⟨false, true, [47]⟩]))
      ⟨true, true, [47, 116]⟩).1 = false ∧
    (circStep (circState (circInit [47, 114, 47, 115]) [])
      ⟨true, true, [47, 114]⟩).1 = false := by
  refine ⟨c6_symlink_filter.1 _ _ (by decide), ?_, ?_⟩
  · exact c6_symlink_filter.2.2.1 [47, 114] _ _ _ _ rfl rfl rfl rfl rfl
  · exact c6_symlink_filter.2.2.2 _ _ _ rfl rfl (by decide)

/-! ## C7: the migration runner -/

/-- C7: one migration application opens exactly one `EXCLUSIVE` session with
timeout 0; when every step succeeds the committed store carries the steps'
effect plus exactly one appended `_versions` row whose direction is `BACKWARD`
or `FORWARD` according to the flag; when a step raises, the transaction rolls
back and the committed store — ledger included — is exactly what it was. -/
theorem c7_apply_migration (σ : Type) (mig : MigrationM σ) (db : Store σ)
    (bw : Bool) (now : Str) :
    (apply_migration_to_db mig db bw now).1 = ⟨.EXCLUSIVE, 0⟩ ∧
    (∀ u, runSteps (mig.steps bw) db.user = some u →
      (apply_migration_to_db mig db bw now).2.user = u ∧
      (apply_migration_to_db mig db bw now).2.versions =
        some (db.versions.getD [] ++
          [⟨mig.name, mig.comment, if bw then .BACKWARD else .FORWARD, now⟩])) ∧
    (runSteps (mig.steps bw) db.user = none →
      (apply_migration_to_db mig db bw now).2 = db) := by
  refine ⟨?_, ?_, ?_⟩
  · simp only [apply_migration_to_db]
    split <;> rfl
  · intro u hu
    simp [apply_migration_to_db, hu]
  · intro hn
    simp only [apply_migration_to_db, hn]

/-- witness for C7 at a concrete store and migration -/
theorem c7_witness :
    (apply_migration_to_db (⟨[77], [], fun _ => []⟩ : MigrationM Nat)
        ⟨5, none⟩ false [116]).2.versions =
      some [⟨[77], [], .FORWARD, [116]⟩] ∧
    (apply_migration_to_db (⟨[77], [], fun _ => [fun _ => none]⟩ : MigrationM Nat)
        ⟨5, some [⟨[78], [], .FORWARD, []⟩]⟩ true [116]).2 =
      ⟨5, some [⟨[78], [], .FORWARD, []⟩]⟩ := by
  constructor
  · have h := (c7_apply_migration Nat ⟨[77], [], fun _ => []⟩ ⟨5, none⟩ false
      [116]).2.1 5 rfl
    simpa using h.2
  · exact (c7_apply_migration Nat ⟨[77], [], fun _ => [fun _ => none]⟩
      ⟨5, some [⟨[78], [], .FORWARD, []⟩]⟩ true [116]).2.2 rfl

/-! ## C9: autocommit sessions -/

theorem autocommit_run (σ : Type) (sts : List (Stmt σ)) (c : Conn σ)
    (hw : c.working = c.committed) (ht : c.inTxn = false) :
    (sts.foldl (connExec .AUTOCOMMIT) c).committed =
      sts.foldl (fun s st => st.eff s) c.committed ∧
    (sts.foldl (connExec .AUTOCOMMIT) c).inTxn = false := by
  induction sts generalizing c with
  | nil => exact ⟨rfl, ht⟩
  | cons st sts ih =>
    simp only [List.foldl_cons, connExec, reduceIte]
    exact ih _ rfl rfl

/-- C9: a session opened in `AUTOCOMMIT` issues no `BEGIN` at scope entry and
opens no transaction; every statement commits as it executes; exiting the
scope with an exception rolls nothing back, leaving every executed statement
durably applied — because the exit-time rollback only fires when the
connection is inside an open transaction, which the eager-`BEGIN` modes enter
at scope entry and `DEFAULT` enters at its first data-modifying statement. -/
theorem c9_autocommit_session (σ : Type) (db : σ) (sts : List (Stmt σ)) :
    beginLog .AUTOCOMMIT = [] ∧
    (sessionEnter .AUTOCOMMIT db : Conn σ).inTxn = false ∧
    (∀ (c : Conn σ) (st : Stmt σ),
      (connExec .AUTOCOMMIT c st).committed = st.eff c.committed ∧
      (connExec .AUTOCOMMIT c st).inTxn = false) ∧
    sessionExit (sts.foldl (connExec .AUTOCOMMIT) (sessionEnter .AUTOCOMMIT db))
        true = sts.foldl (fun s st => st.eff s) db ∧
    (∀ c : Conn σ, c.inTxn = false → sessionExit c true = c.committed) ∧
    (∀ iso : Isolation, iso ≠ .DEFAULT → iso ≠ .AUTOCOMMIT →
      beginLog iso = [iso] ∧ (sessionEnter iso db : Conn σ).inTxn = true) ∧
    (∀ (c : Conn σ) (st : Stmt σ), c.inTxn = false → st.isDml = true →
      (connExec .DEFAULT c st).inTxn = true) ∧
    (∀ c : Conn σ, c.inTxn = true →
      sessionExit c true = c.committed ∧ sessionExit c false = c.working) := by
  refine ⟨rfl, rfl, ?_, ?_, ?_, ?_, ?_, ?_⟩
  · intro c st
    exact ⟨rfl, rfl⟩
  · have h := autocommit_run σ sts (sessionEnter .AUTOCOMMIT db) rfl rfl
    simp only [sessionExit, h.2, Bool.false_eq_true, if_neg, ite_false]
    exact h.1
  · intro c hc
    simp [sessionExit, hc]
  · intro iso h1 h2
    constructor
    · simp [beginLog, h1, h2]
    · simp [sessionEnter, h1, h2]
  · intro c st hc hdml
    simp [connExec, hc, hdml]
  · intro c hc
    simp [sessionExit, hc]

/-! ## the store invariant: trigger walk and insert loop -/

theorem find_by_id (tbl : List PathsRow) (hnd : (tbl.map PathsRow.id).Nodup)
    (row : PathsRow) (hrow : row ∈ tbl) :
    tbl.find? (fun r => r.id = row.id) = some row := by
  induction tbl with
  | nil => cases hrow
  | cons r rest ih =>
    rcases List.mem_cons.mp hrow with h | h
    · subst h
      simp [List.find?]
    · have hne : r.id ≠ row.id := by
        intro he
        have : row.id ∈ rest.map PathsRow.id := List.mem_map_of_mem _ h
        rw [← he] at this
        exact (List.nodup_cons.mp (by simpa using hnd)).1 this
      rw [List.find?_cons_of_neg _ (by simpa using hne)]
      exact ih (List.nodup_cons.mp (by simpa using hnd)).2 h

theorem id_bounds (tbl : List PathsRow)
    (hids : tbl.map PathsRow.id = List.range' 1 tbl.length)
    (row : PathsRow) (hrow : row ∈ tbl) :
    1 ≤ row.id ∧ row.id ≤ tbl.length := by
  have : row.id ∈ tbl.map PathsRow.id := List.mem_map_of_mem _ hrow
  rw [hids] at this
  have h2 := List.mem_range'.mp this
  omega

theorem tbl_id_nodup (tbl : List PathsRow)
    (hids : tbl.map PathsRow.id = List.range' 1 tbl.length) :
    (tbl.map PathsRow.id).Nodup := by
  rw [hids]
  exact List.nodup_range' _ _

/-- the trigger's recursive walk from a table row: it emits one row per proper
ancestor, with reldepths descending one by one, ancestor ids strictly
decreasing below the starting row, and every emitted row tagged with the
inserted child -/
theorem ancWalk_spec (tbl : List PathsRow) (hinv : TblInv tbl) :
    ∀ (fuel : Nat) (row : PathsRow), row ∈ tbl → row.id ≤ fuel →
    ∀ (newId : Nat) (rd : Int),
      (ancWalkF tbl newId fuel row.id rd).map (fun a => a.reldepth)
        = (List.range (row.depth.toNat - 1)).map (fun k : Nat => rd - 1 - (k : Int)) ∧
      (∀ a ∈ ancWalkF tbl newId fuel row.id rd,
        a.child_id = newId ∧ a.reldepth < rd ∧ a.ancestor_id < row.id ∧
          1 ≤ a.ancestor_id) ∧
      List.Pairwise (fun a b => b.ancestor_id < a.ancestor_id)
        (ancWalkF tbl newId fuel row.id rd) := by
  obtain ⟨hids, hdep, hpar⟩ := hinv
  intro fuel
  induction fuel with
  | zero =>
    intro row hrow hle
    have := (id_bounds tbl hids row hrow).1
    omega
  | succ fuel ih =>
    intro row hrow hle newId rd
    have hfind := find_by_id tbl (tbl_id_nodup tbl hids) row hrow
    have hrpo := hpar row hrow
    rcases hpid : row.parent_id with _ | p
    · have hd1 := hrpo.1 hpid
      have hwalk : ancWalkF tbl newId (fuel + 1) row.id rd = [] := by
        simp only [ancWalkF, hfind, hpid]
      rw [hwalk, hd1]
      simp
    · obtain ⟨hplt, prow, hprow, hpid2, hdep2⟩ := hrpo.2 p hpid
      have hwalk : ancWalkF tbl newId (fuel + 1) row.id rd
          = ⟨newId, p, rd - 1⟩ :: ancWalkF tbl newId fuel p (rd - 1) := by
        simp only [ancWalkF, hfind, hpid]
      have hple : prow.id ≤ fuel := by omega
      have hih := ih prow hprow (by omega) newId (rd - 1)
      rw [hpid2] at hih
      obtain ⟨hmap, hmem, hpw⟩ := hih
      have hdp1 : 1 ≤ prow.depth := hdep prow hprow
      have htn : row.depth.toNat - 1 = prow.depth.toNat := by omega
      have htn2 : prow.depth.toNat = (prow.depth.toNat - 1) + 1 := by omega
      refine ⟨?_, ?_, ?_⟩
      · rw [hwalk, List.map_cons, hmap, htn, htn2, List.range_succ_eq_map,
          List.map_cons, List.map_map]
        congr 1
        · simp
        · simp only [Nat.add_sub_cancel]
          apply List.map_congr_left
          intro k _
          simp only [Function.comp_apply]
          push_cast
          ring
      · intro a ha
        rw [hwalk] at ha
        rcases List.mem_cons.mp ha with h | h
        · subst h
          have h1 := (id_bounds tbl hids prow hprow).1
          refine ⟨rfl, ?_, ?_, ?_⟩
          · show rd - 1 < rd
            omega
          · show p < row.id
            omega
          · show 1 ≤ p
            omega
        · obtain ⟨h1, h2, h3, h4⟩ := hmem a h
          exact ⟨h1, by omega, by omega, h4⟩
      · rw [hwalk]
        refine List.Pairwise.cons ?_ hpw
        intro a ha
        exact (hmem a ha).2.2.1

/-- shape of the full trigger output for a table row (used for the newly
appended row, whose id is the table length) -/
theorem triggerRows_spec (tbl : List PathsRow) (hinv : TblInv tbl)
    (row : PathsRow) (hrow : row ∈ tbl) :
    (triggerRows tbl row.id).map (fun a => a.reldepth)
      = (List.range row.depth.toNat).map (fun k : Nat => -(k : Int)) ∧
    (∀ a ∈ triggerRows tbl row.id, a.child_id = row.id ∧ 1 ≤ a.ancestor_id) ∧
    ((triggerRows tbl row.id).filter (fun a => a.reldepth = 0)
      = [⟨row.id, row.id, 0⟩]) ∧
    ((triggerRows tbl row.id).map (fun a => (a.child_id, a.ancestor_id))).Nodup := by
  have hfuel := id_bounds tbl hinv.1 row hrow
  obtain ⟨hmap, hmem, hpw⟩ :=
    ancWalk_spec tbl hinv tbl.length row hrow hfuel.2 row.id 0
  have hd1 : 1 ≤ row.depth := hinv.2.1 row hrow
  have htn : row.depth.toNat = (row.depth.toNat - 1) + 1 := by omega
  refine ⟨?_, ?_, ?_, ?_⟩
  · rw [triggerRows, List.map_cons, hmap, htn, List.range_succ_eq_map,
      List.map_cons, List.map_map]
    simp only [List.cons.injEq, Nat.add_sub_cancel, List.map_map]
    refine ⟨by simp, ?_⟩
    apply List.map_congr_left
    intro k _
    simp only [Function.comp_apply]
    push_cast
    ring
  · intro a ha
    rcases List.mem_cons.mp ha with h | h
    · subst h
      exact ⟨rfl, hfuel.1⟩
    · obtain ⟨h1, _, _, h4⟩ := hmem a h
      exact ⟨h1, h4⟩
  · rw [triggerRows, List.filter_cons]
    have hz : ((⟨row.id, row.id, 0⟩ : AncRow).reldepth = 0) := rfl
    rw [if_pos (by simp [hz])]
    have : (ancWalkF tbl row.id tbl.length row.id 0).filter
        (fun a => a.reldepth = 0) = [] := by
      rw [List.filter_eq_nil_iff]
      intro a ha
      have := (hmem a ha).2.1
      simp only [decide_eq_true_eq]
      omega
    rw [this]
  · rw [triggerRows, List.map_cons, List.nodup_cons]
    constructor
    · intro hmem2
      rcases List.mem_map.mp hmem2 with ⟨a, ha, hpair⟩
      have := (hmem a ha).2.2.1
      have h2 : a.ancestor_id = row.id := congrArg Prod.snd hpair
      omega
    · refine List.Pairwise.map _ ?_ hpw
      intro a b h hEq
      have : a.ancestor_id = b.ancestor_id := congrArg Prod.snd hEq
      omega

/-- inserting trigger rows that conflict neither with the existing table nor
among themselves is a plain append -/
theorem foldl_ancInsert_append (newRows : List AncRow) :
    ∀ anc : List AncRow,
    (∀ r ∈ newRows, ∀ a ∈ anc,
      ¬(a.child_id = r.child_id ∧ a.ancestor_id = r.ancestor_id)) →
    (newRows.map (fun a => (a.child_id, a.ancestor_id))).Nodup →
    newRows.foldl ancInsert1 anc = anc ++ newRows := by
  induction newRows with
  | nil => intro anc _ _; simp
  | cons r rs ih =>
    intro anc hold hnd
    have hnc : (anc.any fun a =>
        a.child_id = r.child_id ∧ a.ancestor_id = r.ancestor_id) = false := by
      rw [Bool.eq_false_iff]
      intro hany
      rcases List.any_eq_true.mp hany with ⟨a, ha, hc⟩
      exact hold r (by simp) a ha (of_decide_eq_true hc)
    have h1 : ancInsert1 anc r = anc ++ [r] := by
      have h' : ¬ ((anc.any fun a =>
          decide (a.child_id = r.child_id ∧ a.ancestor_id = r.ancestor_id)) = true) := by
        rw [hnc]
        simp
      simp only [ancInsert1, if_neg h']
    rw [List.foldl_cons, h1, ih (anc ++ [r]) ?_ (List.nodup_cons.mp hnd).2,
      List.append_assoc, List.singleton_append]
    intro q hq a ha
    rcases List.mem_append.mp ha with h | h
    · exact hold q (by simp [hq]) a h
    · have hne := (List.nodup_cons.mp hnd).1
      rw [List.mem_singleton.mp h]
      intro hc
      exact hne (List.mem_map.mpr ⟨q, hq, by simp [hc.1, hc.2]⟩)

theorem path_nonempty (Q : PathV) (h : Q.name ≠ []) : Q.path ≠ [] := by
  unfold PathV.path
  intro he
  rcases List.append_eq_nil.mp he with ⟨_, h2⟩
  exact h h2

theorem path_ne_parent (P : PathV) (h : P.name ≠ []) : P.path ≠ P.parent := by
  intro he
  unfold PathV.path at he
  by_cases hp : P.parent = []
  · rw [hp] at he
    simp only [ne_eq, not_true_eq_false, if_neg, List.nil_append, ite_false] at he
    exact h he
  · have := congrArg List.length he
    simp only [hp, ne_eq, not_false_eq_true, if_pos, ite_true,
      List.length_append, List.length_cons] at this
    omega

theorem idOf_cons_ne (e : Str × Nat) (ids : List (Str × Nat)) (s : Str)
    (h : e.1 ≠ s) : idOf (e :: ids) s = idOf ids s := by
  simp only [idOf]
  rw [List.find?_cons_of_neg]
  simpa using h

theorem idOf_cons_self (e : Str × Nat) (ids : List (Str × Nat)) :
    idOf (e :: ids) e.1 = some e.2 := by
  simp only [idOf]
  rw [List.find?_cons_of_pos] <;> simp

theorem idOf_none_of_all (ids : List (Str × Nat)) (s : Str)
    (h : ∀ e ∈ ids, e.1 ≠ s) : idOf ids s = none := by
  have hf : ids.find? (fun e => decide (e.1 = s)) = none := by
    rw [List.find?_eq_none]
    intro e he
    simpa using h e he
  simp [idOf, hf]

theorem RowParentOk_mono (tbl l : List PathsRow) (row : PathsRow)
    (h : RowParentOk tbl row) : RowParentOk (tbl ++ l) row := by
  refine ⟨h.1, fun p hp => ?_⟩
  obtain ⟨h1, prow, h2, h3, h4⟩ := h.2 p hp
  exact ⟨h1, prow, List.mem_append_left _ h2, h3, h4⟩

theorem wfNameB_spec (n : Str) (h : wfNameB n = true) :
    n ≠ [] ∧ n ≠ [46] ∧ n ≠ [46, 46] ∧ ¬ 47 ∈ n ∧ (fsencode n).isSome := by
  exact of_decide_eq_true h

theorem wfStepB_spec (seen : List PathV) (P : PathV) (h : wfStepB seen P = true) :
    wfNameB P.name = true ∧
    ((P.parent = [] ∧ P.depth = 1) ∨
      ∃ Q ∈ seen, Q.path = P.parent ∧ P.depth = Q.depth + 1) ∧
    (∀ Q ∈ seen, Q.path ≠ P.path) ∧
    (∀ Q ∈ seen, ¬ (Q.parent = P.parent ∧ fsencode Q.name = fsencode P.name)) := by
  simp only [wfStepB, Bool.and_eq_true, Bool.or_eq_true, List.any_eq_true,
    List.all_eq_true, decide_eq_true_eq] at h
  obtain ⟨⟨⟨h1, h2⟩, h3⟩, h4⟩ := h
  exact ⟨h1, h2, h3, h4⟩

/-- one iteration of the insert loop preserves the full invariant -/
theorem updInv_insert (seen : List PathV) (db : MediaDb) (ids : List (Str × Nat))
    (P : PathV) (hwf : wfStepB seen P = true) (hinv : UpdInv seen db ids) :
    UpdInv (P :: seen)
      (insertPathRow db ((fsencode P.name).getD []) P.isDirV P.depth
          (idOf ids P.parent)).1
      ((P.path,
        (insertPathRow db ((fsencode P.name).getD []) P.isDirV P.depth
          (idOf ids P.parent)).2) :: ids) := by
  obtain ⟨hTbl, hNext, hLen, hRowAnc, hAncCh, hIdsFst, hIdsSnd, hNodup, hSeen,
    hPw, hQR, hRQ⟩ := hinv
  obtain ⟨hwfn, hcase, hdist, hpairc⟩ := wfStepB_spec seen P hwf
  obtain ⟨hnne, _, _, _, hencs⟩ := wfNameB_spec P.name hwfn
  have hseenpath : ∀ Q ∈ seen, Q.path ≠ [] := by
    intro Q hQ
    exact path_nonempty Q (wfNameB_spec _ (hSeen Q hQ).1).1
  have hppath : P.path ≠ [] := path_nonempty P hnne
  have hpidFact : (P.parent = [] ∧ P.depth = 1 ∧ idOf ids P.parent = none) ∨
      (∃ qrow ∈ db.paths, P.depth = qrow.depth + 1 ∧
        idOf ids P.parent = some qrow.id) := by
    rcases hcase with ⟨hpe, hd1⟩ | ⟨Q, hQ, hQp, hQd⟩
    · refine Or.inl ⟨hpe, hd1, ?_⟩
      rw [hpe]
      apply idOf_none_of_all
      intro e he
      have hm : e.1 ∈ ids.map Prod.fst := List.mem_map_of_mem _ he
      rw [hIdsFst] at hm
      rcases List.mem_map.mp hm with ⟨Q, hQ, hQe⟩
      rw [← hQe]
      exact hseenpath Q hQ
    · obtain ⟨qrow, hqrow, hQRok⟩ := hQR Q hQ
      refine Or.inr ⟨qrow, hqrow, ?_, ?_⟩
      · rw [hQd, hQRok.2.2.2.1]
      · rw [← hQp]
        exact hQRok.1
  have hPd1 : 1 ≤ P.depth := by
    rcases hpidFact with ⟨_, hd1, _⟩ | ⟨qrow, hqrow, hd, _⟩
    · omega
    · have := hTbl.2.1 qrow hqrow
      omega
  show UpdInv (P :: seen)
    ⟨db.paths ++ [⟨db.nextId, (fsencode P.name).getD [], P.isDirV, P.depth,
        idOf ids P.parent⟩],
      (triggerRows (db.paths ++ [⟨db.nextId, (fsencode P.name).getD [],
        P.isDirV, P.depth, idOf ids P.parent⟩]) db.nextId).foldl ancInsert1
        db.ancestors,
      db.nextId + 1⟩
    ((P.path, db.nextId) :: ids)
  set newRow : PathsRow := ⟨db.nextId, (fsencode P.name).getD [], P.isDirV,
    P.depth, idOf ids P.parent⟩ with hNewRow
  set tbl' : List PathsRow := db.paths ++ [newRow] with hTblDef
  have hNid : newRow.id = db.nextId := rfl
  have hTbl2 : TblInv tbl' := by
    refine ⟨?_, ?_, ?_⟩
    · rw [hTblDef, List.map_append, hTbl.1, List.length_append]
      simp only [List.map_cons, List.map_nil, List.length_singleton]
      rw [List.range'_concat]
      congr 1
      simp only [List.cons.injEq, and_true]
      omega
    · intro row hrow
      rcases List.mem_append.mp hrow with h | h
      · exact hTbl.2.1 row h
      · rw [List.mem_singleton.mp h]
        exact hPd1
    · intro row hrow
      rcases List.mem_append.mp hrow with h | h
      · exact RowParentOk_mono _ _ row (hTbl.2.2 row h)
      · rw [List.mem_singleton.mp h]
        constructor
        · intro hnone
          rcases hpidFact with ⟨_, hd1, _⟩ | ⟨qrow, _, _, hsome⟩
          · exact hd1
          · rw [show newRow.parent_id = idOf ids P.parent from rfl, hsome]
              at hnone
            cases hnone
        · intro p hp
          rw [show newRow.parent_id = idOf ids P.parent from rfl] at hp
          rcases hpidFact with ⟨_, _, hno⟩ | ⟨qrow, hqrow, hd, hsome⟩
          · rw [hno] at hp
            cases hp
          · rw [hsome] at hp
            injection hp with hp
            subst hp
            have hb := id_bounds db.paths hTbl.1 qrow hqrow
            refine ⟨?_, qrow, List.mem_append_left _ hqrow, rfl, hd⟩
            rw [hNid]
            omega
  have hmemNew : newRow ∈ tbl' := List.mem_append_right _ (by simp)
  obtain ⟨htr_map, htr_mem, htr_filt, htr_nd⟩ :=
    triggerRows_spec tbl' hTbl2 newRow hmemNew
  rw [hNid] at htr_map htr_mem htr_filt htr_nd
  have hAnc : (triggerRows tbl' db.nextId).foldl ancInsert1 db.ancestors
      = db.ancestors ++ triggerRows tbl' db.nextId := by
    apply foldl_ancInsert_append
    · intro r hr a ha hcontra
      have h1 := (htr_mem r hr).1
      have h2 := (hAncCh a ha).2
      rw [hcontra.1, h1] at h2
      omega
    · exact htr_nd
  have hstab : ∀ s, s ≠ P.path →
      idOf ((P.path, db.nextId) :: ids) s = idOf ids s := by
    intro s hs
    exact idOf_cons_ne _ _ _ (fun h => hs h.symm)
  have hparent_stab : idOf ((P.path, db.nextId) :: ids) P.parent
      = idOf ids P.parent :=
    hstab _ (fun h => path_ne_parent P hnne h.symm)
  have hQstab : ∀ Q ∈ seen,
      idOf ((P.path, db.nextId) :: ids) Q.path = idOf ids Q.path ∧
      idOf ((P.path, db.nextId) :: ids) Q.parent = idOf ids Q.parent := by
    intro Q hQ
    constructor
    · exact hstab _ (hdist Q hQ)
    · apply hstab
      rcases (hSeen Q hQ).2.2 with ⟨hpe, _⟩ | ⟨R, hR, hRp, _⟩
      · rw [hpe]
        exact fun h => hppath h.symm
      · rw [← hRp]
        exact hdist R hR
  have hfilt_trig_old : ∀ rid, rid < db.nextId →
      ∀ q : AncRow → Bool, (∀ a, q a = true → a.child_id = rid) →
      (triggerRows tbl' db.nextId).filter q = [] := by
    intro rid hrid q hq
    rw [List.filter_eq_nil_iff]
    intro a ha hqa
    have h1 := (htr_mem a ha).1
    have h2 := hq a hqa
    omega
  refine ⟨hTbl2, ?_, ?_, ?_, ?_, ?_, ?_, ?_, ?_, ?_, ?_, ?_⟩
  · show db.nextId + 1 = tbl'.length + 1
    rw [hTblDef]
    simp [hNext]
  · show tbl'.length = (P :: seen).length
    rw [hTblDef]
    simp [hNext, hLen]
  · -- per-row ancestor closure
    rw [hAnc]
    intro row hrow
    have hrow' : row ∈ db.paths ++ [newRow] := by
      rw [← hTblDef]
      exact hrow
    rcases List.mem_append.mp hrow' with h | h
    · obtain ⟨ha1, ha2⟩ := hRowAnc row h
      have hlt : row.id < db.nextId := by
        have := id_bounds db.paths hTbl.1 row h
        omega
      have e1 : (triggerRows tbl' db.nextId).filter
          (fun a => a.child_id = row.id) = [] := by
        apply hfilt_trig_old row.id hlt
        intro a ha
        simpa using ha
      have e2 : (triggerRows tbl' db.nextId).filter
          (fun a => a.child_id = row.id ∧ a.reldepth = 0) = [] := by
        apply hfilt_trig_old row.id hlt
        intro a ha
        simp only [Bool.decide_and, Bool.and_eq_true, decide_eq_true_eq] at ha
        exact ha.1
      refine ⟨?_, ?_⟩
      · show ((db.ancestors ++ triggerRows tbl' db.nextId).filter
            (fun a => a.child_id = row.id)).map (fun a => a.reldepth)
          = (List.range row.depth.toNat).map (fun k : Nat => -(k : Int))
        rw [List.filter_append, e1, List.append_nil]
        exact ha1
      · show (db.ancestors ++ triggerRows tbl' db.nextId).filter
            (fun a => a.child_id = row.id ∧ a.reldepth = 0)
          = [⟨row.id, row.id, 0⟩]
        rw [List.filter_append, e2, List.append_nil]
        exact ha2
    · have hre : row = newRow := List.mem_singleton.mp h
      subst hre
      have eA : db.ancestors.filter (fun a => a.child_id = db.nextId) = [] := by
        rw [List.filter_eq_nil_iff]
        intro a ha
        simp only [decide_eq_true_eq]
        intro hq
        have h2 := (hAncCh a ha).2
        omega
      have eB : (triggerRows tbl' db.nextId).filter
          (fun a => a.child_id = db.nextId) = triggerRows tbl' db.nextId := by
        rw [List.filter_eq_self]
        intro a ha
        simp only [decide_eq_true_eq]
        exact (htr_mem a ha).1
      refine ⟨?_, ?_⟩
      · show ((db.ancestors ++ triggerRows tbl' db.nextId).filter
            (fun a => a.child_id = db.nextId)).map (fun a => a.reldepth)
          = (List.range newRow.depth.toNat).map (fun k : Nat => -(k : Int))
        rw [List.filter_append, eA, eB, List.nil_append]
        exact htr_map
      · show (db.ancestors ++ triggerRows tbl' db.nextId).filter
            (fun a => a.child_id = db.nextId ∧ a.reldepth = 0)
          = [⟨db.nextId, db.nextId, 0⟩]
        have eA2 : db.ancestors.filter
            (fun a => a.child_id = db.nextId ∧ a.reldepth = 0) = [] := by
          rw [List.filter_eq_nil_iff]
          intro a ha
          simp only [Bool.decide_and, Bool.and_eq_true, decide_eq_true_eq,
            not_and]
          intro hq _
          have h2 := (hAncCh a ha).2
          omega
        have eB2 : (triggerRows tbl' db.nextId).filter
            (fun a => a.child_id = db.nextId ∧ a.reldepth = 0)
          = (triggerRows tbl' db.nextId).filter (fun a => a.reldepth = 0) := by
          apply List.filter_congr
          intro a ha
          have h1 := (htr_mem a ha).1
          simp [h1]
        rw [List.filter_append, eA2, eB2, List.nil_append, htr_filt]
  · -- ancestor child-id bounds
    show ∀ a ∈ (triggerRows tbl' db.nextId).foldl ancInsert1 db.ancestors,
        1 ≤ a.child_id ∧ a.child_id < db.nextId + 1
    rw [hAnc]
    intro a ha
    rcases List.mem_append.mp ha with h | h
    · have := hAncCh a h
      omega
    · have h1 := (htr_mem a h).1
      omega
  · show ((P.path, db.nextId) :: ids).map Prod.fst = (P :: seen).map PathV.path
    simp [hIdsFst]
  · show ((P.path, db.nextId) :: ids).map Prod.snd
        = (List.range' 1 (P :: seen).length).reverse
    rw [List.map_cons, hIdsSnd, List.length_cons, List.range'_concat,
      List.reverse_append]
    simp only [List.reverse_singleton, List.singleton_append, List.cons.injEq]
    refine ⟨?_, trivial⟩
    show db.nextId = _
    omega
  · show ((P :: seen).map PathV.path).Nodup
    rw [List.map_cons]
    refine List.nodup_cons.mpr ⟨?_, hNodup⟩
    intro hmem
    rcases List.mem_map.mp hmem with ⟨Q, hQ, hQe⟩
    exact hdist Q hQ hQe
  · intro Q hQ
    rcases List.mem_cons.mp hQ with h | h
    · subst h
      refine ⟨hwfn, hPd1, ?_⟩
      rcases hcase with ⟨hpe, hd1⟩ | ⟨R, hR, hRp, hRd⟩
      · exact Or.inl ⟨hpe, hd1⟩
      · exact Or.inr ⟨R, List.mem_cons_of_mem _ hR, hRp, hRd⟩
    · obtain ⟨h1, h2, h3⟩ := hSeen Q h
      refine ⟨h1, h2, ?_⟩
      rcases h3 with h3 | ⟨R, hR, hRp, hRd⟩
      · exact Or.inl h3
      · exact Or.inr ⟨R, List.mem_cons_of_mem _ hR, hRp, hRd⟩
  · refine List.pairwise_cons.mpr ⟨?_, hPw⟩
    intro R hR hcontra
    exact hpairc R hR ⟨hcontra.1.symm, hcontra.2.symm⟩
  · intro Q hQ
    rcases List.mem_cons.mp hQ with h | h
    · rw [h]
      refine ⟨newRow, hmemNew, ?_, rfl, rfl, rfl, ?_⟩
      · exact idOf_cons_self (P.path, db.nextId) ids
      · show idOf ids P.parent = idOf ((P.path, db.nextId) :: ids) P.parent
        exact hparent_stab.symm
    · obtain ⟨qrow, hqrow, hok⟩ := hQR Q h
      obtain ⟨hs1, hs2⟩ := hQstab Q h
      have hq' : qrow ∈ tbl' := by
        rw [hTblDef]
        exact List.mem_append_left _ hqrow
      refine ⟨qrow, hq', ?_, hok.2.1, hok.2.2.1, hok.2.2.2.1, ?_⟩
      · rw [hs1]
        exact hok.1
      · rw [hs2]
        exact hok.2.2.2.2
  · intro row hrow
    have hrow' : row ∈ db.paths ++ [newRow] := by
      rw [← hTblDef]
      exact hrow
    rcases List.mem_append.mp hrow' with h | h
    · obtain ⟨Q, hQ, hok⟩ := hRQ row h
      obtain ⟨hs1, hs2⟩ := hQstab Q hQ
      refine ⟨Q, List.mem_cons_of_mem _ hQ, ?_, hok.2.1, hok.2.2.1,
        hok.2.2.2.1, ?_⟩
      · rw [hs1]
        exact hok.1
      · rw [hs2]
        exact hok.2.2.2.2
    · have hre : row = newRow := List.mem_singleton.mp h
      subst hre
      refine ⟨P, List.mem_cons_self _ _, ?_, rfl, rfl, rfl, ?_⟩
      · exact idOf_cons_self (P.path, db.nextId) ids
      · show idOf ids P.parent = idOf ((P.path, db.nextId) :: ids) P.parent
        exact hparent_stab.symm

/-- the invariant after processing any walker-well-formed yield list -/
theorem updateGo_inv : ∀ (l seen : List PathV) (db : MediaDb)
    (ids : List (Str × Nat)), wfScanAuxB seen l = true → UpdInv seen db ids →
    ∃ ids', UpdInv (l.reverse ++ seen) (updateGo l db ids) ids' := by
  intro l
  induction l with
  | nil =>
    intro seen db ids _ hinv
    exact ⟨ids, by simpa [updateGo] using hinv⟩
  | cons P ps ih =>
    intro seen db ids hwf hinv
    simp only [wfScanAuxB, Bool.and_eq_true] at hwf
    have step := updInv_insert seen db ids P hwf.1 hinv
    obtain ⟨ids', hids'⟩ := ih (P :: seen) _ _ hwf.2 step
    refine ⟨ids', ?_⟩
    simp only [updateGo, List.reverse_cons, List.append_assoc,
      List.singleton_append]
    simpa [idOf] using hids'

/-- the invariant holds at the loop's start -/
theorem updInv_empty : UpdInv [] emptyMediaDb [] := by
  refine ⟨⟨rfl, ?_, ?_⟩, rfl, rfl, ?_, ?_, rfl, rfl, ?_, ?_,
    List.Pairwise.nil, ?_, ?_⟩ <;> simp [emptyMediaDb]

/-- the committed store `update` produces from a root-started scan satisfies
the full invariant -/
theorem update_inv (l : List PathV) (h : WfScan l) :
    ∃ ids, UpdInv l.reverse (update l) ids := by
  have := updateGo_inv l [] emptyMediaDb [] h updInv_empty
  simpa [update] using this

/-- C1 (corrected): after the update pass over a root-started,
walker-well-formed yield sequence, every committed `paths` row of depth d has
exactly d `ancestors` rows carrying its `child_id` — reldepths
`0, -1, …, -(d-1)`, with the reflexive row `(R.id, R.id, 0)` present exactly
once — so `SELECT count(*) FROM ancestors WHERE child_id = R.id` equals d.
The trigger establishes this only when the scan starts at the root: starting
`update` at a nested path commits a row whose depth exceeds its ancestor
count (see the counterexample). -/
theorem c1_ancestors_closure (l : List PathV) (h : WfScan l)
    (row : PathsRow) (hrow : row ∈ (update l).paths) :
    ancCount (update l) row.id = row.depth.toNat ∧
    ((update l).ancestors.filter (fun a => a.child_id = row.id)).map
      (fun a => a.reldepth)
      = (List.range row.depth.toNat).map (fun k : Nat => -(k : Int)) ∧
    (update l).ancestors.filter
      (fun a => a.child_id = row.id ∧ a.reldepth = 0)
      = [⟨row.id, row.id, 0⟩] := by
  obtain ⟨ids, hinv⟩ := update_inv l h
  obtain ⟨ha1, ha2⟩ := hinv.2.2.2.1 row hrow
  have hlen := congrArg List.length ha1
  simp only [List.length_map, List.length_range] at hlen
  exact ⟨by simpa [ancCount] using hlen, ha1, ha2⟩

/-- C1 witness: on the two-yield scan of `a/b`, the depth-2 row for `a/b` has
exactly two ancestors rows, reldepths `0, -1`, and its reflexive row once -/
theorem c1_ancestors_closure_witness :
    ancCount (update lC1ex) rowC1ex.id = rowC1ex.depth.toNat ∧
    ((update lC1ex).ancestors.filter (fun a => a.child_id = rowC1ex.id)).map
      (fun a => a.reldepth)
      = (List.range rowC1ex.depth.toNat).map (fun k : Nat => -(k : Int)) ∧
    (update lC1ex).ancestors.filter
      (fun a => a.child_id = rowC1ex.id ∧ a.reldepth = 0)
      = [⟨rowC1ex.id, rowC1ex.id, 0⟩] :=
  c1_ancestors_closure lC1ex (by decide) rowC1ex (by decide)

/-- C1 counterexample: running the update pass with a nested start path —
`update(db, 'a/b', root)` over the tree `a/b` — commits a row of depth 2
whose ancestor count is 1, so the claimed closure fails for a store the
update pass itself produces -/
theorem c1_counterexample :
    ∃ row ∈ (update_fs fsAB [97, 47, 98] [] canonId).paths,
      ancCount (update_fs fsAB [97, 47, 98] [] canonId) row.id
        ≠ row.depth.toNat := by
  exact ⟨⟨1, [98], false, 2, none⟩, by decide, by decide⟩

/-- C3 (corrected): after the update pass over a root-started,
walker-well-formed yield sequence, every committed `paths` row's depth equals
the number of its `ancestors` rows — not that number minus one — and rows
with `parent_id IS NULL` carry depth 1 and exactly one ancestors row.  The
spec's 'minus one' is off by one already for root rows (see the
counterexample), and like the closure invariant of C1 the corrected equality
itself holds only for root-started scans: a nested-start update commits a
depth-2 row with a single ancestors row (the store of `c1_counterexample`). -/
theorem c3_depth_equals_count (l : List PathV) (h : WfScan l)
    (row : PathsRow) (hrow : row ∈ (update l).paths) :
    row.depth.toNat = ancCount (update l) row.id ∧
    (row.parent_id = none → row.depth = 1 ∧ ancCount (update l) row.id = 1) := by
  obtain ⟨ids, hinv⟩ := update_inv l h
  obtain ⟨ha1, _⟩ := hinv.2.2.2.1 row hrow
  have hlen := congrArg List.length ha1
  simp only [List.length_map, List.length_range] at hlen
  have hcount : ancCount (update l) row.id = row.depth.toNat := by
    simpa [ancCount] using hlen
  refine ⟨hcount.symm, ?_⟩
  intro hnone
  have hd1 := (hinv.1.2.2 row hrow).1 hnone
  refine ⟨hd1, ?_⟩
  rw [hcount, hd1]
  rfl

/-- C3 witness: the root row for `a` has depth 1, parent NULL and exactly one
ancestors row -/
theorem c3_depth_equals_count_witness :
    rowC3ex.depth.toNat = ancCount (update lC1ex) rowC3ex.id ∧
    (rowC3ex.parent_id = none →
      rowC3ex.depth = 1 ∧ ancCount (update lC1ex) rowC3ex.id = 1) :=
  c3_depth_equals_count lC1ex (by decide) rowC3ex (by decide)

/-- C3 counterexample: the spec's 'count minus one' is off by one — the
committed root row for `a` has depth 1 while its ancestor count is 1, and
`1 ≠ 1 - 1` -/
theorem c3_counterexample :
    ∃ row ∈ (update lC1ex).paths,
      row.depth ≠ (ancCount (update lC1ex) row.id : Int) - 1 := by
  exact ⟨⟨1, [97], true, 1, none⟩, by decide, by decide⟩

/-! ## path components of the walker's constructed paths -/

theorem splitOn_snoc_sep (b : Str) (hb : ¬ 47 ∈ b) :
    ∀ a : Str, (a ++ 47 :: b).splitOn 47 = a.splitOn 47 ++ [b] := by
  have hb' : ∀ x ∈ b, ¬((fun y => y == 47) x = true) := by
    intro x hx
    simp only [beq_iff_eq]
    intro he
    exact hb (he ▸ hx)
  intro a
  induction a with
  | nil =>
    simp only [List.nil_append, List.splitOn]
    rw [List.splitOnP_cons, if_pos (by simp),
      List.splitOnP_eq_single _ _ hb', List.splitOnP_nil, List.singleton_append]
  | cons hd tl ih =>
    simp only [List.splitOn] at ih ⊢
    rw [List.cons_append, List.splitOnP_cons]
    by_cases h : hd = 47
    · rw [if_pos (by simp [h]), ih, List.splitOnP_cons, if_pos (by simp [h])]
      rfl
    · rw [if_neg (by simp [h]), ih, List.splitOnP_cons, if_neg (by simp [h])]
      cases h' : tl.splitOnP (fun x => x == 47) with
      | nil => exact absurd h' (List.splitOnP_ne_nil _ _)
      | cons x xs => rfl

theorem pathComps_append_sep (a nm : Str) (h47 : ¬ 47 ∈ nm) :
    pathComps (a ++ 47 :: nm)
      = pathComps a ++ [nm].filter (fun c => c ≠ [] ∧ c ≠ [46]) := by
  simp only [pathComps, splitOn_snoc_sep nm h47 a, List.filter_append]

theorem pathComps_no_sep (s : Str) (h : ¬ 47 ∈ s) :
    pathComps s = [s].filter (fun c => c ≠ [] ∧ c ≠ [46]) := by
  have h' : ∀ x ∈ s, ¬((fun y => y == 47) x = true) := by
    intro x hx
    simp only [beq_iff_eq]
    intro he
    exact h (he ▸ hx)
  simp only [pathComps, List.splitOn]
  rw [List.splitOnP_eq_single _ _ h']

theorem make_child_simple (cur : PathV) (nm : Str) (kw : Kw)
    (hsimp : isSimpleName (.str nm) = true) :
    cur.make_child (.str nm) kw =
      { name := nm,
        parent := if cur.name = [46] then cur.parent else cur.path,
        depthK := some (kw.depth.getD (cur.depth + 1)),
        isDirK := kw.is_dir, isLinkK := kw.is_symlink } := by
  simp [PathV.make_child, mkPath, hsimp, normcase, fsdecodeArg]

theorem pathComps_child (cur : PathV) (nm : Str) (kw : Kw)
    (hwf : wfNameB nm = true) :
    pathComps ((cur.make_child (.str nm) kw).path)
      = pathComps cur.path ++ [nm] := by
  obtain ⟨h1, h2, h3, h4, _⟩ := wfNameB_spec nm hwf
  have hsimp : isSimpleName (.str nm) = true := by
    simp only [isSimpleName, decide_eq_true_eq]
    exact ⟨h1, h2, h3, h4⟩
  have hchild := make_child_simple cur nm kw hsimp
  have hfnm : [nm].filter (fun c => c ≠ [] ∧ c ≠ [46]) = [nm] := by
    simp [List.filter, h1, h2]
  have hf46 : [([46] : Str)].filter (fun c => c ≠ [] ∧ c ≠ [46]) = [] := by
    decide
  have hfnil : [([] : Str)].filter (fun c => c ≠ [] ∧ c ≠ [46]) = [] := by
    decide
  by_cases hc : cur.name = [46]
  · by_cases hp : cur.parent = []
    · have h5 : (cur.make_child (.str nm) kw).path = nm := by
        rw [hchild]
        simp [PathV.path, hc, hp]
      have hcur : cur.path = [46] := by
        simp [PathV.path, hp, hc]
      rw [h5, hcur, pathComps_no_sep nm h4, hfnm,
        pathComps_no_sep [46] (by decide), hf46, List.nil_append]
    · have h5 : (cur.make_child (.str nm) kw).path = cur.parent ++ 47 :: nm := by
        rw [hchild]
        simp [PathV.path, hc, hp]
      have hcur : cur.path = cur.parent ++ 47 :: [46] := by
        simp [PathV.path, hp, hc]
      rw [h5, hcur, pathComps_append_sep cur.parent nm h4, hfnm,
        pathComps_append_sep cur.parent [46] (by decide), hf46,
        List.append_nil]
  · by_cases hp : cur.path = []
    · have h5 : (cur.make_child (.str nm) kw).path = nm := by
        rw [hchild, if_neg hc, hp]
        simp [PathV.path]
      rw [h5, hp, pathComps_no_sep nm h4, hfnm,
        pathComps_no_sep [] (by decide), hfnil, List.nil_append]
    · have h5 : (cur.make_child (.str nm) kw).path = cur.path ++ 47 :: nm := by
        rw [hchild, if_neg hc]
        set q := cur.path with hq
        simp [PathV.path, hp]
      rw [h5, pathComps_append_sep cur.path nm h4, hfnm]

theorem mkChild_spec (cur : PathV) (nm : Str) (d lk : Bool) (ch : FsForest)
    (hwf : wfNameB nm = true) :
    (mkChild cur (.node nm d lk ch)).depth = cur.depth + 1 ∧
    (mkChild cur (.node nm d lk ch)).isDirV = d ∧
    pathComps ((mkChild cur (.node nm d lk ch)).path)
      = pathComps cur.path ++ [nm] := by
  obtain ⟨h1, h2, h3, h4, _⟩ := wfNameB_spec nm hwf
  have hsimp : isSimpleName (.str nm) = true := by
    simp only [isSimpleName, decide_eq_true_eq]
    exact ⟨h1, h2, h3, h4⟩
  have he : mkChild cur (.node nm d lk ch)
      = cur.make_child (.str nm) { is_dir := some d, is_symlink := some lk } := by
    simp [mkChild, FsNode.name, FsNode.isDir, FsNode.isLink]
  have hchild := make_child_simple cur nm
    { is_dir := some d, is_symlink := some lk } hsimp
  refine ⟨?_, ?_, ?_⟩
  · rw [he, hchild]
    simp [PathV.depth]
  · rw [he, hchild]
    simp [PathV.isDirV]
  · rw [he]
    exact pathComps_child cur nm _ hwf

/-! ## forest lookup, well-formedness and counting -/

theorem forestAllB_mem (p : FsNode → Bool) (e : FsNode) :
    ∀ f, forestAllB p f = true → fsMem e f → p e = true := by
  intro f
  induction f using FsForest.spineInd with
  | h0 => intro _ h; cases h
  | h1 x xs ih =>
    intro hall hmem
    simp only [forestAllB, Bool.and_eq_true] at hall
    rcases hmem with h | h
    · rw [h]
      exact hall.1
    · exact ih hall.2 h

theorem fsMem_wfNode (e : FsNode) :
    ∀ f, wfForestB f = true → fsMem e f → wfNodeB e = true := by
  intro f
  induction f using FsForest.spineInd with
  | h0 => intro _ h; cases h
  | h1 x xs ih =>
    intro hall hmem
    rw [wfForestB] at hall
    simp only [Bool.and_eq_true] at hall
    rcases hmem with h | h
    · rw [h]
      exact hall.1.1
    · exact ih hall.2 h

theorem fsFind_mem (e : FsNode) :
    ∀ f, wfForestB f = true → fsMem e f → fsFind f e.name = some e := by
  intro f
  induction f using FsForest.spineInd with
  | h0 => intro _ h; cases h
  | h1 x xs ih =>
    intro hwf hmem
    rw [wfForestB] at hwf
    simp only [Bool.and_eq_true] at hwf
    rcases hmem with h | h
    · rw [h]
      simp [fsFind]
    · have hne : e.name ≠ x.name :=
        of_decide_eq_true (forestAllB_mem _ e xs hwf.1.2 h)
      rw [fsFind, if_neg (fun hx => hne hx.symm)]
      exact ih hwf.2 h

theorem fsFind_wf (nm : Str) :
    ∀ f, wfForestB f = true → ∀ n, fsFind f nm = some n → wfNodeB n = true := by
  intro f
  induction f using FsForest.spineInd with
  | h0 => intro _ n h; cases h
  | h1 x xs ih =>
    intro hwf n h
    rw [wfForestB] at hwf
    simp only [Bool.and_eq_true] at hwf
    rw [fsFind] at h
    split at h
    · cases h
      exact hwf.1.1
    · exact ih hwf.2 n h

theorem fsFind_count (nm : Str) :
    ∀ f n, fsFind f nm = some n → nodeCount n ≤ forestCount f := by
  intro f
  induction f using FsForest.spineInd with
  | h0 => intro n h; cases h
  | h1 x xs ih =>
    intro n h
    rw [fsFind] at h
    rw [forestCount]
    split at h
    · cases h
      omega
    · have := ih n h
      omega

theorem wfNodeB_children (n : FsNode) (h : wfNodeB n = true) :
    wfForestB n.children = true ∧ wfNameB n.name = true := by
  cases n with
  | node nm d lk ch =>
    rw [wfNodeB] at h
    simp only [Bool.and_eq_true] at h
    exact ⟨h.2, h.1⟩

theorem nodeCount_children (n : FsNode) :
    nodeCount n = 1 + forestCount n.children := by
  cases n with
  | node nm d lk ch => rw [nodeCount]; rfl

theorem fsNodeAt_nil (roots : FsForest) : fsNodeAt roots [] = none := rfl

theorem fsNodeAt_one (roots : FsForest) (c : Str) :
    fsNodeAt roots [c] = fsFind roots c := rfl

theorem fsNodeAt_cons2 (roots : FsForest) (c c' : Str) (cs : List Str) :
    fsNodeAt roots (c :: c' :: cs)
      = match fsFind roots c with
        | some n => fsNodeAt n.children (c' :: cs)
        | none => none := rfl

theorem fsChildrenAt_nil (roots : FsForest) :
    fsChildrenAt roots [] = some roots := rfl

theorem fsChildrenAt_cons (roots : FsForest) (c : Str) (cs : List Str) :
    fsChildrenAt roots (c :: cs)
      = match fsNodeAt roots (c :: cs) with
        | some n => some n.children
        | none => none := rfl

theorem fsNodeAt_snoc (nm : Str) :
    ∀ (cs : List Str) (roots : FsForest) (f : FsForest),
      fsChildrenAt roots cs = some f →
      fsNodeAt roots (cs ++ [nm]) = fsFind f nm := by
  intro cs
  induction cs with
  | nil =>
    intro roots f hf
    rw [fsChildrenAt_nil] at hf
    cases hf
    rw [List.nil_append, fsNodeAt_one]
  | cons c cs' ih =>
    intro roots f hf
    cases cs' with
    | nil =>
      rw [fsChildrenAt_cons, fsNodeAt_one] at hf
      rw [List.cons_append, List.nil_append, fsNodeAt_cons2]
      cases hfind : fsFind roots c with
      | none => rw [hfind] at hf; cases hf
      | some n =>
        rw [hfind] at hf
        simp only at hf
        cases hf
        exact fsNodeAt_one n.children nm
    | cons c'' cs'' =>
      rw [fsChildrenAt_cons, fsNodeAt_cons2] at hf
      rw [List.cons_append, List.cons_append, fsNodeAt_cons2]
      cases hfind : fsFind roots c with
      | none => rw [hfind] at hf; cases hf
      | some n =>
        rw [hfind] at hf
        have hf' : fsChildrenAt n.children (c'' :: cs'') = some f := by
          rw [fsChildrenAt_cons]
          exact hf
        exact ih n.children f hf'

theorem fsChildrenAt_snoc (roots : FsForest) (cs : List Str) (f : FsForest)
    (hf : fsChildrenAt roots cs = some f) (nm : Str) :
    fsChildrenAt roots (cs ++ [nm])
      = match fsFind f nm with
        | some n => some n.children
        | none => none := by
  have h := fsNodeAt_snoc nm cs roots f hf
  cases hsh : cs ++ [nm] with
  | nil => exact absurd hsh (by simp)
  | cons x xs =>
    rw [hsh] at h
    rw [fsChildrenAt_cons, h]

theorem fsNodeAt_wf :
    ∀ (cs : List Str) (roots : FsForest), WfForest roots →
      ∀ n, fsNodeAt roots cs = some n → wfNodeB n = true := by
  intro cs
  induction cs with
  | nil => intro roots _ n h; cases h
  | cons c cs' ih =>
    intro roots hwf n h
    cases cs' with
    | nil =>
      rw [fsNodeAt_one] at h
      exact fsFind_wf c roots hwf n h
    | cons c'' cs'' =>
      rw [fsNodeAt_cons2] at h
      cases hfind : fsFind roots c with
      | none => rw [hfind] at h; cases h
      | some m =>
        rw [hfind] at h
        have hm := fsFind_wf c roots hwf m hfind
        exact ih m.children (wfNodeB_children m hm).1 n h

theorem fsChildrenAt_wf (roots : FsForest) (cs : List Str) (f : FsForest)
    (hwf : WfForest roots) (hf : fsChildrenAt roots cs = some f) :
    wfForestB f = true := by
  cases cs with
  | nil =>
    rw [fsChildrenAt_nil] at hf
    cases hf
    exact hwf
  | cons c cs' =>
    rw [fsChildrenAt_cons] at hf
    cases hn : fsNodeAt roots (c :: cs') with
    | none => rw [hn] at hf; cases hf
    | some n =>
      rw [hn] at hf
      simp only at hf
      cases hf
      exact (wfNodeB_children n (fsNodeAt_wf (c :: cs') roots hwf n hn)).1

theorem fsNodeAt_count :
    ∀ (cs : List Str) (roots : FsForest) (n : FsNode),
      fsNodeAt roots cs = some n → nodeCount n ≤ forestCount roots := by
  intro cs
  induction cs with
  | nil => intro roots n h; cases h
  | cons c cs' ih =>
    intro roots n h
    cases cs' with
    | nil =>
      rw [fsNodeAt_one] at h
      exact fsFind_count c roots n h
    | cons c'' cs'' =>
      rw [fsNodeAt_cons2] at h
      cases hfind : fsFind roots c with
      | none => rw [hfind] at h; cases h
      | some m =>
        rw [hfind] at h
        have h1 := ih m.children n h
        have h2 := fsFind_count c roots m hfind
        have h3 := nodeCount_children m
        omega

theorem fsChildrenAt_count (roots : FsForest) (cs : List Str) (f : FsForest)
    (hf : fsChildrenAt roots cs = some f) :
    forestCount f ≤ forestCount roots := by
  cases cs with
  | nil =>
    rw [fsChildrenAt_nil] at hf
    cases hf
    exact Nat.le_refl _
  | cons c cs' =>
    rw [fsChildrenAt_cons] at hf
    cases hn : fsNodeAt roots (c :: cs') with
    | none => rw [hn] at hf; cases hf
    | some n =>
      rw [hn] at hf
      simp only at hf
      cases hf
      have h1 := fsNodeAt_count (c :: cs') roots n hn
      have h2 := nodeCount_children n
      omega

theorem subSize_le (roots : FsForest) (P : PathV) :
    subSize roots P ≤ forestCount roots := by
  rw [subSize]
  cases hf : fsChildrenAt roots (pathComps P.path) with
  | none => exact Nat.zero_le _
  | some f => exact fsChildrenAt_count roots _ f hf

theorem subSize_eq (roots : FsForest) (P : PathV) (f : FsForest)
    (hf : fsChildrenAt roots (pathComps P.path) = some f) :
    subSize roots P = forestCount f := by
  rw [subSize, hf]

/-! ## the walker's loop: one-directory pass, measure, fuel adequacy -/

theorem procEnts_state {φ : Type} (step : φ → PathV → Bool × φ) (cur : PathV)
    (hpure : ∀ (st : φ) (P : PathV), (step st P).2 = st) :
    ∀ (ents : FsForest) (st : φ), (procEnts step cur ents st).2.2 = st := by
  intro ents
  induction ents using FsForest.spineInd with
  | h0 => intro st; rfl
  | h1 e es ih =>
    intro st
    cases e with
    | node nm d lk ch =>
      rw [procEnts]
      simp only [hpure]
      split
      · exact ih st
      · exact ih st

theorem procEnts_mem {φ : Type} (step : φ → PathV → Bool × φ) (cur : PathV) :
    ∀ (ents : FsForest) (st : φ),
      (∀ Q ∈ (procEnts step cur ents st).1,
        ∃ e, fsMem e ents ∧ Q = mkChild cur e) ∧
      (∀ Q ∈ (procEnts step cur ents st).2.1,
        ∃ e, fsMem e ents ∧ Q = mkChild cur e) := by
  intro ents
  induction ents using FsForest.spineInd with
  | h0 =>
    intro st
    exact ⟨fun Q h => absurd h (by simp [procEnts]), fun Q h =>
      absurd h (by simp [procEnts])⟩
  | h1 e es ih =>
    intro st
    cases e with
    | node nm d lk ch =>
      rw [procEnts]
      constructor
      · intro Q hQ
        split at hQ
        · rcases List.mem_cons.mp hQ with h | h
          · exact ⟨.node nm d lk ch, Or.inl rfl, by rw [h]; rfl⟩
          · obtain ⟨e', he', hQe⟩ := (ih _).1 Q h
            exact ⟨e', Or.inr he', hQe⟩
        · obtain ⟨e', he', hQe⟩ := (ih _).1 Q hQ
          exact ⟨e', Or.inr he', hQe⟩
      · intro Q hQ
        split at hQ
        · split at hQ
          · rcases List.mem_cons.mp hQ with h | h
            · exact ⟨.node nm d lk ch, Or.inl rfl, by rw [h]; rfl⟩
            · obtain ⟨e', he', hQe⟩ := (ih _).2 Q h
              exact ⟨e', Or.inr he', hQe⟩
          · obtain ⟨e', he', hQe⟩ := (ih _).2 Q hQ
            exact ⟨e', Or.inr he', hQe⟩
        · obtain ⟨e', he', hQe⟩ := (ih _).2 Q hQ
          exact ⟨e', Or.inr he', hQe⟩

theorem fsMem_wfName (ents : FsForest) (e : FsNode)
    (hw : wfForestB ents = true) (hm : fsMem e ents) :
    wfNameB e.name = true := by
  have := fsMem_wfNode e ents hw hm
  cases e with
  | node nm d lk ch => exact (wfNodeB_children _ this).2

theorem procEnts_depth {φ : Type} (step : φ → PathV → Bool × φ) (cur : PathV)
    (ents : FsForest) (st : φ) (hw : wfForestB ents = true) :
    (∀ Q ∈ (procEnts step cur ents st).1, Q.depth = cur.depth + 1) ∧
    (∀ Q ∈ (procEnts step cur ents st).2.1, Q.depth = cur.depth + 1) := by
  constructor
  · intro Q hQ
    obtain ⟨e, he, hQe⟩ := (procEnts_mem step cur ents st).1 Q hQ
    have hn := fsMem_wfName ents e hw he
    cases e with
    | node nm d lk ch =>
      rw [hQe]
      exact (mkChild_spec cur nm d lk ch hn).1
  · intro Q hQ
    obtain ⟨e, he, hQe⟩ := (procEnts_mem step cur ents st).2 Q hQ
    have hn := fsMem_wfName ents e hw he
    cases e with
    | node nm d lk ch =>
      rw [hQe]
      exact (mkChild_spec cur nm d lk ch hn).1

theorem stackMeasure_append (roots : FsForest) :
    ∀ a b : List PathV,
      stackMeasure roots (a ++ b) = stackMeasure roots a + stackMeasure roots b := by
  intro a b
  induction a with
  | nil => simp [stackMeasure]
  | cons P ps ih =>
    rw [List.cons_append, stackMeasure, stackMeasure, ih]
    omega

theorem stackMeasure_reverse (roots : FsForest) :
    ∀ a : List PathV, stackMeasure roots a.reverse = stackMeasure roots a := by
  intro a
  induction a with
  | nil => rfl
  | cons P ps ih =>
    rw [List.reverse_cons, stackMeasure_append, ih]
    simp only [stackMeasure]
    omega

theorem procEnts_measure {φ : Type} (roots : FsForest)
    (step : φ → PathV → Bool × φ) (cur : PathV) :
    ∀ (ents : FsForest) (st : φ),
      (∀ e, fsMem e ents →
        subSize roots (mkChild cur e) ≤ forestCount e.children) →
      stackMeasure roots (procEnts step cur ents st).2.1 ≤ forestCount ents := by
  intro ents
  induction ents using FsForest.spineInd with
  | h0 => intro st _; exact Nat.le_refl _
  | h1 e es ih =>
    intro st hsub
    cases e with
    | node nm d lk ch =>
      rw [procEnts, forestCount, nodeCount]
      have hih := ih ((step st (mkChild cur (.node nm d lk ch))).2)
        (fun e' he' => hsub e' (Or.inr he'))
      have hme := hsub (.node nm d lk ch) (Or.inl rfl)
      split
      · split
        · rw [stackMeasure]
          simp only [FsNode.children] at hme
          have : stackMeasure roots
              (procEnts step cur es (step st (mkChild cur (.node nm d lk ch))).2).2.1
              ≤ forestCount es := hih
          simp only [mkChild, FsNode.name, FsNode.isDir, FsNode.isLink] at hme this ⊢
          omega
        · have : stackMeasure roots
              (procEnts step cur es (step st (mkChild cur (.node nm d lk ch))).2).2.1
              ≤ forestCount es := hih
          simp only [mkChild, FsNode.name, FsNode.isDir, FsNode.isLink] at this ⊢
          omega
      · have : stackMeasure roots
            (procEnts step cur es (step st (mkChild cur (.node nm d lk ch))).2).2.1
            ≤ forestCount es := hih
        simp only [mkChild, FsNode.name, FsNode.isDir, FsNode.isLink] at this ⊢
        omega

theorem subSize_child (roots : FsForest) (cur : PathV) (ents : FsForest)
    (hwf : WfForest roots)
    (hfc : fsChildrenAt roots (pathComps cur.path) = some ents) :
    ∀ e, fsMem e ents →
      subSize roots (mkChild cur e) = forestCount e.children := by
  intro e he
  have hw := fsChildrenAt_wf roots _ ents hwf hfc
  have hn := fsMem_wfName ents e hw he
  have hfind := fsFind_mem e ents hw he
  cases e with
  | node nm d lk ch =>
    have hpc := (mkChild_spec cur nm d lk ch hn).2.2
    simp only [FsNode.name] at hfind
    rw [subSize, hpc, fsChildrenAt_snoc roots _ ents hfc nm, hfind]

theorem scan_measure (roots : FsForest) {φ : Type}
    (step : φ → PathV → Bool × φ) (cur : PathV) (ents : FsForest)
    (stack : List PathV) (st : φ) (hwf : WfForest roots)
    (hfc : fsChildrenAt roots (pathComps cur.path) = some ents) :
    stackMeasure roots ((procEnts step cur ents st).2.1.reverse ++ stack) + 1
      ≤ stackMeasure roots (cur :: stack) := by
  have h1 := procEnts_measure roots step cur ents st
    (fun e he => Nat.le_of_eq (subSize_child roots cur ents hwf hfc e he))
  have h2 : subSize roots cur = forestCount ents := subSize_eq roots cur ents hfc
  rw [stackMeasure_append, stackMeasure_reverse]
  rw [show stackMeasure roots (cur :: stack)
    = 1 + subSize roots cur + stackMeasure roots stack from rfl]
  omega

theorem scanLoopF_nil (roots : FsForest) {φ : Type}
    (step : φ → PathV → Bool × φ) (md : Option Int) (s : Int) :
    ∀ (fuel : Nat) (st : φ), scanLoopF roots step md s fuel [] st = [] := by
  intro fuel st
  cases fuel with
  | zero => rfl
  | succ f => rfl

theorem scanLoopF_cut (roots : FsForest) {φ : Type}
    (step : φ → PathV → Bool × φ) (md : Option Int) (s : Int) (f : Nat)
    (cur : PathV) (stack : List PathV) (st : φ)
    (h : depthCut md s cur.depth = true) :
    scanLoopF roots step md s (f + 1) (cur :: stack) st
      = scanLoopF roots step md s f stack st := by
  rw [scanLoopF, if_pos h]

theorem scanLoopF_nochild (roots : FsForest) {φ : Type}
    (step : φ → PathV → Bool × φ) (md : Option Int) (s : Int) (f : Nat)
    (cur : PathV) (stack : List PathV) (st : φ)
    (h : depthCut md s cur.depth = false)
    (hfc : fsChildrenAt roots (pathComps cur.path) = none) :
    scanLoopF roots step md s (f + 1) (cur :: stack) st
      = scanLoopF roots step md s f stack st := by
  rw [scanLoopF, if_neg (by simp [h]), hfc]

theorem scanLoopF_scan (roots : FsForest) {φ : Type}
    (step : φ → PathV → Bool × φ) (md : Option Int) (s : Int) (f : Nat)
    (cur : PathV) (stack : List PathV) (st : φ) (ents : FsForest)
    (h : depthCut md s cur.depth = false)
    (hfc : fsChildrenAt roots (pathComps cur.path) = some ents) :
    scanLoopF roots step md s (f + 1) (cur :: stack) st
      = (procEnts step cur ents st).1
        ++ scanLoopF roots step md s f
          ((procEnts step cur ents st).2.1.reverse ++ stack)
          (procEnts step cur ents st).2.2 := by
  rw [scanLoopF, if_neg (by simp [h]), hfc]

theorem scanLoopF_fuel (roots : FsForest) {φ : Type}
    (step : φ → PathV → Bool × φ) (md : Option Int) (s : Int)
    (hwf : WfForest roots) :
    ∀ (f1 f2 : Nat) (stack : List PathV) (st : φ),
      stackMeasure roots stack ≤ f1 → stackMeasure roots stack ≤ f2 →
      scanLoopF roots step md s f1 stack st
        = scanLoopF roots step md s f2 stack st := by
  intro f1
  induction f1 with
  | zero =>
    intro f2 stack st h1 h2
    cases stack with
    | nil => rw [scanLoopF_nil, scanLoopF_nil]
    | cons cur rest =>
      rw [show stackMeasure roots (cur :: rest)
        = 1 + subSize roots cur + stackMeasure roots rest from rfl] at h1
      omega
  | succ f1' ih =>
    intro f2 stack st h1 h2
    cases stack with
    | nil => rw [scanLoopF_nil, scanLoopF_nil]
    | cons cur rest =>
      have hm : stackMeasure roots (cur :: rest)
          = 1 + subSize roots cur + stackMeasure roots rest := rfl
      cases f2 with
      | zero => omega
      | succ f2' =>
        by_cases hcut : depthCut md s cur.depth = true
        · rw [scanLoopF_cut roots step md s f1' cur rest st hcut,
            scanLoopF_cut roots step md s f2' cur rest st hcut]
          exact ih f2' rest st (by omega) (by omega)
        · have hcut' : depthCut md s cur.depth = false := by
            simpa using hcut
          cases hfc : fsChildrenAt roots (pathComps cur.path) with
          | none =>
            rw [scanLoopF_nochild roots step md s f1' cur rest st hcut' hfc,
              scanLoopF_nochild roots step md s f2' cur rest st hcut' hfc]
            exact ih f2' rest st (by omega) (by omega)
          | some ents =>
            rw [scanLoopF_scan roots step md s f1' cur rest st ents hcut' hfc,
              scanLoopF_scan roots step md s f2' cur rest st ents hcut' hfc]
            have hsm := scan_measure roots step cur ents rest st hwf hfc
            congr 1
            exact ih f2' _ _ (by omega) (by omega)

/-- with a pure filter pipeline, a run over a concatenated stack splits into
the runs over the parts (DFS processes the top segment before touching the
rest) -/
theorem scanLoopF_append (roots : FsForest) {φ : Type}
    (step : φ → PathV → Bool × φ) (md : Option Int) (s : Int)
    (hwf : WfForest roots)
    (hpure : ∀ (st : φ) (P : PathV), (step st P).2 = st) :
    ∀ (fuel fA fB : Nat) (A B : List PathV) (st : φ),
      stackMeasure roots (A ++ B) ≤ fuel → stackMeasure roots A ≤ fA →
      stackMeasure roots B ≤ fB →
      scanLoopF roots step md s fuel (A ++ B) st
        = scanLoopF roots step md s fA A st
          ++ scanLoopF roots step md s fB B st := by
  intro fuel
  induction fuel with
  | zero =>
    intro fA fB A B st h1 h2 h3
    rw [stackMeasure_append] at h1
    cases A with
    | cons cur rest =>
      rw [show stackMeasure roots (cur :: rest)
        = 1 + subSize roots cur + stackMeasure roots rest from rfl] at h1
      omega
    | nil =>
      cases B with
      | cons cur rest =>
        rw [show stackMeasure roots (cur :: rest)
          = 1 + subSize roots cur + stackMeasure roots rest from rfl] at h1
        omega
      | nil =>
        rw [List.nil_append, scanLoopF_nil, scanLoopF_nil, scanLoopF_nil,
          List.nil_append]
  | succ fuel' ih =>
    intro fA fB A B st h1 h2 h3
    cases A with
    | nil =>
      rw [List.nil_append, scanLoopF_nil, List.nil_append]
      exact scanLoopF_fuel roots step md s hwf _ _ B st
        (by rw [stackMeasure_append] at h1; simpa [stackMeasure] using h1) h3
    | cons cur rest =>
      have hm : stackMeasure roots (cur :: rest)
          = 1 + subSize roots cur + stackMeasure roots rest := rfl
      have hmAB : stackMeasure roots ((cur :: rest) ++ B)
          = stackMeasure roots (cur :: rest) + stackMeasure roots B :=
        stackMeasure_append roots _ B
      cases fA with
      | zero => omega
      | succ fA' =>
        rw [List.cons_append]
        by_cases hcut : depthCut md s cur.depth = true
        · rw [scanLoopF_cut roots step md s fuel' cur (rest ++ B) st hcut,
            scanLoopF_cut roots step md s fA' cur rest st hcut]
          exact ih fA' fB rest B st
            (by rw [stackMeasure_append] at h1 ⊢; omega) (by omega) h3
        · have hcut' : depthCut md s cur.depth = false := by
            simpa using hcut
          cases hfc : fsChildrenAt roots (pathComps cur.path) with
          | none =>
            rw [scanLoopF_nochild roots step md s fuel' cur (rest ++ B) st
              hcut' hfc, scanLoopF_nochild roots step md s fA' cur rest st
              hcut' hfc]
            exact ih fA' fB rest B st
              (by rw [stackMeasure_append] at h1 ⊢; omega) (by omega) h3
          | some ents =>
            rw [scanLoopF_scan roots step md s fuel' cur (rest ++ B) st ents
              hcut' hfc, scanLoopF_scan roots step md s fA' cur rest st ents
              hcut' hfc]
            have hst := procEnts_state step cur hpure ents st
            have hsmA := scan_measure roots step cur ents rest st hwf hfc
            have hsmAB := scan_measure roots step cur ents (rest ++ B) st hwf hfc
            rw [List.append_assoc, hst]
            have := ih fA' fB ((procEnts step cur ents st).2.1.reverse ++ rest)
              B st ?hAB ?hA ?hB
            case hAB =>
              rw [stackMeasure_append, stackMeasure_append]
              rw [stackMeasure_append, stackMeasure_append] at hsmAB
              have hx : stackMeasure roots (cur :: (rest ++ B))
                  = 1 + subSize roots cur + stackMeasure roots (rest ++ B) := rfl
              rw [stackMeasure_append] at hx
              omega
            case hA => omega
            case hB => exact h3
            rw [List.append_assoc] at this
            rw [this]

/-- every yield of the unlimited walk over a stack of entries strictly deeper
than `k` lies strictly deeper than `k + 1` -/
theorem scanLoopF_deep (roots : FsForest) {φ : Type}
    (step : φ → PathV → Bool × φ) (s k : Int) (hwf : WfForest roots) :
    ∀ (fuel : Nat) (stack : List PathV) (st : φ),
      (∀ P ∈ stack, k < P.depth - s) →
      ∀ Q ∈ scanLoopF roots step none s fuel stack st, k + 1 < Q.depth - s := by
  intro fuel
  induction fuel with
  | zero =>
    intro stack st _ Q hQ
    cases stack with
    | nil => rw [scanLoopF_nil] at hQ; cases hQ
    | cons cur rest => cases hQ
  | succ fuel' ih =>
    intro stack st hdeep Q hQ
    cases stack with
    | nil => rw [scanLoopF_nil] at hQ; cases hQ
    | cons cur rest =>
      have hcut : depthCut none s cur.depth = false := rfl
      cases hfc : fsChildrenAt roots (pathComps cur.path) with
      | none =>
        rw [scanLoopF_nochild roots step none s fuel' cur rest st hcut hfc]
          at hQ
        exact ih rest st (fun P hP => hdeep P (List.mem_cons_of_mem _ hP)) Q hQ
      | some ents =>
        rw [scanLoopF_scan roots step none s fuel' cur rest st ents hcut hfc]
          at hQ
        have hw := fsChildrenAt_wf roots _ ents hwf hfc
        have hcur := hdeep cur (List.mem_cons_self _ _)
        rcases List.mem_append.mp hQ with h | h
        · have := (procEnts_depth step cur ents st hw).1 Q h
          omega
        · refine ih _ _ ?_ Q h
          intro P hP
          rcases List.mem_append.mp hP with h' | h'
          · have := (procEnts_depth step cur ents st hw).2 P
              (List.mem_reverse.mp h')
            omega
          · exact hdeep P (List.mem_cons_of_mem _ h')

/-- with a positive depth limit, the walk dies on a stack of entries strictly
deeper than the limit: every pop is cut -/
theorem scanLoopF_cut_deep (roots : FsForest) {φ : Type}
    (step : φ → PathV → Bool × φ) (s k : Int) (hk : k ≠ 0) :
    ∀ (fuel : Nat) (stack : List PathV) (st : φ),
      (∀ P ∈ stack, k < P.depth - s) →
      scanLoopF roots step (some k) s fuel stack st = [] := by
  intro fuel
  induction fuel with
  | zero =>
    intro stack st _
    cases stack with
    | nil => rw [scanLoopF_nil]
    | cons cur rest => rfl
  | succ fuel' ih =>
    intro stack st hdeep
    cases stack with
    | nil => rw [scanLoopF_nil]
    | cons cur rest =>
      have hcur := hdeep cur (List.mem_cons_self _ _)
      have hcut : depthCut (some k) s cur.depth = true := by
        simp only [depthCut, decide_eq_true_eq]
        exact ⟨hk, by omega⟩
      rw [scanLoopF_cut roots step (some k) s fuel' cur rest st hcut]
      exact ih rest st (fun P hP => hdeep P (List.mem_cons_of_mem _ hP))

/-- `max_depth = 0` is falsy: the guard never fires, so the walk is the
unlimited walk -/
theorem scanLoopF_zero (roots : FsForest) {φ : Type}
    (step : φ → PathV → Bool × φ) (s : Int) :
    ∀ (fuel : Nat) (stack : List PathV) (st : φ),
      scanLoopF roots step (some 0) s fuel stack st
        = scanLoopF roots step none s fuel stack st := by
  intro fuel
  induction fuel with
  | zero => intro stack st; rfl
  | succ fuel' ih =>
    intro stack st
    cases stack with
    | nil => rw [scanLoopF_nil, scanLoopF_nil]
    | cons cur rest =>
      have hz : depthCut (some 0) s cur.depth = false := by
        simp [depthCut]
      have hn : depthCut none s cur.depth = false := rfl
      cases hfc : fsChildrenAt roots (pathComps cur.path) with
      | none =>
        rw [scanLoopF_nochild roots step (some 0) s fuel' cur rest st hz hfc,
          scanLoopF_nochild roots step none s fuel' cur rest st hn hfc]
        exact ih rest st
      | some ents =>
        rw [scanLoopF_scan roots step (some 0) s fuel' cur rest st ents hz hfc,
          scanLoopF_scan roots step none s fuel' cur rest st ents hn hfc,
          ih]

/-- with a pure filter pipeline and `max_depth = k ≥ 1`, the limited walk
yields exactly the unlimited walk's entries of relative depth at most `k + 1`:
an entry one past the limit is still yielded, only its children are skipped -/
theorem scanLoopF_filter (roots : FsForest) {φ : Type}
    (step : φ → PathV → Bool × φ) (s k : Int) (hwf : WfForest roots)
    (hpure : ∀ (st : φ) (P : PathV), (step st P).2 = st) (hk : 1 ≤ k) :
    ∀ (n fuel : Nat) (stack : List PathV) (st : φ),
      stackMeasure roots stack ≤ n → stackMeasure roots stack ≤ fuel →
      scanLoopF roots step (some k) s fuel stack st
        = (scanLoopF roots step none s fuel stack st).filter
            (fun P => P.depth - s ≤ k + 1) := by
  intro n
  induction n with
  | zero =>
    intro fuel stack st h1 h2
    cases stack with
    | nil =>
      rw [scanLoopF_nil, scanLoopF_nil]
      rfl
    | cons cur rest =>
      rw [show stackMeasure roots (cur :: rest)
        = 1 + subSize roots cur + stackMeasure roots rest from rfl] at h1
      omega
  | succ n' ih =>
    intro fuel stack st h1 h2
    cases stack with
    | nil =>
      rw [scanLoopF_nil, scanLoopF_nil]
      rfl
    | cons cur rest =>
      have hm : stackMeasure roots (cur :: rest)
          = 1 + subSize roots cur + stackMeasure roots rest := rfl
      cases fuel with
      | zero => omega
      | succ fuel' =>
        have hnone : depthCut none s cur.depth = false := rfl
        by_cases hdeep : k < cur.depth - s
        · have hcut : depthCut (some k) s cur.depth = true := by
            simp only [depthCut, decide_eq_true_eq]
            exact ⟨by omega, by omega⟩
          rw [scanLoopF_cut roots step (some k) s fuel' cur rest st hcut]
          cases hfc : fsChildrenAt roots (pathComps cur.path) with
          | none =>
            rw [scanLoopF_nochild roots step none s fuel' cur rest st hnone hfc]
            exact ih fuel' rest st (by omega) (by omega)
          | some ents =>
            rw [scanLoopF_scan roots step none s fuel' cur rest st ents hnone
              hfc, List.filter_append]
            have hw := fsChildrenAt_wf roots _ ents hwf hfc
            have hst := procEnts_state step cur hpure ents st
            have hpr : ((procEnts step cur ents st).1).filter
                (fun P => P.depth - s ≤ k + 1) = [] := by
              rw [List.filter_eq_nil_iff]
              intro Q hQ
              have := (procEnts_depth step cur ents st hw).1 Q hQ
              simp only [decide_eq_true_eq]
              omega
            rw [hpr, List.nil_append, hst]
            have hsm := scan_measure roots step cur ents rest st hwf hfc
            have hdec := scanLoopF_append roots step none s hwf hpure fuel'
              (stackMeasure roots ((procEnts step cur ents st).2.1.reverse))
              (stackMeasure roots rest)
              ((procEnts step cur ents st).2.1.reverse) rest st
              (by omega) (Nat.le_refl _) (Nat.le_refl _)
            rw [hdec, List.filter_append]
            have hdeepseg : ∀ P ∈ (procEnts step cur ents st).2.1.reverse,
                k < P.depth - s := by
              intro P hP
              have := (procEnts_depth step cur ents st hw).2 P
                (List.mem_reverse.mp hP)
              omega
            have hfdeep : (scanLoopF roots step none s
                (stackMeasure roots ((procEnts step cur ents st).2.1.reverse))
                ((procEnts step cur ents st).2.1.reverse) st).filter
                (fun P => P.depth - s ≤ k + 1) = [] := by
              rw [List.filter_eq_nil_iff]
              intro Q hQ
              have := scanLoopF_deep roots step s k hwf _ _ st hdeepseg Q hQ
              simp only [decide_eq_true_eq]
              omega
            rw [hfdeep, List.nil_append]
            have hfi1 := scanLoopF_fuel roots step (some k) s hwf fuel'
              (stackMeasure roots rest) rest st (by omega) (Nat.le_refl _)
            have hihr := ih (stackMeasure roots rest) rest st (by omega)
              (Nat.le_refl _)
            rw [hfi1, hihr]
        · have hcut : depthCut (some k) s cur.depth = false := by
            simp only [depthCut, decide_eq_false_iff_not]
            rintro ⟨-, h⟩
            omega
          cases hfc : fsChildrenAt roots (pathComps cur.path) with
          | none =>
            rw [scanLoopF_nochild roots step (some k) s fuel' cur rest st hcut
              hfc, scanLoopF_nochild roots step none s fuel' cur rest st hnone
              hfc]
            exact ih fuel' rest st (by omega) (by omega)
          | some ents =>
            rw [scanLoopF_scan roots step (some k) s fuel' cur rest st ents
              hcut hfc, scanLoopF_scan roots step none s fuel' cur rest st ents
              hnone hfc, List.filter_append]
            have hw := fsChildrenAt_wf roots _ ents hwf hfc
            have hpr : ((procEnts step cur ents st).1).filter
                (fun P => P.depth - s ≤ k + 1)
                = (procEnts step cur ents st).1 := by
              rw [List.filter_eq_self]
              intro Q hQ
              have := (procEnts_depth step cur ents st hw).1 Q hQ
              simp only [decide_eq_true_eq]
              omega
            rw [hpr]
            congr 1
            have hsm := scan_measure roots step cur ents rest st hwf hfc
            exact ih fuel' _ _ (by omega) (by omega)

theorem recursive_scandir_media_unfold (roots : FsForest) {φ : Type}
    (step : φ → PathV → Bool × φ) (st : φ) (md : Option Int) (p : Str) :
    recursive_scandir_media roots p step st md
      = if ¬ (scanStart roots p).isDirV then
          (if ¬ fsExistsAt roots (normpath p) then none
           else some [scanStart roots p])
        else
          some ((if pyNe (scanStart roots p) (.str [46])
              then [scanStart roots p] else []) ++
            scanLoopF roots step md (scanStart roots p).depth (scanFuel roots)
              [scanStart roots p] st) := rfl

theorem scanStartDepth_eq (roots : FsForest) (p : Str) :
    scanStartDepth roots p = (scanStart roots p).depth := rfl

/-- C10 (confirmed): in `recursive_scandir`, `max_depth = 0` is falsy and
disables the depth limit entirely — the walk equals the walk with `max_depth`
unset — while for `max_depth = k ≥ 1` (with a pure filter pipeline over a
well-formed symlink-free tree) the walk yields exactly the unlimited walk's
entries of relative depth at most `k + 1`: entries at relative depth `k + 1`
are still yielded, and only their children are skipped, because the cut is
tested at pop time against the popped entry's own depth -/
theorem c10_max_depth_semantics {φ : Type} (roots : FsForest) (p : Str)
    (step : φ → PathV → Bool × φ) (st : φ) (k : Int) (hwf : WfForest roots)
    (hpure : ∀ (u : φ) (P : PathV), (step u P).2 = u) (hk : 1 ≤ k) :
    recursive_scandir_media roots p step st (some 0)
      = recursive_scandir_media roots p step st none ∧
    recursive_scandir_media roots p step st (some k)
      = (recursive_scandir_media roots p step st none).map
        (List.filter (fun P => P.depth - scanStartDepth roots p ≤ k + 1)) := by
  constructor
  · rw [recursive_scandir_media_unfold, recursive_scandir_media_unfold]
    split_ifs with h1 h2
    · rw [scanLoopF_zero]
    · rw [scanLoopF_zero]
    · rfl
    · rfl
  · rw [recursive_scandir_media_unfold, recursive_scandir_media_unfold,
      scanStartDepth_eq]
    have hb : stackMeasure roots [scanStart roots p] ≤ scanFuel roots := by
      rw [show stackMeasure roots [scanStart roots p]
        = 1 + subSize roots (scanStart roots p) + 0 from rfl, scanFuel]
      have := subSize_le roots (scanStart roots p)
      omega
    have hmain := scanLoopF_filter roots step (scanStart roots p).depth k hwf
      hpure hk (stackMeasure roots [scanStart roots p]) (scanFuel roots)
      [scanStart roots p] st (Nat.le_refl _) hb
    have hpre : [scanStart roots p].filter
        (fun P => P.depth - (scanStart roots p).depth ≤ k + 1)
        = [scanStart roots p] := by
      rw [List.filter_eq_self]
      intro P hP
      rw [List.mem_singleton.mp hP]
      simp only [decide_eq_true_eq]
      omega
    split_ifs with h1 h2
    · simp only [Option.map_some']
      refine congrArg some ?_
      rw [List.filter_append, hmain, hpre]
    · simp only [Option.map_some']
      refine congrArg some ?_
      rw [List.filter_append, hmain, List.filter_nil]
    · simp only [Option.map_some']
      refine congrArg some ?_
      exact hpre.symm
    · rfl

/-- C10 witness: on the chain `a/b/c` scanned from its root with the
always-accepting pure filter, `max_depth = 0` walks the full tree and
`max_depth = 1` keeps exactly the entries of relative depth at most 2 -/
theorem c10_witness :
    recursive_scandir_media fsChain [46] pureStepU () (some 0)
      = recursive_scandir_media fsChain [46] pureStepU () none ∧
    recursive_scandir_media fsChain [46] pureStepU () (some 1)
      = (recursive_scandir_media fsChain [46] pureStepU () none).map
        (List.filter (fun P => P.depth - scanStartDepth fsChain [46] ≤ 1 + 1)) :=
  c10_max_depth_semantics fsChain [46] pureStepU () 1 (by decide)
    (fun u P => rfl) (by decide)

/-! ## the byte round-trip of the surrogateescape codec -/

theorem encodeChar_ascii (b : Nat) (h : b < 128) : encodeChar b = some [b] := by
  rw [encodeChar, if_pos h]

theorem encodeChar_escape (b : Nat) (h1 : 128 ≤ b) (h2 : b < 256) :
    encodeChar (56320 + b) = some [b] := by
  rw [encodeChar, if_neg (by omega), if_neg (by omega),
    if_pos (show 55296 ≤ 56320 + b ∧ 56320 + b ≤ 57343 by omega),
    if_pos (show 56448 ≤ 56320 + b ∧ 56320 + b ≤ 56575 by omega)]
  simp only [Option.some.injEq, List.cons.injEq, and_true]
  omega

theorem encodeChar_two (b c1 : Nat) (h : isV2 b c1 = true) :
    encodeChar (cp2 b c1) = some [b, c1] := by
  simp only [isV2, contB, decide_eq_true_eq] at h
  obtain ⟨h1, h2, h3, h4⟩ := h
  simp only [cp2]
  rw [encodeChar, if_neg (by omega), if_pos (by omega)]
  simp only [Option.some.injEq, List.cons.injEq, and_true]
  constructor
  · omega
  · omega

theorem encodeChar_three (b c1 c2 : Nat) (h : isV3 b c1 c2 = true) :
    encodeChar (cp3 b c1 c2) = some [b, c1, c2] := by
  simp only [isV3, contB, decide_eq_true_eq] at h
  obtain ⟨h1, h2, ⟨h3, h4⟩, ⟨h5, h6⟩, h7, h8⟩ := h
  have h7' : b ≠ 224 ∨ 160 ≤ c1 := by
    by_cases hb : b = 224
    · exact Or.inr (h7 hb)
    · exact Or.inl hb
  have h8' : b ≠ 237 ∨ c1 ≤ 159 := by
    by_cases hb : b = 237
    · exact Or.inr (h8 hb)
    · exact Or.inl hb
  simp only [cp3]
  rw [encodeChar, if_neg (by omega), if_neg (by omega), if_neg (by omega),
    if_pos (by omega)]
  simp only [Option.some.injEq, List.cons.injEq, and_true]
  refine ⟨by omega, by omega, by omega⟩

theorem encodeChar_four (b c1 c2 c3 : Nat) (h : isV4 b c1 c2 c3 = true) :
    encodeChar (cp4 b c1 c2 c3) = some [b, c1, c2, c3] := by
  simp only [isV4, contB, decide_eq_true_eq] at h
  obtain ⟨h1, h2, ⟨h3, h4⟩, ⟨h5, h6⟩, ⟨h7, h8⟩, h9, h10⟩ := h
  have h9' : b ≠ 240 ∨ 144 ≤ c1 := by
    by_cases hb : b = 240
    · exact Or.inr (h9 hb)
    · exact Or.inl hb
  have h10' : b ≠ 244 ∨ c1 ≤ 143 := by
    by_cases hb : b = 244
    · exact Or.inr (h10 hb)
    · exact Or.inl hb
  simp only [cp4]
  rw [encodeChar, if_neg (by omega), if_neg (by omega), if_neg (by omega),
    if_neg (by omega), if_pos (by omega)]
  simp only [Option.some.injEq, List.cons.injEq, and_true]
  refine ⟨by omega, by omega, by omega, by omega⟩

theorem fsencode_cons (c : Nat) (cs : List Nat) (bs B : List Nat)
    (h1 : encodeChar c = some bs) (h2 : fsencode cs = some B) :
    fsencode (c :: cs) = some (bs ++ B) := by
  simp [fsencode, h1, h2]

/-- re-encoding the surrogateescape decoding restores every input byte -/
theorem fsdecodeF_roundtrip :
    ∀ (fuel : Nat) (B : List Nat), B.length ≤ fuel → (∀ b ∈ B, b < 256) →
      fsencode (fsdecodeF fuel B) = some B := by
  intro fuel
  induction fuel with
  | zero =>
    intro B hlen _
    cases B with
    | nil => rfl
    | cons b rest => simp at hlen
  | succ f ih =>
    intro B hlen hlt
    cases B with
    | nil => rfl
    | cons b rest =>
      have hb : b < 256 := hlt b (List.mem_cons_self _ _)
      have hlen' : rest.length ≤ f := by
        simp only [List.length_cons] at hlen
        omega
      have hlt' : ∀ x ∈ rest, x < 256 :=
        fun x hx => hlt x (List.mem_cons_of_mem _ hx)
      by_cases h1 : b < 128
      · have hd : fsdecodeF (f + 1) (b :: rest) = b :: fsdecodeF f rest := by
          simp only [fsdecodeF, if_pos h1]
        rw [hd, fsencode_cons b _ [b] rest (encodeChar_ascii b h1)
          (ih rest hlen' hlt')]
        rfl
      · cases rest with
        | nil =>
          have hd : fsdecodeF (f + 1) [b] = [56320 + b] := by
            simp only [fsdecodeF]
            rw [if_neg h1]
          rw [hd, fsencode_cons (56320 + b) [] [b] []
            (encodeChar_escape b (by omega) hb) rfl]
          rfl
        | cons c1 r2 =>
          by_cases hv2 : isV2 b c1 = true
          · have hd : fsdecodeF (f + 1) (b :: c1 :: r2)
                = cp2 b c1 :: fsdecodeF f r2 := by
              simp only [fsdecodeF]
              rw [if_neg h1, if_pos hv2]
            have hr : r2.length ≤ f := by
              simp only [List.length_cons] at hlen
              omega
            rw [hd, fsencode_cons _ _ [b, c1] r2 (encodeChar_two b c1 hv2)
              (ih r2 hr (fun x hx => hlt' x (List.mem_cons_of_mem _ hx)))]
            rfl
          · have hesc := encodeChar_escape b (by omega) hb
            have hrec := ih (c1 :: r2) hlen' hlt'
            cases r2 with
            | nil =>
              have hd : fsdecodeF (f + 1) (b :: [c1])
                  = (56320 + b) :: fsdecodeF f [c1] := by
                simp only [fsdecodeF]
                rw [if_neg h1, if_neg hv2]
              rw [hd, fsencode_cons _ _ [b] [c1] hesc hrec]
              rfl
            | cons c2 r3 =>
              by_cases hv3 : isV3 b c1 c2 = true
              · have hd : fsdecodeF (f + 1) (b :: c1 :: c2 :: r3)
                    = cp3 b c1 c2 :: fsdecodeF f r3 := by
                  simp only [fsdecodeF]
                  rw [if_neg h1, if_neg hv2, if_pos hv3]
                have hr : r3.length ≤ f := by
                  simp only [List.length_cons] at hlen
                  omega
                rw [hd, fsencode_cons _ _ [b, c1, c2] r3
                  (encodeChar_three b c1 c2 hv3)
                  (ih r3 hr (fun x hx => hlt x (by simp [hx])))]
                rfl
              · cases r3 with
                | nil =>
                  have hd : fsdecodeF (f + 1) (b :: [c1, c2])
                      = (56320 + b) :: fsdecodeF f [c1, c2] := by
                    simp only [fsdecodeF]
                    rw [if_neg h1, if_neg hv2, if_neg hv3]
                  rw [hd, fsencode_cons _ _ [b] [c1, c2] hesc hrec]
                  rfl
                | cons c3 r4 =>
                  by_cases hv4 : isV4 b c1 c2 c3 = true
                  · have hd : fsdecodeF (f + 1) (b :: c1 :: c2 :: c3 :: r4)
                        = cp4 b c1 c2 c3 :: fsdecodeF f r4 := by
                      simp only [fsdecodeF]
                      rw [if_neg h1, if_neg hv2, if_neg hv3, if_pos hv4]
                    have hr : r4.length ≤ f := by
                      simp only [List.length_cons] at hlen
                      omega
                    rw [hd, fsencode_cons _ _ [b, c1, c2, c3] r4
                      (encodeChar_four b c1 c2 c3 hv4)
                      (ih r4 hr (fun x hx => hlt x (by simp [hx])))]
                    rfl
                  · have hd : fsdecodeF (f + 1) (b :: c1 :: c2 :: c3 :: r4)
                        = (56320 + b) :: fsdecodeF f (c1 :: c2 :: c3 :: r4) := by
                      simp only [fsdecodeF]
                      rw [if_neg h1, if_neg hv2, if_neg hv3, if_neg hv4]
                    rw [hd, fsencode_cons _ _ [b] (c1 :: c2 :: c3 :: r4) hesc
                      hrec]
                    rfl

/-- the byte-level round trip at the `os.fsdecode` entry point -/
theorem fsencode_fsdecode (B : Bytes) (h : ∀ b ∈ B, b < 256) :
    fsencode (fsdecode B) = some B :=
  fsdecodeF_roundtrip B.length B (Nat.le_refl _) h

/-- a lone byte `≥ 0x80` decodes to exactly one low surrogate -/
theorem fsdecode_single (b : Nat) (h : 128 ≤ b) :
    fsdecode [b] = [56320 + b] := by
  have h1 : fsdecodeF 1 [b] = [56320 + b] := by
    simp only [fsdecodeF]
    rw [if_neg (by omega)]
  simpa [fsdecode] using h1

/-! ## shape of relative `normpath` output and the split/recombine identity -/

theorem splitOnP_no_sep :
    ∀ (p : Str), ∀ c ∈ p.splitOnP (fun x => x == 47), ¬ 47 ∈ c := by
  intro p
  induction p with
  | nil =>
    intro c hc
    rw [List.splitOnP_nil] at hc
    rw [List.mem_singleton.mp hc]
    simp
  | cons hd tl ih =>
    intro c hc
    rw [List.splitOnP_cons] at hc
    by_cases h : hd = 47
    · rw [if_pos (by simp [h])] at hc
      rcases List.mem_cons.mp hc with h' | h'
      · rw [h']
        simp
      · exact ih c h'
    · rw [if_neg (by simp [h])] at hc
      cases he : tl.splitOnP (fun x => x == 47) with
      | nil => exact absurd he (List.splitOnP_ne_nil _ _)
      | cons x xs =>
        rw [he, List.modifyHead_cons] at hc
        rcases List.mem_cons.mp hc with h' | h'
        · rw [h']
          intro hmem
          rcases List.mem_cons.mp hmem with h47 | h47
          · exact h h47.symm
          · exact ih x (by rw [he]; exact List.mem_cons_self _ _) h47
        · exact ih c (by rw [he]; exact List.mem_cons_of_mem _ h')

theorem splitOn_no_sep (p : Str) : ∀ c ∈ p.splitOn 47, ¬ 47 ∈ c := by
  intro c hc
  rw [List.splitOn] at hc
  exact splitOnP_no_sep p c hc

theorem normStep_members (ns : Nat) :
    ∀ (l acc : List Str),
      (∀ c ∈ acc, c ≠ [] ∧ ¬ 47 ∈ c) → (∀ c ∈ l, ¬ 47 ∈ c) →
      ∀ c ∈ l.foldl (normStep ns) acc, c ≠ [] ∧ ¬ 47 ∈ c := by
  intro l
  induction l with
  | nil =>
    intro acc hacc _ c hc
    exact hacc c hc
  | cons comp rest ih =>
    intro acc hacc hl c hc
    rw [List.foldl_cons] at hc
    refine ih (normStep ns acc comp) ?_
      (fun x hx => hl x (List.mem_cons_of_mem _ hx)) c hc
    intro x hx
    rw [normStep] at hx
    split_ifs at hx with h1 h2 h3
    · exact hacc x hx
    · rcases List.mem_append.mp hx with h' | h'
      · exact hacc x h'
      · rw [List.mem_singleton.mp h']
        refine ⟨?_, hl comp (List.mem_cons_self _ _)⟩
        intro he
        exact h1 (Or.inl he)
    · exact hacc x (List.dropLast_subset _ hx)
    · exact hacc x hx

theorem initSlashes_rel (p : Str) (h : isAbs p = false) : initSlashes p = 0 := by
  have h1 : ¬ (([47] : Str).isPrefixOf p = true) := by
    simp only [isAbs] at h
    simp [h]
  rw [initSlashes, if_neg ?c1, if_neg h1]
  case c1 =>
    rintro ⟨hpre, -⟩
    refine h1 ?_
    rw [List.isPrefixOf_iff_prefix] at hpre ⊢
    exact List.IsPrefix.trans ⟨[47], rfl⟩ hpre

theorem intercalate_single (c : Str) : List.intercalate [47] [c] = c := by
  simp [List.intercalate]

theorem intercalate_cons_ne (c : Str) (cs : List Str) (h : cs ≠ []) :
    List.intercalate [47] (c :: cs) = c ++ 47 :: List.intercalate [47] cs := by
  cases cs with
  | nil => cases h rfl
  | cons d rest =>
    rw [List.intercalate, List.intercalate, List.intersperse_cons_cons,
      List.flatten_cons, List.flatten_cons]
    simp

theorem intercalate_concat :
    ∀ (init : List Str) (nm : Str), init ≠ [] →
      List.intercalate [47] (init ++ [nm])
        = List.intercalate [47] init ++ 47 :: nm := by
  intro init
  induction init with
  | nil =>
    intro nm h
    cases h rfl
  | cons c rest ih =>
    intro nm _
    cases rest with
    | nil =>
      rw [show (([c] : List Str) ++ [nm]) = c :: [nm] from rfl,
        intercalate_cons_ne c [nm] (by simp), intercalate_single,
        intercalate_single]
    | cons d rest' =>
      rw [List.cons_append, intercalate_cons_ne c ((d :: rest') ++ [nm])
        (by simp), ih nm (by simp), intercalate_cons_ne c (d :: rest')
        (by simp)]
      simp

theorem intercalate_facts :
    ∀ (cs : List Str), cs ≠ [] → (∀ c ∈ cs, c ≠ [] ∧ ¬ 47 ∈ c) →
      List.intercalate [47] cs ≠ [] ∧
      (∀ x, (List.intercalate [47] cs).getLast? = some x → x ≠ 47) ∧
      (List.intercalate [47] cs).any (fun x => x ≠ 47) = true := by
  intro cs
  induction cs with
  | nil =>
    intro h
    cases h rfl
  | cons c rest ih =>
    intro _ hm
    have hc := hm c (List.mem_cons_self _ _)
    have hany : c.any (fun x => x ≠ 47) = true := by
      obtain ⟨y, hy⟩ := List.exists_mem_of_ne_nil c hc.1
      refine List.any_eq_true.mpr ⟨y, hy, ?_⟩
      simp only [decide_eq_true_eq]
      intro he
      exact hc.2 (he ▸ hy)
    cases rest with
    | nil =>
      rw [intercalate_single]
      refine ⟨hc.1, ?_, hany⟩
      intro x hx h47
      exact hc.2 (h47 ▸ List.mem_of_getLast?_eq_some hx)
    | cons d rest' =>
      obtain ⟨ih1, ih2, ih3⟩ := ih (by simp)
        (fun x hx => hm x (List.mem_cons_of_mem _ hx))
      rw [intercalate_cons_ne c (d :: rest') (by simp)]
      refine ⟨by simp, ?_, ?_⟩
      · intro x hx
        rw [List.getLast?_append_of_ne_nil c (by simp),
          ← List.singleton_append,
          List.getLast?_append_of_ne_nil [47] ih1] at hx
        exact ih2 x hx
      · rw [List.any_append, hany]
        rfl

theorem rstripSep_no_trailing (A : Str)
    (h : ∀ x, A.getLast? = some x → x ≠ 47) :
    rstripSep (A ++ [47]) = A := by
  rw [rstripSep, List.reverse_append, List.reverse_singleton,
    List.singleton_append, List.dropWhile_cons, if_pos (by simp)]
  cases hA : A.reverse with
  | nil =>
    have : A = [] := by simpa using congrArg List.reverse hA
    simp [this]
  | cons y ys =>
    have hy : y ≠ 47 := by
      refine h y ?_
      rw [List.getLast?_eq_head?_reverse, hA]
      rfl
    rw [List.dropWhile_cons, if_neg (by simpa using hy), ← hA,
      List.reverse_reverse]

/-- splitting a clean joined form and recombining it is the identity -/
theorem osSplit_recombine (cs : List Str) (hne : cs ≠ [])
    (h : ∀ c ∈ cs, c ≠ [] ∧ ¬ 47 ∈ c) :
    (if (osSplit (List.intercalate [47] cs)).1 ≠ []
      then (osSplit (List.intercalate [47] cs)).1 ++ [47] else [])
      ++ (osSplit (List.intercalate [47] cs)).2
      = List.intercalate [47] cs := by
  rcases List.eq_nil_or_concat cs with rfl | ⟨init, nm, rfl⟩
  · cases hne rfl
  · simp only [List.concat_eq_append] at h ⊢
    have hnm := h nm (by simp)
    have hnmrev : ∀ x ∈ nm.reverse, (decide (x ≠ 47)) = true := by
      intro x hx
      simp only [decide_eq_true_eq]
      intro he
      exact hnm.2 (he ▸ List.mem_reverse.mp hx)
    cases init with
    | nil =>
      rw [List.nil_append, intercalate_single]
      have htail : (osSplit nm).2 = nm := by
        have h2 : (osSplit nm).2
            = ((nm.reverse.takeWhile (fun x => x ≠ 47)).reverse : Str) := by
          simp only [osSplit]
          split_ifs <;> rfl
        rw [h2, takeWhile_all _ _ hnmrev, List.reverse_reverse]
      have hhead : (osSplit nm).1 = [] := by
        have h2 : (osSplit nm).1 = [] ∨ (osSplit nm).1
            = rstripSep (nm.take (nm.length
              - ((nm.reverse.takeWhile (fun x => x ≠ 47)).reverse).length)) := by
          simp only [osSplit]
          split_ifs
          · exact Or.inr rfl
          · refine Or.inl ?_
            show nm.take (nm.length
              - ((nm.reverse.takeWhile (fun x => x ≠ 47)).reverse).length) = []
            rw [takeWhile_all _ _ hnmrev]
            simp
        rcases h2 with h2 | h2
        · exact h2
        · rw [h2, takeWhile_all _ _ hnmrev]
          simp [rstripSep]
      rw [hhead, htail]
      simp
    | cons i0 irest =>
      obtain ⟨hA1, hA2, hA3⟩ := intercalate_facts (i0 :: irest) (by simp)
        (fun x hx => h x (List.mem_append_left _ hx))
      rw [intercalate_concat (i0 :: irest) nm (by simp)]
      have hrev : (List.intercalate [47] (i0 :: irest) ++ 47 :: nm).reverse
          = nm.reverse ++ 47 :: (List.intercalate [47] (i0 :: irest)).reverse := by
        rw [List.reverse_append, List.reverse_cons, List.append_assoc,
          List.singleton_append]
      have htake : (List.intercalate [47] (i0 :: irest) ++ 47 :: nm).reverse.takeWhile
          (fun x => x ≠ 47) = nm.reverse := by
        rw [hrev, takeWhile_append_all _ _ _ hnmrev, List.takeWhile_cons]
        simp
      have htail : (osSplit (List.intercalate [47] (i0 :: irest) ++ 47 :: nm)).2
          = nm := by
        have h2 : (osSplit (List.intercalate [47] (i0 :: irest) ++ 47 :: nm)).2
            = (((List.intercalate [47] (i0 :: irest) ++ 47 :: nm).reverse.takeWhile
              (fun x => x ≠ 47)).reverse : Str) := by
          simp only [osSplit]
          split_ifs <;> rfl
        rw [h2, htake, List.reverse_reverse]
      have hlen : (List.intercalate [47] (i0 :: irest) ++ 47 :: nm).length
          - nm.length = (List.intercalate [47] (i0 :: irest)).length + 1 := by
        simp only [List.length_append, List.length_cons]
        omega
      have htakel : (List.intercalate [47] (i0 :: irest) ++ 47 :: nm).take
          ((List.intercalate [47] (i0 :: irest) ++ 47 :: nm).length
            - ((( List.intercalate [47] (i0 :: irest) ++ 47 :: nm).reverse.takeWhile
              (fun x => x ≠ 47)).reverse).length)
          = List.intercalate [47] (i0 :: irest) ++ [47] := by
        rw [htake, List.length_reverse]
        rw [show (List.intercalate [47] (i0 :: irest) ++ 47 :: nm).length
          - nm.reverse.length = (List.intercalate [47] (i0 :: irest)).length + 1
          from by simp only [List.length_reverse]; exact hlen]
        rw [List.take_append 1]
        rfl
      have hcond : (List.intercalate [47] (i0 :: irest) ++ [47]) ≠ [] ∧
          (List.intercalate [47] (i0 :: irest) ++ [47]).any
            (fun x => x ≠ 47) = true := by
        refine ⟨by simp, ?_⟩
        rw [List.any_append, hA3]
        rfl
      have hhead : (osSplit (List.intercalate [47] (i0 :: irest) ++ 47 :: nm)).1
          = List.intercalate [47] (i0 :: irest) := by
        simp only [osSplit]
        rw [if_pos (by rw [htakel]; exact hcond)]
        simp only [htakel]
        exact rstripSep_no_trailing _ hA2
      rw [hhead, htail, if_pos hA1]
      rw [List.append_assoc, List.singleton_append]

/-- a relative path normalizes to `.` or to a nonempty clean joined form -/
theorem normpath_rel (p : Str) (h : isAbs p = false) :
    normpath p = [46] ∨
    ∃ cs : List Str, cs ≠ [] ∧ (∀ c ∈ cs, c ≠ [] ∧ ¬ 47 ∈ c) ∧
      normpath p = List.intercalate [47] cs := by
  by_cases h0 : p = []
  · exact Or.inl (by simp [normpath, h0])
  · have hns := initSlashes_rel p h
    simp only [normpath, if_neg h0, hns, List.replicate_zero, List.nil_append]
    have hmem : ∀ c ∈ (p.splitOn 47).foldl (normStep 0) [], c ≠ [] ∧ ¬ 47 ∈ c :=
      normStep_members 0 (p.splitOn 47) [] (by simp) (splitOn_no_sep p)
    by_cases hc : (p.splitOn 47).foldl (normStep 0) [] = []
    · refine Or.inl ?_
      rw [hc]
      simp [List.intercalate]
    · refine Or.inr ⟨(p.splitOn 47).foldl (normStep 0) [], hc, hmem, ?_⟩
      rw [if_neg (intercalate_facts _ hc hmem).1]

/-- for a relative byte input, the joined form of the constructed Path is the
normalized decoded string (no slash duplication happens) -/
theorem pathOfBytes_path (B : Bytes) (hrel : isAbs (fsdecode B) = false) :
    (pathOfBytes B).path = normpath (fsdecode B) := by
  have hj : join2 [] (fsdecode B) = fsdecode B := join2_nil_left _
  have hrec : (pathOfBytes B).path
      = (if (osSplit (normpath (fsdecode B))).1 ≠ []
          then (osSplit (normpath (fsdecode B))).1 ++ [47] else [])
        ++ (osSplit (normpath (fsdecode B))).2 := by
    simp only [pathOfBytes, mkPath, fsdecodeArg, hj, normcase, PathV.path]
  rw [hrec]
  rcases normpath_rel (fsdecode B) hrel with hn | ⟨cs, h1, h2, hn⟩
  · rw [hn]
    decide
  · rw [hn]
    exact osSplit_recombine cs h1 h2

/-- C4 (corrected): the surrogateescape codec preserves every byte on the
byte→str→byte round trip, and tunnels each undecodable byte `b ≥ 0x80` as the
lone low surrogate `0xDC00 + b` (in `U+DC80..U+DCFF`), re-emitted as `b` on
encoding; and for byte inputs whose decoded form is relative,
`bytes(Path(B))` is the normalized form of `B`.  For absolute inputs the
recombination `(parent and parent + sep) + name` doubles the leading slash
(`bytes(Path(b'/a')) = b'//a'`), so `bytes(Path(B)) == normalize(B)` and
`Path(bytes(P)) == P` do not hold for every byte sequence (see the
counterexample). -/
theorem c4_byte_roundtrip (B : Bytes) (hB : ∀ b ∈ B, b < 256)
    (hrel : isAbs (fsdecode B) = false) :
    fsencode (fsdecode B) = some B ∧
    (∀ b, 128 ≤ b → b < 256 →
      fsdecode [b] = [56320 + b] ∧ 56448 ≤ 56320 + b ∧ 56320 + b ≤ 56575 ∧
      encodeChar (56320 + b) = some [b]) ∧
    bytesOfPath (pathOfBytes B) = normalizeBytes B := by
  refine ⟨fsencode_fsdecode B hB, ?_, ?_⟩
  · intro b h1 h2
    exact ⟨fsdecode_single b h1, by omega, by omega,
      encodeChar_escape b h1 h2⟩
  · rw [bytesOfPath, pathOfBytes_path B hrel, normalizeBytes, normcase]

/-- C4 witness: the relative byte path `a/þ` (with the undecodable byte 0xFE)
round-trips byte-for-byte and recombines to its normalized form -/
theorem c4_witness :
    fsencode (fsdecode [97, 47, 254]) = some [97, 47, 254] ∧
    (∀ b, 128 ≤ b → b < 256 →
      fsdecode [b] = [56320 + b] ∧ 56448 ≤ 56320 + b ∧ 56320 + b ≤ 56575 ∧
      encodeChar (56320 + b) = some [b]) ∧
    bytesOfPath (pathOfBytes [97, 47, 254]) = normalizeBytes [97, 47, 254] :=
  c4_byte_roundtrip [97, 47, 254] (by decide) (by decide)

/-- C4 counterexample: for the absolute byte path `/a` the recombined joined
form doubles the leading slash — `bytes(Path(b'/a'))` is `//a`, not the
normalized `/a` — and re-constructing a Path from those bytes yields a Path
that does not compare equal to the original -/
theorem c4_counterexample :
    bytesOfPath (pathOfBytes [47, 97]) = some [47, 47, 97] ∧
    normalizeBytes [47, 97] = some [47, 97] ∧
    pyEq (pathOfBytes [47, 47, 97]) (.path (pathOfBytes [47, 97])) = false := by
  decide

/-- witness for C9 at a concrete store and statement list -/
theorem c9_witness :
    sessionExit
        (([⟨true, fun n => n + 1⟩, ⟨true, fun n => n * 3⟩] : List (Stmt Nat)).foldl
          (connExec .AUTOCOMMIT) (sessionEnter .AUTOCOMMIT 1)) true = 6 ∧
    sessionExit (⟨5, 7, false⟩ : Conn Nat) true = 5 := by
  constructor
  · have h := (c9_autocommit_session Nat 1
      [⟨true, fun n => n + 1⟩, ⟨true, fun n => n * 3⟩]).2.2.2.1
    simpa using h
  · exact (c9_autocommit_session Nat 0 []).2.2.2.2.1 ⟨5, 7, false⟩ rfl

/-! ## C2: generic list helpers for the view evaluation -/

theorem cteRun_nil (tbl : List PathsRow) (pairs : List (Bytes × Int)) :
    ∀ f, cteRun tbl pairs f [] = [] := by
  intro f
  cases f <;> rfl

theorem nodup_filter_singleton {α : Type} (p : α → Bool) (x : α) :
    ∀ l : List α, l.Nodup → x ∈ l → p x = true →
      (∀ y ∈ l, p y = true → y = x) → l.filter p = [x] := by
  intro l
  induction l with
  | nil => intro _ h; cases h
  | cons a rest ih =>
    intro hnd hx hpx huniq
    rcases List.mem_cons.mp hx with h | h
    · subst h
      rw [List.filter_cons_of_pos hpx]
      have hrest : rest.filter p = [] := by
        rw [List.filter_eq_nil_iff]
        intro y hy hpy
        have := huniq y (List.mem_cons_of_mem _ hy) hpy
        exact (List.nodup_cons.mp hnd).1 (this ▸ hy)
      rw [hrest]
    · have hpa : ¬ p a = true := by
        intro hpa
        have := huniq a (List.mem_cons_self _ _) hpa
        exact (List.nodup_cons.mp hnd).1 (this ▸ h)
      rw [List.filter_cons_of_neg hpa]
      exact ih (List.nodup_cons.mp hnd).2 h hpx
        (fun y hy => huniq y (List.mem_cons_of_mem _ hy))

theorem chain_snoc {α : Type} (R : α → α → Prop) :
    ∀ (l : List α) (a b z : α), List.Chain R a l →
      (a :: l).getLast? = some z → R z b → List.Chain R a (l ++ [b]) := by
  intro l
  induction l with
  | nil =>
    intro a b z _ hz hR
    have hza : a = z := by simpa using hz
    subst hza
    exact List.Chain.cons hR List.Chain.nil
  | cons c rest ih =>
    intro a b z hch hz hR
    cases hch with
    | cons hac hrest =>
      refine List.Chain.cons hac (ih c b z hrest ?_ hR)
      rw [← List.getLast?_cons_cons (a := a)]
      exact hz

theorem forall₂_getLast {α β : Type} (R : α → β → Prop)
    (l₁ : List α) (l₂ : List β) (h : List.Forall₂ R l₁ l₂) :
    ∀ x, l₁.getLast? = some x → ∃ y, l₂.getLast? = some y ∧ R x y := by
  induction h with
  | nil => intro x hx; simp at hx
  | @cons a b l₁' l₂' hab htail ih =>
    intro x hx
    cases l₁' with
    | nil =>
      cases htail
      have hxa : a = x := by simpa using hx
      subst hxa
      exact ⟨b, by simp, hab⟩
    | cons c l₁'' =>
      rw [List.getLast?_cons_cons] at hx
      obtain ⟨y, hy, hR⟩ := ih x hx
      cases htail with
      | cons h2 h3 =>
        refine ⟨y, ?_, hR⟩
        rw [List.getLast?_cons_cons]
        exact hy

theorem forall₂_map_eq {α β γ : Type} (f : α → γ) (g : β → γ)
    (R : α → β → Prop) (hR : ∀ a b, R a b → g b = f a)
    (l₁ : List α) (l₂ : List β) (h : List.Forall₂ R l₁ l₂) :
    l₂.map g = l₁.map f := by
  induction h with
  | nil => rfl
  | cons hab htail ih => simp [ih, hR _ _ hab]

theorem forall₂_mem_right {α β : Type} (R : α → β → Prop)
    (l₁ : List α) (l₂ : List β) (h : List.Forall₂ R l₁ l₂) :
    ∀ b ∈ l₂, ∃ a ∈ l₁, R a b := by
  induction h with
  | nil => intro b hb; cases hb
  | @cons x y t₁ t₂ hxy htail ih =>
    intro b hb
    rcases List.mem_cons.mp hb with h | h
    · exact ⟨x, List.mem_cons_self _ _, h ▸ hxy⟩
    · obtain ⟨a, ha, hR⟩ := ih b h
      exact ⟨a, List.mem_cons_of_mem _ ha, hR⟩

theorem enumFrom_mem_spec {α : Type} :
    ∀ (l : List α) (n : Nat), ∀ x ∈ l.enumFrom n,
      ∃ i, ∃ h : i < l.length, x = (n + i, l.get ⟨i, h⟩) := by
  intro l
  induction l with
  | nil => intro n x hx; cases hx
  | cons a as ih =>
    intro n x hx
    rw [List.enumFrom] at hx
    rcases List.mem_cons.mp hx with h | h
    · exact ⟨0, by simp, by simpa using h⟩
    · obtain ⟨i, hi, he⟩ := ih (n + 1) x h
      refine ⟨i + 1, by simpa using hi, ?_⟩
      rw [he]
      have : n + 1 + i = n + (i + 1) := by omega
      rw [this]
      rfl

theorem enumFrom_get_mem {α : Type} :
    ∀ (l : List α) (n i : Nat) (h : i < l.length),
      (n + i, l.get ⟨i, h⟩) ∈ l.enumFrom n := by
  intro l
  induction l with
  | nil => intro n i h; simp at h
  | cons a as ih =>
    intro n i h
    cases i with
    | zero =>
      rw [List.enumFrom]
      simp
    | succ i' =>
      rw [List.enumFrom]
      refine List.mem_cons_of_mem _ ?_
      have harith : n + (i' + 1) = (n + 1) + i' := by omega
      rw [harith]
      exact ih (n + 1) i' (by simpa using h)

/-! ## C2: shape of encoded name components -/

theorem encodeChar_ne_nil (c : Nat) (bs : Bytes) (h : encodeChar c = some bs) :
    bs ≠ [] := by
  unfold encodeChar at h
  split_ifs at h <;> (cases h; simp)

theorem encodeChar_no_sep (c : Nat) (bs : Bytes) (h : encodeChar c = some bs)
    (hc : c ≠ 47) : ¬ 47 ∈ bs := by
  unfold encodeChar at h
  split_ifs at h <;>
    (cases h
     intro hmem
     simp only [List.mem_cons, List.not_mem_nil, or_false] at hmem
     omega)

theorem fsencode_ne_nil (s : Str) (B : Bytes) (hs : s ≠ [])
    (h : fsencode s = some B) : B ≠ [] := by
  cases s with
  | nil => cases hs rfl
  | cons c cs =>
    cases he : encodeChar c with
    | none => simp [fsencode, he] at h
    | some bs =>
      cases hr : fsencode cs with
      | none => simp [fsencode, he, hr] at h
      | some B' =>
        have hB : bs ++ B' = B := by simpa [fsencode, he, hr] using h
        rw [← hB]
        simp [encodeChar_ne_nil c bs he]

theorem fsencode_no_sep (s : Str) : ∀ B : Bytes, ¬ 47 ∈ s →
    fsencode s = some B → ¬ 47 ∈ B := by
  induction s with
  | nil =>
    intro B _ h
    have : ([] : Bytes) = B := by simpa [fsencode] using h
    rw [← this]
    simp
  | cons c cs ih =>
    intro B hs h
    have hc : c ≠ 47 := by
      intro he
      exact hs (he ▸ List.mem_cons_self _ _)
    have hcs : ¬ 47 ∈ cs := fun hm => hs (List.mem_cons_of_mem _ hm)
    cases he : encodeChar c with
    | none => simp [fsencode, he] at h
    | some bs =>
      cases hr : fsencode cs with
      | none => simp [fsencode, he, hr] at h
      | some B' =>
        have hB : bs ++ B' = B := by simpa [fsencode, he, hr] using h
        rw [← hB]
        intro hmem
        rcases List.mem_append.mp hmem with h1 | h1
        · exact encodeChar_no_sep c bs he hc h1
        · exact ih B' hcs hr h1

theorem fsencode_append_sep (b : Str) (B : Bytes) (hb : fsencode b = some B) :
    ∀ (a : Str) (A : Bytes), fsencode a = some A →
      fsencode (a ++ 47 :: b) = some (A ++ 47 :: B) := by
  intro a
  induction a with
  | nil =>
    intro A ha
    have hA : ([] : Bytes) = A := by simpa [fsencode] using ha
    rw [List.nil_append, ← hA, List.nil_append]
    have h47 : encodeChar 47 = some [47] := by decide
    exact fsencode_cons 47 b [47] B h47 hb
  | cons c cs ih =>
    intro A ha
    cases he : encodeChar c with
    | none => simp [fsencode, he] at ha
    | some bs =>
      cases hr : fsencode cs with
      | none => simp [fsencode, he, hr] at ha
      | some A' =>
        have hA : bs ++ A' = A := by simpa [fsencode, he, hr] using ha
        have hrec := ih A' hr
        rw [List.cons_append]
        rw [fsencode_cons c (cs ++ 47 :: b) bs (A' ++ 47 :: B) he hrec]
        rw [← hA, List.append_assoc]

theorem getD_encode_inj (a b : Str) (ha : (fsencode a).isSome = true)
    (hb : (fsencode b).isSome = true)
    (h : (fsencode a).getD [] = (fsencode b).getD []) :
    fsencode a = fsencode b := by
  cases hA : fsencode a with
  | none => rw [hA] at ha; simp at ha
  | some A =>
    cases hB : fsencode b with
    | none => rw [hB] at hb; simp at hb
    | some B =>
      rw [hA, hB] at h
      simp only [Option.getD_some] at h
      rw [h]

theorem enc_clean (P : PathV) (h : wfNameB P.name = true) :
    (fsencode P.name).getD [] ≠ [] ∧ ¬ 47 ∈ (fsencode P.name).getD [] := by
  obtain ⟨h1, _, _, h4, h5⟩ := wfNameB_spec _ h
  obtain ⟨E, hE⟩ := Option.isSome_iff_exists.mp h5
  rw [hE]
  simp only [Option.getD_some]
  exact ⟨fsencode_ne_nil P.name E h1 hE, fsencode_no_sep P.name E h4 hE⟩

/-! ## C2: `BYTE_PATH` over clean components -/

theorem not_prefix_sep (e : Bytes) (hne : e ≠ []) (hns : ¬ 47 ∈ e) :
    [47].isPrefixOf e = false := by
  cases e with
  | nil => cases hne rfl
  | cons x xs =>
    have hx : x ≠ 47 := by
      intro he
      exact hns (he ▸ List.mem_cons_self _ _)
    simp [List.isPrefixOf, Ne.symm hx]

theorem join2_clean (A e : Bytes) (hA : A ≠ [])
    (hlast : ∀ x, A.getLast? = some x → x ≠ 47)
    (hne : e ≠ []) (hns : ¬ 47 ∈ e) : join2 A e = A ++ 47 :: e := by
  rw [join2, if_neg, if_neg]
  · intro hor
    rcases hor with h | h
    · exact hA h
    · exact hlast 47 h rfl
  · rw [not_prefix_sep e hne hns]
    simp

theorem bytePath_go (es : List Bytes) :
    ∀ cs : List Bytes, cs ≠ [] → (∀ c ∈ cs, c ≠ [] ∧ ¬ 47 ∈ c) →
      (∀ e ∈ es, e ≠ [] ∧ ¬ 47 ∈ e) →
      es.foldl join2 (List.intercalate [47] cs)
        = List.intercalate [47] (cs ++ es) := by
  induction es with
  | nil =>
    intro cs _ _ _
    simp
  | cons e es' ih =>
    intro cs hcs hcf hef
    obtain ⟨hi1, hi2, _⟩ := intercalate_facts cs hcs hcf
    have he := hef e (List.mem_cons_self _ _)
    rw [List.foldl_cons, join2_clean _ _ hi1 hi2 he.1 he.2,
      ← intercalate_concat cs e hcs,
      ih (cs ++ [e]) (by simp) ?_ (fun x hx => hef x (List.mem_cons_of_mem _ hx)),
      List.append_assoc, List.singleton_append]
    intro c hc
    rcases List.mem_append.mp hc with h | h
    · exact hcf c h
    · rw [List.mem_singleton.mp h]
      exact he

theorem bytePath_clean (es : List Bytes) (hne : es ≠ [])
    (h : ∀ e ∈ es, e ≠ [] ∧ ¬ 47 ∈ e) :
    bytePath es = List.intercalate [47] es := by
  cases es with
  | nil => cases hne rfl
  | cons e es' =>
    have hgo := bytePath_go es' [e] (by simp)
      (by intro c hc; rw [List.mem_singleton.mp hc]; exact h e (List.mem_cons_self _ _))
      (fun x hx => h x (List.mem_cons_of_mem _ hx))
    rw [intercalate_single] at hgo
    rw [bytePath, List.foldl_cons, join2_nil_left]
    rw [hgo, List.singleton_append]

/-! ## C2: facts derived from the update invariant -/

theorem splitOn_no_sep_single (s : Str) (h : ¬ 47 ∈ s) : s.splitOn 47 = [s] := by
  have h' : ∀ x ∈ s, ¬((fun y => y == 47) x = true) := by
    intro x hx
    simp only [beq_iff_eq]
    intro he
    exact h (he ▸ hx)
  simp only [List.splitOn]
  rw [List.splitOnP_eq_single _ _ h']

theorem idOf_inj_of_nodup (ids : List (Str × Nat))
    (hnd : (ids.map Prod.snd).Nodup) (s t : Str) (k : Nat)
    (hs : idOf ids s = some k) (ht : idOf ids t = some k) : s = t := by
  simp only [idOf, Option.map_eq_some'] at hs ht
  obtain ⟨es, hfs, hks⟩ := hs
  obtain ⟨et, hft, hkt⟩ := ht
  have hes := List.mem_of_find?_eq_some hfs
  have het := List.mem_of_find?_eq_some hft
  have hps : es.1 = s := by simpa using List.find?_some hfs
  have hpt : et.1 = t := by simpa using List.find?_some hft
  have heq : es = et :=
    List.inj_on_of_nodup_map hnd hes het (by rw [hks, hkt])
  rw [← hps, ← hpt, heq]

theorem idOf_nil_none (seen : List PathV) (ids : List (Str × Nat))
    (hIdsFst : ids.map Prod.fst = seen.map PathV.path)
    (hname : ∀ Q ∈ seen, Q.name ≠ []) : idOf ids [] = none := by
  apply idOf_none_of_all
  intro e he
  have hm : e.1 ∈ ids.map Prod.fst := List.mem_map_of_mem _ he
  rw [hIdsFst] at hm
  rcases List.mem_map.mp hm with ⟨Q, hQ, hQe⟩
  rw [← hQe]
  exact path_nonempty Q (hname Q hQ)

theorem depth_le_id (tbl : List PathsRow) (hinv : TblInv tbl) :
    ∀ n, ∀ row ∈ tbl, row.id ≤ n → row.depth ≤ (row.id : Int) := by
  intro n
  induction n with
  | zero =>
    intro row hrow h0
    have := (id_bounds tbl hinv.1 row hrow).1
    omega
  | succ n ih =>
    intro row hrow hle
    rcases hp : row.parent_id with _ | p
    · have hd1 := (hinv.2.2 row hrow).1 hp
      have := (id_bounds tbl hinv.1 row hrow).1
      omega
    · obtain ⟨hplt, prow, hpmem, hpid, hdep⟩ := (hinv.2.2 row hrow).2 p hp
      have hrec := ih prow hpmem (by omega)
      omega

/-! ## C2: the ancestor chain of a yield -/

theorem seenChain_exists (seen : List PathV)
    (hS : ∀ Q ∈ seen, wfNameB Q.name = true ∧ 1 ≤ Q.depth ∧
      ((Q.parent = [] ∧ Q.depth = 1) ∨
        ∃ R ∈ seen, R.path = Q.parent ∧ Q.depth = R.depth + 1)) :
    ∀ Q ∈ seen, ∃ C, SeenChain seen C Q := by
  have key : ∀ d : Nat, ∀ Q ∈ seen, Q.depth.toNat ≤ d →
      ∃ C, SeenChain seen C Q := by
    intro d
    induction d with
    | zero =>
      intro Q hQ hd
      have := (hS Q hQ).2.1
      omega
    | succ d ih =>
      intro Q hQ hd
      rcases (hS Q hQ).2.2 with ⟨hp, h1⟩ | ⟨R, hR, hRp, hRd⟩
      · exact ⟨[Q], SeenChain.root Q hQ hp h1⟩
      · have hR1 := (hS R hR).2.1
        have hQ1 := (hS Q hQ).2.1
        obtain ⟨C, hC⟩ := ih R hR (by omega)
        exact ⟨C ++ [Q], SeenChain.step C R Q hC hQ hRp.symm hRd⟩
  intro Q hQ
  exact key Q.depth.toNat Q hQ (Nat.le_refl _)

theorem seenChain_facts (seen : List PathV) :
    ∀ (C : List PathV) (Q : PathV), SeenChain seen C Q →
      C ≠ [] ∧ C.getLast? = some Q ∧ Q ∈ seen ∧ (C.length : Int) = Q.depth ∧
      ∀ i (hi : i < C.length), C.get ⟨i, hi⟩ ∈ seen ∧
        (C.get ⟨i, hi⟩).depth = (i : Int) + 1 := by
  intro C Q h
  induction h with
  | root Q hQ hp h1 =>
    refine ⟨by simp, by simp, hQ, by simp [h1], ?_⟩
    intro i hi
    have hi0 : i = 0 := by simpa using hi
    subst hi0
    exact ⟨hQ, by simpa using h1⟩
  | step C R Q hC hQ hpar hdep ih =>
    obtain ⟨ih1, ih2, ih3, ih4, ih5⟩ := ih
    refine ⟨by simp, ?_, hQ, ?_, ?_⟩
    · rw [List.getLast?_append_of_ne_nil C (by simp)]
      simp
    · simp only [List.length_append, List.length_cons, List.length_nil]
      push_cast
      omega
    · intro i hi
      have hi' : i < C.length + 1 := by simpa using hi
      by_cases hlt : i < C.length
      · have hg : (C ++ [Q]).get ⟨i, hi⟩ = C.get ⟨i, hlt⟩ := by
          simp only [List.get_eq_getElem]
          exact List.getElem_append_left hlt
        rw [hg]
        exact ih5 i hlt
      · have hieq : i = C.length := by omega
        subst hieq
        have hg : (C ++ [Q]).get ⟨C.length, hi⟩ = Q := by
          simp only [List.get_eq_getElem]
          rw [List.getElem_append_right (Nat.le_refl _)]
          simp
        rw [hg]
        refine ⟨hQ, ?_⟩
        rw [hdep, ← ih4]

theorem seenChain_splitOn (seen : List PathV)
    (hW : ∀ Q ∈ seen, wfNameB Q.name = true) :
    ∀ (C : List PathV) (Q : PathV), SeenChain seen C Q →
      Q.path.splitOn 47 = C.map PathV.name := by
  intro C Q h
  induction h with
  | root Q hQ hp _ =>
    have hw := wfNameB_spec _ (hW Q hQ)
    have hs : Q.path = Q.name := by simp [PathV.path, hp]
    rw [hs, List.map_cons, List.map_nil]
    exact splitOn_no_sep_single Q.name hw.2.2.2.1
  | step C R Q hC hQ hpar hdep ih =>
    have hw := wfNameB_spec _ (hW Q hQ)
    have hRseen : R ∈ seen := (seenChain_facts seen C R hC).2.2.1
    have hRp : R.path ≠ [] :=
      path_nonempty R (wfNameB_spec _ (hW R hRseen)).1
    have hQpath : Q.path = R.path ++ 47 :: Q.name := by
      show (if Q.parent ≠ [] then Q.parent ++ [47] else []) ++ Q.name = _
      rw [hpar, if_pos hRp, List.append_assoc]
      rfl
    rw [hQpath, splitOn_snoc_sep Q.name hw.2.2.2.1 R.path, ih, List.map_append]
    rfl

theorem seenChain_encode (seen : List PathV)
    (hW : ∀ Q ∈ seen, wfNameB Q.name = true) :
    ∀ (C : List PathV) (Q : PathV), SeenChain seen C Q →
      fsencode Q.path = some (List.intercalate [47]
        (C.map (fun P => (fsencode P.name).getD []))) := by
  intro C Q h
  induction h with
  | root Q hQ hp _ =>
    have hw := wfNameB_spec _ (hW Q hQ)
    obtain ⟨B, hB⟩ := Option.isSome_iff_exists.mp hw.2.2.2.2
    have hs : Q.path = Q.name := by simp [PathV.path, hp]
    rw [hs, List.map_cons, List.map_nil, intercalate_single, hB]
    simp
  | step C R Q hC hQ hpar hdep ih =>
    have hw := wfNameB_spec _ (hW Q hQ)
    have hfacts := seenChain_facts seen C R hC
    have hRp : R.path ≠ [] :=
      path_nonempty R (wfNameB_spec _ (hW R hfacts.2.2.1)).1
    have hQpath : Q.path = R.path ++ 47 :: Q.name := by
      show (if Q.parent ≠ [] then Q.parent ++ [47] else []) ++ Q.name = _
      rw [hpar, if_pos hRp, List.append_assoc]
      rfl
    obtain ⟨B, hB⟩ := Option.isSome_iff_exists.mp hw.2.2.2.2
    rw [hQpath, fsencode_append_sep Q.name B hB R.path _ ih, List.map_append,
      List.map_cons, List.map_nil,
      intercalate_concat _ _ (by simpa using hfacts.1), hB]
    simp

/-! ## C2: stability of the trigger walk and full ancestor accounting -/

theorem find?_append_left_row (l₁ l₂ : List PathsRow) (p : PathsRow → Bool)
    (x : PathsRow) (h : l₁.find? p = some x) : (l₁ ++ l₂).find? p = some x := by
  rw [List.find?_append, h]
  rfl

theorem ancWalkF_stable (tbl : List PathsRow) (hinv : TblInv tbl)
    (ext : List PathsRow) (hext : ∀ r ∈ ext, tbl.length < r.id) (newId : Nat) :
    ∀ (f1 cur f2 : Nat) (rd : Int), cur ≤ tbl.length → cur ≤ f1 → cur ≤ f2 →
      ancWalkF (tbl ++ ext) newId f1 cur rd = ancWalkF tbl newId f2 cur rd := by
  obtain ⟨hids, hdep, hpar⟩ := hinv
  have hfind0 : ((tbl ++ ext).find? (fun r => r.id = 0) = none) ∧
      (tbl.find? (fun r => r.id = 0) = none) := by
    constructor
    · rw [List.find?_eq_none]
      intro r hr
      simp only [decide_eq_true_eq]
      rcases List.mem_append.mp hr with h | h
      · have := (id_bounds tbl hids r h).1
        omega
      · have := hext r h
        omega
    · rw [List.find?_eq_none]
      intro r hr
      simp only [decide_eq_true_eq]
      have := (id_bounds tbl hids r hr).1
      omega
  intro f1
  induction f1 with
  | zero =>
    intro cur f2 rd hle h1 h2
    have hc : cur = 0 := by omega
    subst hc
    cases f2 with
    | zero => rfl
    | succ f2' => simp only [ancWalkF, hfind0.2]
  | succ f1' ih =>
    intro cur f2 rd hle h1 h2
    by_cases hc : cur = 0
    · subst hc
      cases f2 with
      | zero => simp only [ancWalkF, hfind0.1]
      | succ f2' => simp only [ancWalkF, hfind0.1, hfind0.2]
    · have hmem : cur ∈ tbl.map PathsRow.id := by
        rw [hids]
        exact List.mem_range'_1.mpr ⟨by omega, by omega⟩
      rcases List.mem_map.mp hmem with ⟨row, hrow, hrid⟩
      have hfind : tbl.find? (fun r => r.id = cur) = some row := by
        rw [← hrid]
        exact find_by_id tbl (tbl_id_nodup tbl hids) row hrow
      have hfindL : (tbl ++ ext).find? (fun r => r.id = cur) = some row :=
        find?_append_left_row tbl ext _ row hfind
      cases f2 with
      | zero => omega
      | succ f2' =>
        rcases hp : row.parent_id with _ | p
        · simp only [ancWalkF, hfind, hfindL, hp]
        · obtain ⟨hplt, prow, hpmem, hpid, _⟩ := (hpar row hrow).2 p hp
          have hpb := id_bounds tbl hids prow hpmem
          simp only [ancWalkF, hfind, hfindL, hp]
          rw [ih p f2' (rd - 1) (by omega) (by omega) (by omega)]

theorem triggerRows_stable (tbl : List PathsRow) (hinv : TblInv tbl)
    (ext : List PathsRow) (hext : ∀ r ∈ ext, tbl.length < r.id)
    (row : PathsRow) (hrow : row ∈ tbl) :
    triggerRows (tbl ++ ext) row.id = triggerRows tbl row.id := by
  have hb := id_bounds tbl hinv.1 row hrow
  rw [triggerRows, triggerRows]
  have hw := ancWalkF_stable tbl hinv ext hext row.id
    ((tbl ++ ext).length) row.id tbl.length 0 hb.2
    (by simp only [List.length_append]; omega) hb.2
  rw [hw]

theorem ancFull_empty : AncFull emptyMediaDb := by
  intro row hrow
  simp [emptyMediaDb] at hrow

/-- the full ancestor accounting survives appending one fresh row and its
trigger output -/
theorem ancFull_step (db : MediaDb) (newRow : PathsRow)
    (hTbl : TblInv db.paths) (hTbl' : TblInv (db.paths ++ [newRow]))
    (hid : newRow.id = db.nextId)
    (hNext : db.nextId = db.paths.length + 1)
    (hAncCh : ∀ a ∈ db.ancestors, 1 ≤ a.child_id ∧ a.child_id < db.nextId)
    (hfull : AncFull db) :
    AncFull ⟨db.paths ++ [newRow],
      (triggerRows (db.paths ++ [newRow]) db.nextId).foldl ancInsert1
        db.ancestors,
      db.nextId + 1⟩ := by
  intro row hrow
  show ((triggerRows (db.paths ++ [newRow]) db.nextId).foldl ancInsert1
      db.ancestors).filter (fun a => a.child_id = row.id)
      = triggerRows (db.paths ++ [newRow]) row.id
  have hNewMem : newRow ∈ db.paths ++ [newRow] :=
    List.mem_append_right _ (List.mem_singleton.mpr rfl)
  have hspec := triggerRows_spec _ hTbl' newRow hNewMem
  rw [hid] at hspec
  have happ : (triggerRows (db.paths ++ [newRow]) db.nextId).foldl ancInsert1
      db.ancestors
      = db.ancestors ++ triggerRows (db.paths ++ [newRow]) db.nextId := by
    apply foldl_ancInsert_append
    · intro r hr a ha
      have h1 := (hspec.2.1 r hr).1
      have h2 := (hAncCh a ha).2
      intro hcon
      rw [hcon.1, h1] at h2
      omega
    · exact hspec.2.2.2
  rw [happ, List.filter_append]
  have hrow' : row ∈ db.paths ++ [newRow] := hrow
  rcases List.mem_append.mp hrow' with hold | hnew
  · -- an old row: the new trigger rows carry the new child id, not this one
    have hid2 := id_bounds db.paths hTbl.1 row hold
    have htrig : (triggerRows (db.paths ++ [newRow]) db.nextId).filter
        (fun a => a.child_id = row.id) = [] := by
      rw [List.filter_eq_nil_iff]
      intro a ha
      have h1 := (hspec.2.1 a ha).1
      simp only [decide_eq_true_eq]
      omega
    have hext' : ∀ r ∈ [newRow], db.paths.length < r.id := by
      intro r hr
      rw [List.mem_singleton.mp hr]
      omega
    rw [htrig, List.append_nil, hfull row hold,
      ← triggerRows_stable db.paths hTbl [newRow] hext' row hold]
  · -- the new row: its trigger rows are appended verbatim
    have hrn : row = newRow := List.mem_singleton.mp hnew
    subst hrn
    rw [hid]
    have hanc : db.ancestors.filter (fun a => a.child_id = db.nextId) = [] := by
      rw [List.filter_eq_nil_iff]
      intro a ha
      have := (hAncCh a ha).2
      simp only [decide_eq_true_eq]
      omega
    have htrig : (triggerRows (db.paths ++ [row]) db.nextId).filter
        (fun a => a.child_id = db.nextId)
        = triggerRows (db.paths ++ [row]) db.nextId := by
      rw [List.filter_eq_self]
      intro a ha
      have h1 := (hspec.2.1 a ha).1
      simp only [decide_eq_true_eq]
      exact h1
    rw [hanc, htrig, List.nil_append]

/-- one insert-loop iteration preserves the full ancestor accounting -/
theorem ancFull_insert (seen : List PathV) (db : MediaDb) (ids : List (Str × Nat))
    (P : PathV) (hwf : wfStepB seen P = true) (hinv : UpdInv seen db ids)
    (hfull : AncFull db) :
    AncFull (insertPathRow db ((fsencode P.name).getD []) P.isDirV P.depth
      (idOf ids P.parent)).1 := by
  have hinv' := updInv_insert seen db ids P hwf hinv
  exact ancFull_step db
    ⟨db.nextId, (fsencode P.name).getD [], P.isDirV, P.depth, idOf ids P.parent⟩
    hinv.1 hinv'.1 rfl hinv.2.1 hinv.2.2.2.2.1 hfull

/-- the insert loop preserves the full ancestor accounting -/
theorem updateGo_ancFull : ∀ (l seen : List PathV) (db : MediaDb)
    (ids : List (Str × Nat)), wfScanAuxB seen l = true → UpdInv seen db ids →
    AncFull db → AncFull (updateGo l db ids) := by
  intro l
  induction l with
  | nil =>
    intro seen db ids _ _ hf
    simpa [updateGo] using hf
  | cons P ps ih =>
    intro seen db ids hwf hinv hf
    simp only [wfScanAuxB, Bool.and_eq_true] at hwf
    have hstep := updInv_insert seen db ids P hwf.1 hinv
    have hfull' := ancFull_insert seen db ids P hwf.1 hinv hf
    simp only [updateGo]
    exact ih (P :: seen) _ _ hwf.2 (by simpa [idOf] using hstep)
      (by simpa [idOf] using hfull')

/-- the committed store of a root-started update accounts for every
`ancestors` row by the trigger walk of its child row -/
theorem update_ancFull (l : List PathV) (h : WfScan l) : AncFull (update l) := by
  have := updateGo_ancFull l [] emptyMediaDb [] h updInv_empty ancFull_empty
  simpa [update] using this

/-! ## C2: the trigger walk along an explicit parent chain, and the CTE run
along an explicit successor chain -/

theorem forall₂_snoc {α β : Type} (R : α → β → Prop)
    (l₁ : List α) (l₂ : List β) (a : α) (b : β) (h : List.Forall₂ R l₁ l₂)
    (hab : R a b) : List.Forall₂ R (l₁ ++ [a]) (l₂ ++ [b]) := by
  induction h with
  | nil => exact List.Forall₂.cons hab List.Forall₂.nil
  | cons hxy htail ih =>
    rw [List.cons_append, List.cons_append]
    exact List.Forall₂.cons hxy ih

theorem walkRows_spec (newId : Nat) :
    ∀ (S : List PathsRow) (rd : Int),
      ((walkRows newId rd S).map (fun a => a.ancestor_id)
        = S.map PathsRow.id) ∧
      (∀ a ∈ walkRows newId rd S, a.child_id = newId ∧ a.reldepth < rd) ∧
      List.Pairwise (fun a b => b.reldepth < a.reldepth)
        (walkRows newId rd S) := by
  intro S
  induction S with
  | nil =>
    intro rd
    refine ⟨rfl, ?_, List.Pairwise.nil⟩
    intro a ha
    rw [show walkRows newId rd [] = [] from rfl] at ha
    cases ha
  | cons y S' ih =>
    intro rd
    obtain ⟨ih1, ih2, ih3⟩ := ih (rd - 1)
    refine ⟨by simp [walkRows, ih1], ?_, ?_⟩
    · intro a ha
      rcases List.mem_cons.mp (by simpa [walkRows] using ha) with h | h
      · subst h
        refine ⟨rfl, ?_⟩
        show rd - 1 < rd
        omega
      · obtain ⟨h1, h2⟩ := ih2 a h
        exact ⟨h1, by omega⟩
    · show List.Pairwise _ (⟨newId, y.id, rd - 1⟩ :: walkRows newId (rd - 1) S')
      refine List.Pairwise.cons ?_ ih3
      intro a ha
      exact (ih2 a ha).2

theorem ancWalk_links (tbl : List PathsRow)
    (hnd : (tbl.map PathsRow.id).Nodup) (newId : Nat) :
    ∀ (S : List PathsRow) (z : PathsRow) (fuel : Nat) (rd : Int),
      z ∈ tbl → (∀ y ∈ S, y ∈ tbl) →
      List.Chain (fun a b => a.parent_id = some b.id) z S →
      (∀ w, (z :: S).getLast? = some w → w.parent_id = none) →
      S.length < fuel →
      ancWalkF tbl newId fuel z.id rd = walkRows newId rd S := by
  intro S
  induction S with
  | nil =>
    intro z fuel rd hz _ _ hlast hfuel
    cases fuel with
    | zero => omega
    | succ f =>
      have hfind := find_by_id tbl hnd z hz
      have hpid : z.parent_id = none := hlast z (by simp)
      simp only [ancWalkF, hfind, hpid, walkRows]
  | cons y S' ih =>
    intro z fuel rd hz hmem hch hlast hfuel
    cases fuel with
    | zero => simp at hfuel
    | succ f =>
      have hfind := find_by_id tbl hnd z hz
      cases hch with
      | cons hzy hch' =>
        have htail := ih y f (rd - 1) (hmem y (List.mem_cons_self _ _))
          (fun w hw => hmem w (List.mem_cons_of_mem _ hw)) hch'
          (fun w hw => hlast w (by rw [List.getLast?_cons_cons]; exact hw))
          (by simpa using hfuel)
        simp only [ancWalkF, hfind, hzy, walkRows, htail]

theorem cteRun_chain (tbl : List PathsRow) (pairs : List (Bytes × Int)) :
    ∀ (RL : List PathsRow) (r : PathsRow) (fuel : Nat), RL.length ≤ fuel →
      List.Chain (fun a b => cteStep tbl pairs a = [b]) r RL →
      (∀ z, (r :: RL).getLast? = some z → cteStep tbl pairs z = []) →
      cteRun tbl pairs (fuel + 1) [r] = r :: RL := by
  intro RL
  induction RL with
  | nil =>
    intro r fuel _ _ hlast
    have h0 : cteStep tbl pairs r = [] := hlast r (by simp)
    show r :: cteRun tbl pairs fuel ([] ++ cteStep tbl pairs r) = [r]
    rw [List.nil_append, h0, cteRun_nil]
  | cons b RL' ih =>
    intro r fuel hlen hch hlast
    cases hch with
    | cons hrb hch' =>
      cases fuel with
      | zero => simp at hlen
      | succ f =>
        show r :: cteRun tbl pairs (f + 1) ([] ++ cteStep tbl pairs r)
            = r :: b :: RL'
        rw [List.nil_append, hrb]
        exact congrArg (r :: ·) (ih b f (by simpa using hlen) hch'
          (fun z hz => hlast z (by rw [List.getLast?_cons_cons]; exact hz)))

/-! ## C2: evaluation pieces of `PathByIdView` -/

theorem insSortedNat_self (c : Nat) : insSortedNat c [c] = [c] := by
  simp [insSortedNat]

theorem sortDedup_const (c : Nat) :
    ∀ l : List Nat, (∀ x ∈ l, x = c) → sortDedup (c :: l) = [c] := by
  have aux : ∀ l : List Nat, (∀ x ∈ l, x = c) →
      l.foldl (fun acc x => insSortedNat x acc) [c] = [c] := by
    intro l
    induction l with
    | nil => intro _; rfl
    | cons x l' ih =>
      intro h
      have hx : x = c := h x (List.mem_cons_self _ _)
      subst hx
      rw [List.foldl_cons, insSortedNat_self]
      exact ih (fun y hy => h y (List.mem_cons_of_mem _ hy))
  intro l h
  show (c :: l).foldl (fun acc x => insSortedNat x acc) [] = [c]
  rw [List.foldl_cons]
  exact aux l h

theorem insByRd_last (a : AncRow) :
    ∀ M : List AncRow, (∀ b ∈ M, b.reldepth < a.reldepth) →
      insByRd a M = M ++ [a] := by
  intro M
  induction M with
  | nil => intro _; rfl
  | cons b bs ih =>
    intro h
    have hb := h b (List.mem_cons_self _ _)
    rw [insByRd, if_neg (by omega), ih (fun x hx => h x (List.mem_cons_of_mem _ hx))]
    rfl

theorem sortByRd_desc :
    ∀ L : List AncRow, List.Pairwise (fun a b => b.reldepth < a.reldepth) L →
      sortByRd L = L.reverse := by
  intro L
  induction L with
  | nil => intro _; rfl
  | cons a L' ih =>
    intro hpw
    have h1 := List.pairwise_cons.mp hpw
    show insByRd a (sortByRd L') = (a :: L').reverse
    rw [ih h1.2, List.reverse_cons]
    exact insByRd_last a L'.reverse
      (fun b hb => h1.1 b (List.mem_reverse.mp hb))

theorem filterMap_pair_fst {α β : Type} (g : α → Option β) :
    ∀ L : List α, (∀ a ∈ L, (g a).isSome = true) →
      (L.filterMap (fun a => (g a).map (fun r => (a, r)))).map Prod.fst = L := by
  intro L
  induction L with
  | nil => intro _; rfl
  | cons a L' ih =>
    intro h
    obtain ⟨r, hr⟩ := Option.isSome_iff_exists.mp (h a (List.mem_cons_self _ _))
    rw [List.filterMap_cons_some (by rw [hr]; rfl), List.map_cons,
      ih (fun x hx => h x (List.mem_cons_of_mem _ hx))]

theorem filterMap_find_rows (tbl : List PathsRow)
    (hnd : (tbl.map PathsRow.id).Nodup) :
    ∀ (T : List PathsRow) (M : List AncRow),
      M.map (fun a => a.ancestor_id) = T.map PathsRow.id →
      (∀ t ∈ T, t ∈ tbl) →
      M.filterMap (fun a => tbl.find? (fun r => r.id = a.ancestor_id)) = T := by
  intro T
  induction T with
  | nil =>
    intro M hm _
    have hM : M = [] := by
      have := congrArg List.length hm
      simpa using this
    subst hM
    rfl
  | cons t T' ih =>
    intro M hm hmem
    cases M with
    | nil => simp at hm
    | cons a M' =>
      simp only [List.map_cons, List.cons.injEq] at hm
      have hfind : tbl.find? (fun r => r.id = a.ancestor_id) = some t := by
        rw [hm.1]
        exact find_by_id tbl hnd t (hmem t (List.mem_cons_self _ _))
      rw [@List.filterMap_cons_some AncRow PathsRow
          (fun x => tbl.find? (fun r => r.id = x.ancestor_id)) a M' t hfind,
        ih M' hm.2 (fun x hx => hmem x (List.mem_cons_of_mem _ hx))]

/-! ## C2: uniqueness of rows matched by the `IdentifyPathView` query -/

/-- a table row pointing at a yield's row corresponds to a yield one level
below that yield -/
theorem row_child_of (seen : List PathV) (db : MediaDb) (ids : List (Str × Nat))
    (hinv : UpdInv seen db ids) (A : PathV) (hA : A ∈ seen)
    (ra : PathsRow) (hra : QRowOk ids A ra)
    (y : PathsRow) (hy : y ∈ db.paths) (hpid : y.parent_id = some ra.id) :
    ∃ Q' ∈ seen, QRowOk ids Q' y ∧ Q'.parent = A.path ∧
      Q'.depth = A.depth + 1 := by
  obtain ⟨hTbl, hNext, hLen, hRowAnc, hAncCh, hIdsFst, hIdsSnd, hNodup, hSeen,
    hPw, hQR, hRQ⟩ := hinv
  obtain ⟨Q', hQ', hq'⟩ := hRQ y hy
  have hsnd : (ids.map Prod.snd).Nodup := by
    rw [hIdsSnd]
    exact List.nodup_reverse.mpr (List.nodup_range' _ _)
  have hname : ∀ Q ∈ seen, Q.name ≠ [] :=
    fun Q hQ => (wfNameB_spec _ (hSeen Q hQ).1).1
  have hidpp : idOf ids Q'.parent = some ra.id := by
    rw [← hq'.2.2.2.2, hpid]
  rcases (hSeen Q' hQ').2.2 with ⟨hpe, _⟩ | ⟨R, hR, hRp, hRd⟩
  · rw [hpe, idOf_nil_none seen ids hIdsFst hname] at hidpp
    cases hidpp
  · have hRid : idOf ids R.path = some ra.id := by
      rw [hRp]
      exact hidpp
    have hpath : R.path = A.path :=
      idOf_inj_of_nodup ids hsnd R.path A.path ra.id hRid hra.1
    have hRA : R = A := List.inj_on_of_nodup_map hNodup hR hA hpath
    refine ⟨Q', hQ', hq', ?_, ?_⟩
    · rw [← hRp, hRA]
    · rw [hRd, hRA]

/-- the recursive CTE step from a yield's row finds exactly the row of the
next chain element when the query's pairs pin its name at its depth -/
theorem cteStep_link (seen : List PathV) (db : MediaDb) (ids : List (Str × Nat))
    (hinv : UpdInv seen db ids) (pairs : List (Bytes × Int))
    (A B : PathV) (hA : A ∈ seen) (hB : B ∈ seen)
    (hpar : B.parent = A.path) (hdep : B.depth = A.depth + 1)
    (ra rb : PathsRow) (hra : QRowOk ids A ra)
    (hrb : rb ∈ db.paths) (hqb : QRowOk ids B rb)
    (hmem : ((fsencode B.name).getD [], B.depth) ∈ pairs)
    (huniq : ∀ nd ∈ pairs, nd.2 = B.depth →
      nd.1 = (fsencode B.name).getD []) :
    cteStep db.paths pairs ra = [rb] := by
  have hinv2 := hinv
  obtain ⟨hTbl, hNext, hLen, hRowAnc, hAncCh, hIdsFst, hIdsSnd, hNodup, hSeen,
    hPw, hQR, hRQ⟩ := hinv2
  have hndid : (db.paths.map PathsRow.id).Nodup := tbl_id_nodup _ hTbl.1
  have hnd : db.paths.Nodup := hndid.of_map
  rw [cteStep]
  apply nodup_filter_singleton _ rb _ hnd hrb
  · simp only [decide_eq_true_eq]
    refine ⟨?_, ?_⟩
    · rw [hqb.2.2.2.2, hpar, hra.1]
    · rw [List.any_eq_true]
      refine ⟨((fsencode B.name).getD [], B.depth), hmem, ?_⟩
      simp only [decide_eq_true_eq]
      exact ⟨hqb.2.1, hqb.2.2.2.1⟩
  · intro y hy hpy
    have hpy' := of_decide_eq_true hpy
    obtain ⟨hpid, hany⟩ := hpy'
    rw [List.any_eq_true] at hany
    obtain ⟨nd, hnd', hmatch'⟩ := hany
    have hmatch := of_decide_eq_true hmatch'
    obtain ⟨Q', hQ', hq', hq'par, hq'dep⟩ :=
      row_child_of seen db ids hinv A hA ra hra y hy hpid
    have hd : nd.2 = B.depth := by
      rw [← hmatch.2, hq'.2.2.2.1, hq'dep, hdep]
    have hn1 : nd.1 = (fsencode B.name).getD [] := huniq nd hnd' hd
    have hyname : y.name = (fsencode B.name).getD [] := by
      rw [hmatch.1, hn1]
    have hencQ : (fsencode Q'.name).getD [] = (fsencode B.name).getD [] := by
      rw [← hq'.2.1, hyname]
    have henc : fsencode Q'.name = fsencode B.name :=
      getD_encode_inj _ _ (wfNameB_spec _ (hSeen Q' hQ').1).2.2.2.2
        (wfNameB_spec _ (hSeen B hB).1).2.2.2.2 hencQ
    have hparQ : Q'.parent = B.parent := by
      rw [hq'par, hpar]
    have hsym : Symmetric (fun Q R : PathV =>
        ¬(Q.parent = R.parent ∧ fsencode Q.name = fsencode R.name)) := by
      intro x y h hxy
      exact h ⟨hxy.1.symm, hxy.2.symm⟩
    have hQB : Q' = B := by
      by_contra hne
      exact (hPw.forall hsym hQ' hB hne) ⟨hparQ, henc⟩
    have hidy : idOf ids Q'.path = some y.id := hq'.1
    rw [hQB] at hidy
    have h2 := hqb.1
    rw [hidy] at h2
    exact List.inj_on_of_nodup_map hndid hy hrb (Option.some_inj.mp h2)

/-- the base row of the CTE (name of the first component at depth 1) is
exactly the row of the chain's root -/
theorem cteStep_seed (seen : List PathV) (db : MediaDb) (ids : List (Str × Nat))
    (hinv : UpdInv seen db ids) (B : PathV) (hB : B ∈ seen)
    (rb : PathsRow) (hrb : rb ∈ db.paths) (hqb : QRowOk ids B rb)
    (hd1 : B.depth = 1) :
    db.paths.filter
      (fun r => r.name = (fsencode B.name).getD [] ∧ r.depth = 1) = [rb] := by
  obtain ⟨hTbl, hNext, hLen, hRowAnc, hAncCh, hIdsFst, hIdsSnd, hNodup, hSeen,
    hPw, hQR, hRQ⟩ := hinv
  have hndid : (db.paths.map PathsRow.id).Nodup := tbl_id_nodup _ hTbl.1
  have hnd : db.paths.Nodup := hndid.of_map
  have hBroot : B.parent = [] := by
    rcases (hSeen B hB).2.2 with ⟨hpe, _⟩ | ⟨R, hR, _, hRd⟩
    · exact hpe
    · have := (hSeen R hR).2.1
      omega
  apply nodup_filter_singleton _ rb _ hnd hrb
  · simp only [decide_eq_true_eq]
    refine ⟨hqb.2.1, ?_⟩
    rw [hqb.2.2.2.1, hd1]
  · intro y hy hpy
    have hpy' := of_decide_eq_true hpy
    obtain ⟨Q', hQ', hq'⟩ := hRQ y hy
    have hq'd : Q'.depth = 1 := by
      rw [← hq'.2.2.2.1]
      exact hpy'.2
    have hq'root : Q'.parent = [] := by
      rcases (hSeen Q' hQ').2.2 with ⟨hpe, _⟩ | ⟨R, hR, _, hRd⟩
      · exact hpe
      · have := (hSeen R hR).2.1
        omega
    have hencQ : (fsencode Q'.name).getD [] = (fsencode B.name).getD [] := by
      rw [← hq'.2.1]
      exact hpy'.1
    have henc : fsencode Q'.name = fsencode B.name :=
      getD_encode_inj _ _ (wfNameB_spec _ (hSeen Q' hQ').1).2.2.2.2
        (wfNameB_spec _ (hSeen B hB).1).2.2.2.2 hencQ
    have hparQ : Q'.parent = B.parent := by
      rw [hq'root, hBroot]
    have hsym : Symmetric (fun Q R : PathV =>
        ¬(Q.parent = R.parent ∧ fsencode Q.name = fsencode R.name)) := by
      intro x y h hxy
      exact h ⟨hxy.1.symm, hxy.2.symm⟩
    have hQB : Q' = B := by
      by_contra hne
      exact (hPw.forall hsym hQ' hB hne) ⟨hparQ, henc⟩
    have hidy : idOf ids Q'.path = some y.id := hq'.1
    rw [hQB] at hidy
    have h2 := hqb.1
    rw [hidy] at h2
    exact List.inj_on_of_nodup_map hndid hy hrb (Option.some_inj.mp h2)

/-- when every query pair sits at or above a yield's depth, the CTE step from
its row finds nothing -/
theorem cteStep_last (seen : List PathV) (db : MediaDb) (ids : List (Str × Nat))
    (hinv : UpdInv seen db ids) (pairs : List (Bytes × Int))
    (A : PathV) (hA : A ∈ seen) (ra : PathsRow) (hra : QRowOk ids A ra)
    (hbound : ∀ nd ∈ pairs, nd.2 ≤ A.depth) :
    cteStep db.paths pairs ra = [] := by
  rw [cteStep, List.filter_eq_nil_iff]
  intro y hy hcon'
  have hcon := of_decide_eq_true hcon'
  obtain ⟨hpid, hany⟩ := hcon
  obtain ⟨Q', hQ', hq', _, hq'dep⟩ :=
    row_child_of seen db ids hinv A hA ra hra y hy hpid
  rw [List.any_eq_true] at hany
  obtain ⟨nd, hnd', hmatch'⟩ := hany
  obtain ⟨hm1, hm2⟩ := of_decide_eq_true hmatch'
  have h1 := hbound nd hnd'
  have h2 : y.depth = Q'.depth := hq'.2.2.2.1
  omega

/-- along a yield's ancestor chain the store holds a matching row chain: the
first row is a depth-1 root row and each next row is the unique CTE successor
of the previous one -/
theorem seenChain_run (seen : List PathV) (db : MediaDb) (ids : List (Str × Nat))
    (hinv : UpdInv seen db ids) (pairs : List (Bytes × Int)) :
    ∀ (C : List PathV) (Q : PathV), SeenChain seen C Q →
    (∀ P ∈ C, (((fsencode P.name).getD [], P.depth) ∈ pairs ∧
      ∀ nd ∈ pairs, nd.2 = P.depth → nd.1 = (fsencode P.name).getD [])) →
    ∃ (r : PathsRow) (RL : List PathsRow),
      List.Forall₂ (fun P row => row ∈ db.paths ∧ QRowOk ids P row) C (r :: RL) ∧
      List.Chain (fun a b => cteStep db.paths pairs a = [b]) r RL ∧
      List.Chain (fun a b => b.parent_id = some a.id) r RL ∧
      r.parent_id = none ∧ r.depth = 1 := by
  have hinv2 := hinv
  obtain ⟨hTbl, hNext, hLen, hRowAnc, hAncCh, hIdsFst, hIdsSnd, hNodup, hSeen,
    hPw, hQR, hRQ⟩ := hinv2
  have hname : ∀ Q ∈ seen, Q.name ≠ [] :=
    fun Q hQ => (wfNameB_spec _ (hSeen Q hQ).1).1
  intro C Q h
  induction h with
  | root Q hQ hp h1 =>
    intro _
    obtain ⟨r, hr, hqr⟩ := hQR Q hQ
    refine ⟨r, [], List.Forall₂.cons ⟨hr, hqr⟩ List.Forall₂.nil,
      List.Chain.nil, List.Chain.nil, ?_, ?_⟩
    · rw [hqr.2.2.2.2, hp, idOf_nil_none seen ids hIdsFst hname]
    · rw [hqr.2.2.2.1, h1]
  | step C R Q hC hQ hpar hdep ih =>
    intro hpairs
    obtain ⟨r, RL, hF, hCh, hPCh, hrpid, hrd⟩ :=
      ih (fun P hP => hpairs P (List.mem_append_left _ hP))
    obtain ⟨rq, hrq, hqq⟩ := hQR Q hQ
    have hfacts := seenChain_facts seen C R hC
    obtain ⟨z, hz, hzrel⟩ := forall₂_getLast _ C (r :: RL) hF R hfacts.2.1
    obtain ⟨hzmem, hzq⟩ := hzrel
    have hQmem : Q ∈ C ++ [Q] := List.mem_append_right _ (List.mem_singleton.mpr rfl)
    have hlink : cteStep db.paths pairs z = [rq] :=
      cteStep_link seen db ids hinv pairs R Q hfacts.2.2.1 hQ hpar hdep z rq
        hzq hrq hqq (hpairs Q hQmem).1 (hpairs Q hQmem).2
    have hpid : rq.parent_id = some z.id := by
      rw [hqq.2.2.2.2, hpar, hzq.1]
    refine ⟨r, RL ++ [rq], ?_, ?_, ?_, hrpid, hrd⟩
    · have hF' := forall₂_snoc _ C (r :: RL) Q rq hF ⟨hrq, hqq⟩
      rw [List.cons_append] at hF'
      exact hF'
    · exact chain_snoc _ RL r rq z hCh hz hlink
    · exact chain_snoc _ RL r rq z hPCh hz hpid

/-! ## C2: evaluation of `PathByIdView` at a row with an explicit ancestor
chain -/

theorem map_fst_child {γ : Type} :
    ∀ J : List (AncRow × γ), J.map (fun ar => ar.1.child_id)
      = (J.map Prod.fst).map (fun a => a.child_id) := by
  intro J
  induction J with
  | nil => rfl
  | cons a J ih => simp [ih]

theorem pathById_generic (tbl : List PathsRow)
    (hnd : (tbl.map PathsRow.id).Nodup) (anc : List AncRow) (nn : Nat)
    (z : PathsRow) (S : List PathsRow) (hz : z ∈ tbl)
    (hmemS : ∀ y ∈ S, y ∈ tbl)
    (hfilter : anc.filter (fun a => a.child_id = z.id)
      = ⟨z.id, z.id, 0⟩ :: walkRows z.id 0 S) :
    PathByIdView ⟨tbl, anc, nn⟩ [z.id]
      = [⟨some z.id, some z.name, some z.is_dir,
          bytePath ((S.reverse ++ [z]).map PathsRow.name)⟩] := by
  have hspec := walkRows_spec z.id S 0
  have hfilter2 : anc.filter (fun a => [z.id].contains a.child_id)
      = ⟨z.id, z.id, 0⟩ :: walkRows z.id 0 S := by
    rw [← hfilter]
    apply List.filter_congr
    intro a _
    simp [List.contains_cons]
  have hallsome : ∀ a ∈ (⟨z.id, z.id, 0⟩ :: walkRows z.id 0 S : List AncRow),
      ((tbl.find? (fun r => r.id = a.ancestor_id)).map
        (fun r => (a, r))).isSome = true := by
    intro a ha
    rcases List.mem_cons.mp ha with h | h
    · subst h
      rw [show (⟨z.id, z.id, 0⟩ : AncRow).ancestor_id = z.id from rfl,
        find_by_id tbl hnd z hz]
      rfl
    · have hanc : a.ancestor_id ∈ S.map PathsRow.id := by
        rw [← hspec.1]
        exact List.mem_map_of_mem _ h
      rcases List.mem_map.mp hanc with ⟨y, hyS, hyid⟩
      rw [← hyid, find_by_id tbl hnd y (hmemS y hyS)]
      rfl
  have hjmapfst : ((⟨z.id, z.id, 0⟩ :: walkRows z.id 0 S : List AncRow).filterMap
      (fun a => (tbl.find? (fun r => r.id = a.ancestor_id)).map
        (fun r => (a, r)))).map Prod.fst
      = ⟨z.id, z.id, 0⟩ :: walkRows z.id 0 S := by
    have := filterMap_pair_fst
      (fun a : AncRow => tbl.find? (fun r => r.id = a.ancestor_id))
      (⟨z.id, z.id, 0⟩ :: walkRows z.id 0 S)
      (by
        intro a ha
        have h2 := hallsome a ha
        cases hfa : tbl.find? (fun r => r.id = a.ancestor_id) with
        | none => rw [hfa] at h2; simp at h2
        | some y => simp [hfa])
    exact this
  have hallz : ∀ a ∈ (⟨z.id, z.id, 0⟩ :: walkRows z.id 0 S : List AncRow),
      a.child_id = z.id := by
    intro a ha
    rcases List.mem_cons.mp ha with h | h
    · subst h
      rfl
    · exact (hspec.2.1 a h).1
  have hcids : sortDedup (((⟨z.id, z.id, 0⟩ :: walkRows z.id 0 S :
      List AncRow)).map (fun a => a.child_id)) = [z.id] := by
    rw [List.map_cons]
    apply sortDedup_const
    intro x hx
    rcases List.mem_map.mp hx with ⟨a, ha, hax⟩
    rw [← hax]
    exact (hspec.2.1 a ha).1
  have hgrpfilter : ((⟨z.id, z.id, 0⟩ :: walkRows z.id 0 S :
      List AncRow)).filter (fun a => a.child_id = z.id)
      = ⟨z.id, z.id, 0⟩ :: walkRows z.id 0 S := by
    rw [List.filter_eq_self]
    intro a ha
    simp only [decide_eq_true_eq]
    exact hallz a ha
  have hpw : List.Pairwise (fun a b => b.reldepth < a.reldepth)
      (⟨z.id, z.id, 0⟩ :: walkRows z.id 0 S : List AncRow) := by
    refine List.Pairwise.cons ?_ hspec.2.2
    intro a ha
    have h2 := (hspec.2.1 a ha).2
    show a.reldepth < (0 : Int)
    simpa using h2
  have hsort : sortByRd (⟨z.id, z.id, 0⟩ :: walkRows z.id 0 S : List AncRow)
      = (walkRows z.id 0 S).reverse ++ [⟨z.id, z.id, 0⟩] := by
    rw [sortByRd_desc _ hpw, List.reverse_cons]
  have hrowsT : ((walkRows z.id 0 S).reverse ++ [⟨z.id, z.id, 0⟩] :
      List AncRow).map (fun a => a.ancestor_id)
      = (S.reverse ++ [z]).map PathsRow.id := by
    rw [List.map_append, List.map_append, List.map_reverse, List.map_reverse,
      hspec.1]
    rfl
  have hmemT : ∀ t ∈ S.reverse ++ [z], t ∈ tbl := by
    intro t ht
    rcases List.mem_append.mp ht with h | h
    · exact hmemS t (List.mem_reverse.mp h)
    · rw [List.mem_singleton.mp h]
      exact hz
  have hrows : ((walkRows z.id 0 S).reverse ++ [⟨z.id, z.id, 0⟩] :
      List AncRow).filterMap
      (fun a => tbl.find? (fun r => r.id = a.ancestor_id))
      = S.reverse ++ [z] :=
    filterMap_find_rows tbl hnd (S.reverse ++ [z]) _ hrowsT hmemT
  simp only [PathByIdView]
  rw [hfilter2]
  rw [map_fst_child, hjmapfst, hcids]
  simp only [List.map_cons, List.map_nil]
  rw [hgrpfilter, hsort, hrows, List.getLast?_concat]
  rfl

/-! ## C2: evaluation of both read views at a yield of a root-started scan -/

theorem views_eval (seen : List PathV) (db : MediaDb) (ids : List (Str × Nat))
    (hinv : UpdInv seen db ids) (hfull : AncFull db)
    (Q : PathV) (hQ : Q ∈ seen) :
    ∃ (z : PathsRow) (B : Bytes), z ∈ db.paths ∧ QRowOk ids Q z ∧
      fsencode Q.path = some B ∧ z.depth = Q.depth ∧
      IdentifyPathView db Q.path
        = [⟨some z.id, some z.name, B, some z.is_dir, some z.depth⟩] ∧
      PathByIdView db [z.id]
        = [⟨some z.id, some z.name, some z.is_dir, B⟩] := by
  have hinv2 := hinv
  obtain ⟨hTbl, hNext, hLen, hRowAnc, hAncCh, hIdsFst, hIdsSnd, hNodup, hSeen,
    hPw, hQR, hRQ⟩ := hinv2
  have hW : ∀ P ∈ seen, wfNameB P.name = true := fun P hP => (hSeen P hP).1
  have hndid : (db.paths.map PathsRow.id).Nodup := tbl_id_nodup _ hTbl.1
  obtain ⟨C, hC⟩ := seenChain_exists seen hSeen Q hQ
  obtain ⟨P0, Ctail, rfl⟩ : ∃ P0 Ctail, C = P0 :: Ctail := by
    cases C with
    | nil => exact absurd rfl (seenChain_facts seen [] Q hC).1
    | cons a b => exact ⟨a, b, rfl⟩
  obtain ⟨hCne, hClast, _, hClen, hCget⟩ := seenChain_facts seen _ Q hC
  have hsplit := seenChain_splitOn seen hW _ Q hC
  have hencQ := seenChain_encode seen hW _ Q hC
  have hnames : (Q.path.splitOn 47).map (fun c => (fsencode c).getD [])
      = (P0 :: Ctail).map (fun P => (fsencode P.name).getD []) := by
    rw [hsplit, List.map_map]
    rfl
  have hCseen : ∀ P ∈ (P0 :: Ctail), P ∈ seen := by
    intro P hP
    obtain ⟨⟨i, hi⟩, hgi⟩ := List.mem_iff_get.mp hP
    rw [← hgi]
    exact (hCget i hi).1
  have hclean : ∀ e ∈ (P0 :: Ctail).map (fun P => (fsencode P.name).getD []),
      e ≠ [] ∧ ¬ 47 ∈ e := by
    intro e he
    rcases List.mem_map.mp he with ⟨P, hP, hPe⟩
    rw [← hPe]
    exact enc_clean P (hW P (hCseen P hP))
  have hpairs : ∀ P ∈ (P0 :: Ctail),
      (((fsencode P.name).getD [], P.depth)
        ∈ ((P0 :: Ctail).map (fun P => (fsencode P.name).getD [])).enum.map
          (fun ci => (ci.2, (ci.1 : Int) + 1))) ∧
      ∀ nd ∈ ((P0 :: Ctail).map (fun P => (fsencode P.name).getD [])).enum.map
          (fun ci => (ci.2, (ci.1 : Int) + 1)),
        nd.2 = P.depth → nd.1 = (fsencode P.name).getD [] := by
    intro P hP
    obtain ⟨⟨i, hi⟩, hgi⟩ := List.mem_iff_get.mp hP
    have hdepP : P.depth = (i : Int) + 1 := by
      rw [← hgi]
      exact (hCget i hi).2
    have hmlen : i < ((P0 :: Ctail).map
        (fun P => (fsencode P.name).getD [])).length := by
      rw [List.length_map]
      exact hi
    have hget : ((P0 :: Ctail).map
        (fun P => (fsencode P.name).getD [])).get ⟨i, hmlen⟩
        = (fsencode P.name).getD [] := by
      rw [List.get_eq_getElem, List.getElem_map]
      rw [List.get_eq_getElem] at hgi
      rw [hgi]
    constructor
    · have hmem0 := enumFrom_get_mem
        ((P0 :: Ctail).map (fun P => (fsencode P.name).getD [])) 0 i hmlen
      rw [Nat.zero_add] at hmem0
      rw [hget] at hmem0
      have hmem1 := List.mem_map_of_mem
        (fun ci : Nat × Bytes => (ci.2, (ci.1 : Int) + 1)) hmem0
      rw [hdepP]
      exact hmem1
    · intro nd hnd hdepnd
      rcases List.mem_map.mp hnd with ⟨ci, hci, hcieq⟩
      obtain ⟨j, hj, hcij⟩ := enumFrom_mem_spec _ 0 ci hci
      rw [Nat.zero_add] at hcij
      have hnd2 : nd.2 = (j : Int) + 1 := by
        rw [← hcieq, hcij]
      have hnd1 : nd.1 = ((P0 :: Ctail).map
          (fun P => (fsencode P.name).getD [])).get ⟨j, hj⟩ := by
        rw [← hcieq, hcij]
      have hjeq : j = i := by
        rw [hnd2, hdepP] at hdepnd
        omega
      subst hjeq
      rw [hnd1]
      exact hget
  obtain ⟨r, RL, hF, hCh, hPCh, hrpid, hrd1⟩ :=
    seenChain_run seen db ids hinv
      (((P0 :: Ctail).map (fun P => (fsencode P.name).getD [])).enum.map
        (fun ci => (ci.2, (ci.1 : Int) + 1))) _ Q hC hpairs
  obtain ⟨z, hzlast, hzrel⟩ := forall₂_getLast _ _ (r :: RL) hF Q hClast
  obtain ⟨hzmem, hzq⟩ := hzrel
  have hhd : r ∈ db.paths ∧ QRowOk ids P0 r := by
    cases hF with
    | cons h1 h2 => exact h1
  have hmapnames : (r :: RL).map PathsRow.name
      = (P0 :: Ctail).map (fun P => (fsencode P.name).getD []) :=
    forall₂_map_eq (fun P => (fsencode P.name).getD []) PathsRow.name _
      (fun a b hab => hab.2.2.1) _ (r :: RL) hF
  have hbp : bytePath ((P0 :: Ctail).map (fun P => (fsencode P.name).getD []))
      = List.intercalate [47]
        ((P0 :: Ctail).map (fun P => (fsencode P.name).getD [])) :=
    bytePath_clean _ (by simp) hclean
  have hzdep : z.depth = Q.depth := hzq.2.2.2.1
  have hFlen : RL.length + 1 = Ctail.length + 1 := by
    have := hF.length_eq
    simpa using this.symm
  -- decomposition of the row chain from the leaf
  obtain ⟨S, hS⟩ : ∃ S, (r :: RL).reverse = z :: S := by
    cases hrv : (r :: RL).reverse with
    | nil => exact absurd (congrArg List.length hrv) (by simp)
    | cons a S =>
      refine ⟨S, ?_⟩
      have hga : (r :: RL).getLast? = some a := by
        rw [List.getLast?_eq_head?_reverse, hrv]
        rfl
      rw [hzlast] at hga
      have hza : z = a := Option.some_inj.mp hga
      rw [← hza]
  have hSfromRL : S.reverse ++ [z] = r :: RL := by
    have h2 := congrArg List.reverse hS
    rw [List.reverse_reverse, List.reverse_cons] at h2
    exact h2.symm
  have hmemRL : ∀ row ∈ r :: RL, row ∈ db.paths := by
    intro row hrow
    obtain ⟨P, _, hrel⟩ := forall₂_mem_right _ _ (r :: RL) hF row hrow
    exact hrel.1
  have hmemS : ∀ y ∈ S, y ∈ db.paths := by
    intro y hy
    have h2 : y ∈ (r :: RL).reverse := by
      rw [hS]
      exact List.mem_cons_of_mem _ hy
    exact hmemRL y (List.mem_reverse.mp h2)
  have hChainRev : List.Chain (fun a b => a.parent_id = some b.id) z S := by
    have h1 : List.Chain' (fun a b => b.parent_id = some a.id) (r :: RL) := hPCh
    have h2 := List.chain'_reverse.mpr h1
    rw [hS] at h2
    exact h2
  have hlastS : ∀ w, (z :: S).getLast? = some w → w.parent_id = none := by
    intro w hw
    rw [← hS, List.getLast?_reverse] at hw
    have hrw : r = w := by simpa using hw
    rw [← hrw]
    exact hrpid
  have hzid := id_bounds db.paths hTbl.1 z hzmem
  have hdlei := depth_le_id db.paths hTbl z.id z hzmem (Nat.le_refl _)
  have hSlen : S.length < db.paths.length := by
    have h1 : S.length + 1 = RL.length + 1 := by
      have := congrArg List.length hS
      simpa using this.symm
    have h3 : ((Ctail.length + 1 : Nat) : Int) = z.depth := by
      rw [hzdep, ← hClen]
      simp
    omega
  have hwalk : ancWalkF db.paths z.id db.paths.length z.id 0
      = walkRows z.id 0 S :=
    ancWalk_links db.paths hndid z.id S z db.paths.length 0 hzmem hmemS
      hChainRev hlastS hSlen
  have hfilterz : db.ancestors.filter (fun a => a.child_id = z.id)
      = ⟨z.id, z.id, 0⟩ :: walkRows z.id 0 S := by
    rw [hfull z hzmem, triggerRows, hwalk]
  have hPB : PathByIdView db [z.id] = [⟨some z.id, some z.name, some z.is_dir,
      bytePath ((S.reverse ++ [z]).map PathsRow.name)⟩] :=
    pathById_generic db.paths hndid db.ancestors db.nextId z S hzmem hmemS
      hfilterz
  have hPB2 : PathByIdView db [z.id] = [⟨some z.id, some z.name, some z.is_dir,
      List.intercalate [47]
        ((P0 :: Ctail).map (fun P => (fsencode P.name).getD []))⟩] := by
    rw [hPB, hSfromRL, hmapnames, hbp]
  -- the `IdentifyPathView` evaluation, by cases on the chain length
  have hIview : IdentifyPathView db Q.path
      = [⟨some z.id, some z.name,
          List.intercalate [47]
            ((P0 :: Ctail).map (fun P => (fsencode P.name).getD [])),
          some z.is_dir, some z.depth⟩] := by
    rcases Ctail with _ | ⟨P1, Ct2⟩
    · -- a single component: the non-recursive branch
      have hQP0 : P0 = Q := by simpa using hClast
      have hd1 : Q.depth = 1 := by
        have := hClen.symm
        simpa using this
      have hfeq : db.paths.filter (fun r => some r.name
            = ([P0].map (fun P => (fsencode P.name).getD [])).head?
            ∧ r.depth = 1)
          = db.paths.filter
            (fun r => r.name = (fsencode Q.name).getD [] ∧ r.depth = 1) := by
        apply List.filter_congr
        intro r _
        rw [decide_eq_decide]
        rw [hQP0]
        simp
      have hseed := cteStep_seed seen db ids hinv Q hQ z hzmem hzq hd1
      have hbp1 : bytePath [z.name] = z.name := by
        rw [bytePath, List.foldl_cons, List.foldl_nil, join2_nil_left]
      simp only [IdentifyPathView]
      rw [hnames]
      rw [if_pos (by simp)]
      rw [hfeq, hseed]
      simp only [List.getLast?_singleton, Option.map_some', List.map_cons,
        List.map_nil]
      rw [hbp1, intercalate_single, hzq.2.1, hQP0]
    · -- at least two components: the recursive CTE branch
      have hhead : (((P0 :: P1 :: Ct2).map
          (fun P => (fsencode P.name).getD [])).enum.map
          (fun ci => (ci.2, (ci.1 : Int) + 1))).head?
          = some ((fsencode P0.name).getD [], 1) := by
        simp [List.enum_cons]
      have hP0seen : P0 ∈ seen := hCseen P0 (List.mem_cons_self _ _)
      have hP0d : P0.depth = 1 := by
        have := (hCget 0 (by simp)).2
        simpa using this
      have hfeq2 : db.paths.filter (fun r =>
            ((((P0 :: P1 :: Ct2).map
              (fun P => (fsencode P.name).getD [])).enum.map
              (fun ci => (ci.2, (ci.1 : Int) + 1))).head?).any
              (fun nd => r.name = nd.1 ∧ r.depth = nd.2))
          = db.paths.filter
            (fun r => r.name = (fsencode P0.name).getD [] ∧ r.depth = 1) := by
        apply List.filter_congr
        intro r _
        rw [hhead]
        rfl
      have hseedB := cteStep_seed seen db ids hinv P0 hP0seen r hhd.1 hhd.2 hP0d
      have hplen : (((P0 :: P1 :: Ct2).map
          (fun P => (fsencode P.name).getD [])).enum.map
          (fun ci => (ci.2, (ci.1 : Int) + 1))).length = Ct2.length + 2 := by
        simp [List.enum_length]
      obtain ⟨f', hf'⟩ : ∃ f', (db.paths.length + 1) *
          ((((P0 :: P1 :: Ct2).map
            (fun P => (fsencode P.name).getD [])).enum.map
            (fun ci => (ci.2, (ci.1 : Int) + 1))).length + 1) = f' + 1 := by
        have hpos : 0 < (db.paths.length + 1) *
            ((((P0 :: P1 :: Ct2).map
              (fun P => (fsencode P.name).getD [])).enum.map
              (fun ci => (ci.2, (ci.1 : Int) + 1))).length + 1) :=
          Nat.mul_pos (by omega) (by omega)
        exact Nat.exists_eq_succ_of_ne_zero (Nat.pos_iff_ne_zero.mp hpos)
      have hge : ((((P0 :: P1 :: Ct2).map
          (fun P => (fsencode P.name).getD [])).enum.map
          (fun ci => (ci.2, (ci.1 : Int) + 1))).length + 1)
          ≤ (db.paths.length + 1) *
          ((((P0 :: P1 :: Ct2).map
            (fun P => (fsencode P.name).getD [])).enum.map
            (fun ci => (ci.2, (ci.1 : Int) + 1))).length + 1) :=
        Nat.le_mul_of_pos_left _ (by omega)
      have hlaststep : ∀ w, (r :: RL).getLast? = some w →
          cteStep db.paths (((P0 :: P1 :: Ct2).map
            (fun P => (fsencode P.name).getD [])).enum.map
            (fun ci => (ci.2, (ci.1 : Int) + 1))) w = [] := by
        intro w hw
        rw [hzlast] at hw
        have hwz : z = w := Option.some_inj.mp hw
        rw [← hwz]
        refine cteStep_last seen db ids hinv _ Q hQ z hzq ?_
        intro nd hnd
        rcases List.mem_map.mp hnd with ⟨ci, hci, hcieq⟩
        obtain ⟨j, hj, hcij⟩ := enumFrom_mem_spec _ 0 ci hci
        have hnd2 : nd.2 = ((0 + j : Nat) : Int) + 1 := by
          rw [← hcieq, hcij]
        have hjlt : j < Ct2.length + 2 := by
          rw [List.length_map] at hj
          simpa using hj
        rw [hnd2, ← hClen]
        simp only [List.length_cons]
        push_cast
        omega
      have hrun : cteRun db.paths (((P0 :: P1 :: Ct2).map
          (fun P => (fsencode P.name).getD [])).enum.map
          (fun ci => (ci.2, (ci.1 : Int) + 1))) (f' + 1) [r] = r :: RL := by
        apply cteRun_chain db.paths _ RL r f' ?_ hCh hlaststep
        have h5 : RL.length + 1 = Ct2.length + 2 := by
          simpa using hFlen
        have h6 := hge
        rw [hf', hplen] at h6
        omega
      have hcond : z.depth = (((P0 :: P1 :: Ct2).map
          (fun P => (fsencode P.name).getD [])).length : Int) := by
        rw [hzdep, ← hClen, List.length_map]
      simp only [IdentifyPathView]
      rw [hnames]
      rw [if_neg (by simp)]
      rw [hfeq2, hseedB, hf', hrun]
      simp only [hzlast]
      rw [if_pos hcond, hmapnames, hbp]
  exact ⟨z, List.intercalate [47]
      ((P0 :: Ctail).map (fun P => (fsencode P.name).getD [])),
    hzmem, hzq, hencQ, hzdep, hIview, hPB2⟩

/-- C2 (corrected): after the update pass over a root-started,
walker-well-formed yield sequence, for every yielded path P (the files and
directories under the start that passed the filters), `IdentifyPathView` on
P's joined relative form returns exactly one record: its `path` column is the
raw `os.fsencode` byte form of that relative path, its id is the id of P's
committed row, and its depth is P's depth; and `PathByIdView` on that id
returns exactly one record whose `path` column carries the same bytes — the
two read views round-trip through the store.  When `update` is started at a
nested path instead of the root, the round trip fails: the start row is
committed with a NULL parent link at depth > 1, the query's depth-1 seed is
empty, and `IdentifyPathView` returns no row at all (see the
counterexample). -/
theorem c2_view_roundtrip (l : List PathV) (h : WfScan l)
    (Q : PathV) (hQ : Q ∈ l) :
    ∃ (R : IdRec) (rid : Nat) (B : Bytes),
      IdentifyPathView (update l) Q.path = [R] ∧
      fsencode Q.path = some B ∧ R.path = B ∧ R.id = some rid ∧
      R.depth = some Q.depth ∧
      ∃ S : PbRec, PathByIdView (update l) [rid] = [S] ∧
        S.path = R.path ∧ S.id = some rid := by
  obtain ⟨ids, hinv⟩ := update_inv l h
  have hfull := update_ancFull l h
  have hQ' : Q ∈ l.reverse := List.mem_reverse.mpr hQ
  obtain ⟨z, B, hzmem, hzq, hB, hzdep, hI, hP⟩ :=
    views_eval l.reverse (update l) ids hinv hfull Q hQ'
  refine ⟨⟨some z.id, some z.name, B, some z.is_dir, some z.depth⟩, z.id, B,
    hI, hB, rfl, rfl, ?_,
    ⟨some z.id, some z.name, some z.is_dir, B⟩, hP, rfl, rfl⟩
  rw [hzdep]

/-- C2 witness: on the two-yield root scan of the tree `a/b`, the view
round-trip holds concretely at the yield `a/b` -/
theorem c2_view_roundtrip_witness :
    ∃ (R : IdRec) (rid : Nat) (B : Bytes),
      IdentifyPathView (update lC1ex) pC2ex.path = [R] ∧
      fsencode pC2ex.path = some B ∧ R.path = B ∧ R.id = some rid ∧
      R.depth = some pC2ex.depth ∧
      ∃ S : PbRec, PathByIdView (update lC1ex) [rid] = [S] ∧
        S.path = R.path ∧ S.id = some rid :=
  c2_view_roundtrip lC1ex (by decide) pC2ex (by decide)

/-- C2 counterexample: running the update pass with the nested start path
`a/b` over the tree `a/b` commits a nonempty store, yet
`IdentifyPathView('a/b')` on that store returns no record at all — its
depth-1 seed matches nothing because the lone committed row has depth 2 — so
the views do not round-trip for every store the update pass produces -/
theorem c2_counterexample :
    (update_fs fsAB [97, 47, 98] [] canonId).paths ≠ [] ∧
    IdentifyPathView (update_fs fsAB [97, 47, 98] [] canonId) [97, 47, 98]
      = [] := by
  constructor
  · decide
  · decide

end Cherry
